import Mathlib

/-!
Verification of the directory-synchronization routine `sync_files` from
`mcpackage/util.py` (lines 152-278).

The filesystem is modelled shallowly: a directory entry is either a regular
file carrying its modification time and content, or a directory carrying its
modification time and a list of named children.  Relative paths
(`os.path`-style strings joined with separators) are modelled as lists of
path components; `os.path.dirname` corresponds to `List.dropLast`, and the
`while dir_path:` ancestor-recording loop of the source corresponds to
`dirChain` below.  Python `set`s are modelled as lists used only through
membership; the Python `dict` `src_files` is modelled as an association
list with dict-like insert/delete.

Mutating filesystem calls (`shutil.copy2`, `shutil.rmtree`, `os.remove`,
`os.makedirs`) act on the modelled destination tree and are additionally
recorded in an operation log so that claims about "which file operations a
call performs" are expressible.  Fallible calls return `Except SyncErr`;
absence of an error models a call of `sync_files` that returns without
raising.

A second, smaller model with symbolic links (`SEntry`) is used for the
cycle-detection claim, because `os.walk(..., followlinks=True)` on a tree
with a symlink loop is the one place where symlink resolution and the
process working directory matter.
-/

namespace MCPackage

/-- A relative path: the components of an `os.path`-style relative path. -/
abbrev RelPath := List String

/-- The `while dir_path:` loop of `sync_files` (util.py lines 177-180 and
192-195): starting from `os.path.dirname(file_path)`, record every nonempty
proper ancestor directory path (`os.path.dirname` drops the last
component).  The loop produces them longest-first; they are recorded into a
set, so only membership matters, and this equivalent structural recursion
lists them shortest-first. -/
def dirChain : RelPath → List RelPath
  | [] => []
  | [_] => []
  | n :: m :: rest => [n] :: (dirChain (m :: rest)).map (fun q => n :: q)

/-- A filesystem entry: a regular file (modification time, content) or a
directory (modification time, named children). -/
inductive Entry where
  | file (mtime : Int) (content : String)
  | dir (mtime : Int) (children : List (String × Entry))
deriving Repr

/-- The children of a directory. -/
abbrev Tree := List (String × Entry)

mutual
def decEqEntry : (a b : Entry) → Decidable (a = b)
  | .file m c, .file m' c' =>
    if h1 : m = m' then
      if h2 : c = c' then .isTrue (by rw [h1, h2])
      else .isFalse (fun h => by cases h; exact h2 rfl)
    else .isFalse (fun h => by cases h; exact h1 rfl)
  | .file _ _, .dir _ _ => .isFalse (fun h => by cases h)
  | .dir _ _, .file _ _ => .isFalse (fun h => by cases h)
  | .dir m cs, .dir m' cs' =>
    if h1 : m = m' then
      match decEqTree cs cs' with
      | .isTrue h2 => .isTrue (by rw [h1, h2])
      | .isFalse h2 => .isFalse (fun h => by cases h; exact h2 rfl)
    else .isFalse (fun h => by cases h; exact h1 rfl)

def decEqTree : (a b : Tree) → Decidable (a = b)
  | [], [] => .isTrue rfl
  | [], _ :: _ => .isFalse (fun h => by cases h)
  | _ :: _, [] => .isFalse (fun h => by cases h)
  | (n, e) :: r, (n', e') :: r' =>
    if h1 : n = n' then
      match decEqEntry e e' with
      | .isTrue h2 =>
        match decEqTree r r' with
        | .isTrue h3 => .isTrue (by rw [h1, h2, h3])
        | .isFalse h3 => .isFalse (fun h => by cases h; exact h3 rfl)
      | .isFalse h2 => .isFalse (fun h => by cases h; exact h2 rfl)
    else .isFalse (fun h => by cases h; exact h1 rfl)
end

instance : DecidableEq Entry := decEqEntry

instance {ε α : Type} [DecidableEq ε] [DecidableEq α] : DecidableEq (Except ε α) :=
  fun a b =>
    match a, b with
    | .ok x, .ok y =>
      if h : x = y then .isTrue (by rw [h]) else .isFalse (fun hh => by cases hh; exact h rfl)
    | .error x, .error y =>
      if h : x = y then .isTrue (by rw [h]) else .isFalse (fun hh => by cases hh; exact h rfl)
    | .ok _, .error _ => .isFalse (fun hh => by cases hh)
    | .error _, .ok _ => .isFalse (fun hh => by cases hh)

mutual
/-- Follow a relative path from an entry (the entry found at `root + path`,
modelling `os.path` lookups under a root). -/
def findEntry : Entry → RelPath → Option Entry
  | e, [] => some e
  | .file _ _, _ :: _ => none
  | .dir _ cs, n :: rest => findInList cs n rest

def findInList : Tree → String → RelPath → Option Entry
  | [], _, _ => none
  | (n', e) :: cs, n, p => if n' = n then findEntry e p else findInList cs n p
end

mutual
/-- Well-formedness of a filesystem entry: sibling names are distinct at
every level (as on a real filesystem, where a directory cannot contain two
entries with the same name). -/
def wfbEntry : Entry → Bool
  | .file _ _ => true
  | .dir _ cs => ((cs.map Prod.fst).Nodup : Bool) && wfbTree cs

def wfbTree : Tree → Bool
  | [] => true
  | (_, e) :: rest => wfbEntry e && wfbTree rest
end

/-- `os.path.getmtime(root + path)`: the modification time of the entry at
`path` under `root`, or `none` when the path does not exist (in which case
the real call raises `FileNotFoundError`).  Note `getmtime` succeeds on
directories as well as files. -/
def getmtime (root : Entry) (p : RelPath) : Option Int :=
  match findEntry root p with
  | some (.file m _) => some m
  | some (.dir m _) => some m
  | none => none

/-! ### The `src_files` dict (util.py line 186)

`src_files` maps each relative file path to the source modified time.  It is
modelled as an association list with Python-dict semantics: assignment
replaces the value of an existing key in place, `del` removes the key, and
iteration order is insertion order. -/

abbrev SrcMap := List (RelPath × Int)

def smLookup : SrcMap → RelPath → Option Int
  | [], _ => none
  | (k, v) :: rest, p => if k = p then some v else smLookup rest p

/-- Python dict assignment `src_files[file_path] = mtime`. -/
def smInsert : SrcMap → RelPath → Int → SrcMap
  | [], p, v => [(p, v)]
  | (k, w) :: rest, p, v => if k = p then (p, v) :: rest else (k, w) :: smInsert rest p v

/-- Python dict deletion `del src_files[file_path]`. -/
def smErase : SrcMap → RelPath → SrcMap
  | [], _ => []
  | (k, w) :: rest, p => if k = p then rest else (k, w) :: smErase rest p

def smKeys (m : SrcMap) : List RelPath := m.map Prod.fst

/-! ### Errors and operations -/

/-- The exceptions `sync_files` can raise, by OS error kind:
`enoent` is `FileNotFoundError` (e.g. `os.path.getmtime` of a missing
source path), `cycle` is the explicit recursion `Exception` of util.py
line 210, `isdir` is `IsADirectoryError` (`shutil.copy2` applied to a
directory), `enotdir` is `NotADirectoryError` (a path component that is a
regular file), and `eexist` is `FileExistsError` (`os.makedirs` of an
existing path, util.py line 272-275). -/
inductive SyncErr where
  | enoent (p : RelPath)
  | cycle (firstAt secondAt : RelPath)
  | isdir (p : RelPath)
  | enotdir (p : RelPath)
  | eexist
deriving Repr, DecidableEq

/-- The destination-tree file operations performed by a call, recorded in
order.  `mkdirExistsTolerated` records that `os.makedirs` raised
`FileExistsError` (errno `EEXIST`) and `sync_files` swallowed it
(util.py lines 271-275). -/
inductive Op where
  | rmtree (p : RelPath)
  | remove (p : RelPath)
  | copy (p : RelPath)
  | mkdir (p : RelPath)
  | mkdirExistsTolerated (p : RelPath)
deriving Repr, DecidableEq

/-! ### Discovery phase -/

/-- Keep-set construction, util.py lines 172-183: for each path in `keep`,
its nonempty proper ancestors go into `keep_dirs` and the path itself into
`keep_files`.  The Python sets are modelled as lists used only through
membership. -/
def keepSets : Option (List RelPath) → List RelPath × List RelPath
  | none => ([], [])
  | some ks => (ks.flatMap dirChain, ks)

/-- The `files is not None` discovery branch, util.py lines 187-198: for
each supplied relative path, record its ancestor chain into `src_dirs` and
its source modification time into `src_files`; a path missing under the
source root makes `os.path.getmtime` raise `FileNotFoundError`. -/
def discoverFiles (src : Entry) : List RelPath → List RelPath → SrcMap →
    Except SyncErr (List RelPath × SrcMap)
  | [], sd, sm => .ok (sd, sm)
  | p :: rest, sd, sm =>
    match getmtime src p with
    | some mt => discoverFiles src rest (sd ++ dirChain p) (smInsert sm p mt)
    | none => .error (.enoent p)

mutual
/-- The `files is None` discovery branch, util.py lines 200-233: walk the
source tree, recording every subdirectory into `src_dirs` and every file
with its modification time into `src_files`.  This plain model has no
symbolic links, so the realpath-keyed recursion check of lines 207-215
(whose key for distinct relative parents is always distinct when no links
are involved) can never fire and `os.walk` is ordinary structural
traversal; the symlink behavior of that check is modelled separately by
`SymFs.walkDisc` below. -/
def discoverWalkTree (parent : RelPath) : Tree → List RelPath → SrcMap →
    List RelPath × SrcMap
  | [], sd, sm => (sd, sm)
  | (n, e) :: rest, sd, sm =>
    let (sd', sm') := discoverWalkEntry parent n e sd sm
    discoverWalkTree parent rest sd' sm'

def discoverWalkEntry (parent : RelPath) (n : String) : Entry → List RelPath → SrcMap →
    List RelPath × SrcMap
  | .file m _, sd, sm => (sd, smInsert sm (parent ++ [n]) m)
  | .dir _ kids, sd, sm => discoverWalkTree (parent ++ [n]) kids (sd ++ [parent ++ [n]]) sm
end

/-- Discovery phase of `sync_files`: build `(src_dirs, src_files)` from
either the explicit `files` iterable or a walk of the source tree.
`os.walk` of a path that is not a directory yields nothing, leaving both
sets empty. -/
def discover (src : Entry) : Option (List RelPath) → Except SyncErr (List RelPath × SrcMap)
  | some files => discoverFiles src files [] []
  | none =>
    match src with
    | .dir _ cs => .ok (discoverWalkTree [] cs [] [])
    | .file _ _ => .ok ([], [])

/-! ### Reconciliation phase (the destination walk, util.py lines 237-263) -/

/-- `shutil.copy2(src_full, dest_full)` reads the source file's content and
metadata; applied to a directory it raises `IsADirectoryError`, and the
source entry cannot be missing here in the sequential model (its mtime was
just read at discovery) but the error is kept for totality. -/
def copyFromSrc (src : Entry) (p : RelPath) : Except SyncErr (Int × String) :=
  match findEntry src p with
  | some (.file m c) => .ok (m, c)
  | some (.dir _ _) => .error (.isdir p)
  | none => .error (.enoent p)

section Walk

variable (src : Entry) (sd kd kf : List RelPath)

mutual
/-- Treatment of one destination entry during the destination walk,
util.py lines 241-263.  A subdirectory in neither `src_dirs` nor
`keep_dirs` is removed recursively (`shutil.rmtree`) and not descended
into; one that is kept is descended into.  A file whose path is in
`src_files` is copied over when strictly older than the recorded source
mtime and left alone otherwise, and in both cases its key is deleted from
`src_files`; a file with no `src_files` key and not in `keep_files` is
removed (`os.remove`).  Returns the surviving entry (if any), the updated
`src_files`, and the operations performed.

The source processes a directory's subdirectory list, then its file list,
then descends; the decision for each entry depends only on that entry's own
relative path (deleted `src_files` keys are full paths of already-processed
file positions, which never coincide with the path of a distinct position
in a well-formed tree), so entries are processed here in listing order. -/
def walkEntry (P : RelPath) (n : String) (sf : SrcMap) :
    Entry → Except SyncErr (Option (String × Entry) × SrcMap × List Op)
  | .dir m kids =>
    if P ++ [n] ∈ sd ∨ P ++ [n] ∈ kd then
      match walkTree (P ++ [n]) sf kids with
      | .ok (kids', sf', l) => .ok (some (n, .dir m kids'), sf', l)
      | .error e => .error e
    else
      .ok (none, sf, [.rmtree (P ++ [n])])
  | .file m c =>
    match smLookup sf (P ++ [n]) with
    | some mt =>
      if m < mt then
        match copyFromSrc src (P ++ [n]) with
        | .ok (a, b) => .ok (some (n, .file a b), smErase sf (P ++ [n]), [.copy (P ++ [n])])
        | .error e => .error e
      else
        .ok (some (n, .file m c), smErase sf (P ++ [n]), [])
    | none =>
      if P ++ [n] ∈ kf then .ok (some (n, .file m c), sf, [])
      else .ok (none, sf, [.remove (P ++ [n])])

/-- The destination walk over the children of the directory at relative
path `P`. -/
def walkTree (P : RelPath) (sf : SrcMap) :
    Tree → Except SyncErr (Tree × SrcMap × List Op)
  | [] => .ok ([], sf, [])
  | (n, e) :: rest =>
    match walkEntry P n sf e with
    | .ok (ent?, sf₁, l₁) =>
      match walkTree P sf₁ rest with
      | .ok (rest', sf₂, l₂) => .ok (ent?.toList ++ rest', sf₂, l₁ ++ l₂)
      | .error e => .error e
    | .error e => .error e
end

end Walk

/-! ### Completion phase (util.py lines 265-278) -/

/-- Replace the child named `n` (which exists) by a new entry, leaving the
rest of the listing unchanged — the effect of mutating that child on disk. -/
def replaceChild (cs : Tree) (n : String) (e' : Entry) : Tree :=
  cs.map fun nc => if nc.1 = n then (n, e') else nc

/-- A chain of fresh nested directories created by `os.makedirs` (newly
created directories get a model mtime of 0; no claim reads it). -/
def mkChain (n : String) : List String → String × Entry
  | [] => (n, .dir 0 [])
  | n2 :: rest => (n, .dir 0 [mkChain n2 rest])

/-- `os.makedirs(path)`: create every missing directory of the chain.
Raises `FileExistsError` (`EEXIST`) when the target path already exists
(directory or file), and `NotADirectoryError` when a non-final component is
a regular file. -/
def makedirs : Entry → RelPath → Except SyncErr Entry
  | _, [] => .error .eexist
  | .file _ _, _ :: _ => .error (.enotdir [])
  | .dir m cs, n :: rest =>
    match findInList cs n [] with
    | some child =>
      match makedirs child rest with
      | .ok child' => .ok (.dir m (replaceChild cs n child'))
      | .error e => .error e
    | none => .ok (.dir m (cs ++ [mkChain n rest]))

/-- Write a file (content and metadata, as `shutil.copy2`) at `p` under
`root`: every ancestor must be a directory, and an existing directory at
`p` itself makes the copy raise `IsADirectoryError`. -/
def copyTo : Entry → RelPath → Int → String → Except SyncErr Entry
  | _, [], _, _ => .error (.isdir [])
  | .file _ _, _ :: _, _, _ => .error (.enotdir [])
  | .dir m cs, [n], mt, c =>
    match findInList cs n [] with
    | some (.dir _ _) => .error (.isdir [n])
    | some (.file _ _) => .ok (.dir m (replaceChild cs n (.file mt c)))
    | none => .ok (.dir m (cs ++ [(n, .file mt c)]))
  | .dir m cs, n :: n2 :: rest, mt, c =>
    match findInList cs n [] with
    | some child =>
      match copyTo child (n2 :: rest) mt c with
      | .ok child' => .ok (.dir m (replaceChild cs n child'))
      | .error e => .error e
    | none => .error (.enoent (n :: n2 :: rest))

/-- The body of the completion loop, util.py lines 266-278: ensure the
destination parent directory chain exists — swallowing exactly a raised
`EEXIST` (lines 271-275: `if e.errno != errno.EEXIST: raise`) — then copy
the source file to the destination. -/
def completeOne (src : Entry) (dest : Entry) (p : RelPath) :
    Except SyncErr (Entry × List Op) :=
  match
    (match makedirs dest p.dropLast with
     | .ok d' => .ok (d', [Op.mkdir p.dropLast])
     | .error .eexist => .ok (dest, [Op.mkdirExistsTolerated p.dropLast])
     | .error e => .error e : Except SyncErr (Entry × List Op))
  with
  | .error e => .error e
  | .ok (d', l) =>
    match copyFromSrc src p with
    | .error e => .error e
    | .ok (mt, c) =>
      match copyTo d' p mt c with
      | .error e => .error e
      | .ok d'' => .ok (d'', l ++ [Op.copy p])

/-- The completion loop: copy every file remaining in `src_files` (in dict
iteration order) to the destination. -/
def completeFiles (src : Entry) : Entry → SrcMap → List Op →
    Except SyncErr (Entry × List Op)
  | dest, [], acc => .ok (dest, acc)
  | dest, (p, _) :: rest, acc =>
    match completeOne src dest p with
    | .ok (dest', l) => completeFiles src dest' rest (acc ++ l)
    | .error e => .error e

/-- `sync_files(src, dest, files, keep)`, util.py lines 152-278, as a
function from the source tree, destination tree and the two optional path
iterables to the resulting destination tree and the list of file
operations performed, or the exception raised.  `os.walk` of a destination
that is not a directory yields nothing, so the reconciliation walk is
skipped in that case. -/
def syncFiles (src dest : Entry) (files : Option (List RelPath))
    (keep : Option (List RelPath)) : Except SyncErr (Entry × List Op) :=
  match keepSets keep with
  | (kd, kf) =>
    match discover src files with
    | .error e => .error e
    | .ok (sd, sm) =>
      match
        (match dest with
         | .dir m cs =>
           match walkTree src sd kd kf [] sm cs with
           | .ok (cs', sf, l) => .ok (Entry.dir m cs', sf, l)
           | .error e => .error e
         | .file m c => .ok (Entry.file m c, sm, [])
         : Except SyncErr (Entry × SrcMap × List Op))
      with
      | .error e => .error e
      | .ok (dest₁, sf, l₁) =>
        match completeFiles src dest₁ sf [] with
        | .ok (dest₂, l₂) => .ok (dest₂, l₁ ++ l₂)
        | .error e => .error e

/-! ### Symbolic-link model for the full-walk discovery (claim about cycle
detection, util.py lines 200-233)

`os.walk(src_dir, followlinks=True)` on a source tree containing a symlink
loop exercises OS path resolution, so this model adds symbolic links and
models the relevant POSIX behavior: resolving a path follows at most
`SYMLOOP_MAX` symbolic links (further follows fail with `ELOOP`), and
`os.path.realpath` resolves what it can and appends the unresolvable
remainder unchanged.  Crucially, util.py line 208 computes
`os.path.realpath(parent)` where `parent` has just been made *relative* to
the source directory (line 205), so the OS resolves it against the process
working directory, which is a parameter `cwd` of this model. -/

/-- An absolute path (components from the filesystem root). -/
abbrev AbsPath := List String

/-- A filesystem entry in the symlink model: file (mtime), directory, or
symbolic link to an absolute target. -/
inductive SEntry where
  | sfile (mtime : Int)
  | sdir (children : List (String × SEntry))
  | slink (target : AbsPath)
deriving Repr

/-- The children of the filesystem root. -/
abbrev SFs := List (String × SEntry)

def lookupS : List (String × SEntry) → String → Option SEntry
  | [], _ => none
  | (n', e) :: rest, n => if n' = n then some e else lookupS rest n

/-- The maximum number of symbolic links the OS follows while resolving one
path before failing with `ELOOP` is an environment constant (40 on Linux,
32 on macOS); it is a parameter `maxLinks` of this model, and the model's
behavior has the same shape for every bound of at least 1 (only the depth
to which a symlink loop is unrolled before `ELOOP` changes). -/
def LINUX_SYMLOOP_MAX : Nat := 40

/-- Outcome of resolving a path for access (`stat`-like, following links):
the entry found, a missing/非-directory component (`ENOENT`/`ENOTDIR`), the
symlink-follow budget exhausted (`ELOOP`), or the model's recursion fuel
exhausted (an artifact of totality, distinguished so it can never be
mistaken for a real outcome). -/
inductive Resolved where
  | found (e : SEntry)
  | missing
  | loopOut
  | fuelOut

/-- Resolve `rest` against entry `e`, following symbolic links from the
filesystem root, with `links` follows remaining. -/
def resolveAux (fs : SFs) : Nat → Nat → SEntry → AbsPath → Resolved
  | 0, _, _, _ => .fuelOut
  | fuel + 1, links, .slink t, rest =>
    if links = 0 then .loopOut
    else resolveAux fs fuel (links - 1) (.sdir fs) (t ++ rest)
  | _ + 1, _, e, [] => .found e
  | fuel + 1, links, .sdir cs, n :: rest =>
    match lookupS cs n with
    | none => .missing
    | some e' => resolveAux fs fuel links e' rest
  | _ + 1, _, .sfile _, _ :: _ => .missing

/-- `stat`-style resolution of an absolute path (follows at most `maxLinks`
links; the structural fuel is a generous totality artifact). -/
def resolveS (fs : SFs) (maxLinks : Nat) (p : AbsPath) : Resolved :=
  resolveAux fs 10000 maxLinks (.sdir fs) p

/-- `os.path.realpath` (non-strict): canonicalize an absolute path by
following symlinks component by component; a component that cannot be
resolved (missing, or the follow budget is exhausted — CPython stops
resolving a detected symlink loop without raising) is appended together
with the remainder, unresolved. -/
def realpathAux (fs : SFs) : Nat → Nat → SEntry → AbsPath → AbsPath → AbsPath
  | 0, _, _, acc, rest => acc ++ rest
  | _ + 1, _, _, acc, [] => acc
  | fuel + 1, links, .sdir cs, acc, n :: rest =>
    match lookupS cs n with
    | none => acc ++ n :: rest
    | some (.slink t) =>
      if links = 0 then acc ++ n :: rest
      else realpathAux fs fuel (links - 1) (.sdir fs) [] (t ++ rest)
    | some e' => realpathAux fs fuel links e' (acc ++ [n]) rest
  | _ + 1, _, _, acc, n :: rest => acc ++ n :: rest

def realpathS (fs : SFs) (maxLinks : Nat) (p : AbsPath) : AbsPath :=
  realpathAux fs 10000 maxLinks (.sdir fs) [] p

/-- Errors during the full-walk discovery in the symlink model:
`eloopStat` is `OSError(ELOOP)` raised by `os.path.getmtime` (line 227),
`enoentStat` likewise for a vanished path, `cycleExc` is the explicit
recursion `Exception` of line 210 (carrying the offending real path and
both relative paths at which it was seen), and `fuelOut` is the model's
totality artifact. -/
inductive SymErr where
  | eloopStat (p : AbsPath)
  | enoentStat (p : AbsPath)
  | cycleExc (real : AbsPath) (firstAt secondAt : RelPath)
  | fuelOut
deriving Repr, DecidableEq

/-- The running state of the discovery loop: the `encountered` real-path
map (line 202) and the `src_dirs` / `src_files` accumulators. -/
structure DiscState where
  enc : List (AbsPath × RelPath)
  sdirs : List RelPath
  sfiles : SrcMap
deriving Repr, DecidableEq

def encLookup : List (AbsPath × RelPath) → AbsPath → Option RelPath
  | [], _ => none
  | (k, v) :: rest, p => if k = p then some v else encLookup rest p

/-- `os.scandir` of an absolute path: the listing, or `none` when it fails
with an `OSError` (which `os.walk` swallows via its default `onerror`,
yielding nothing for that directory), or a fuel artifact. -/
def listdirS (fs : SFs) (maxLinks : Nat) (p : AbsPath) :
    Except SymErr (Option (List (String × SEntry))) :=
  match resolveS fs maxLinks p with
  | .found (.sdir cs) => .ok (some cs)
  | .found _ => .ok none
  | .missing => .ok none
  | .loopOut => .ok none
  | .fuelOut => .error .fuelOut

/-- `DirEntry.is_dir(follow_symlinks=True)` as used by `os.walk`: an
`OSError` during the underlying `stat` makes it count as a non-directory. -/
def isDirS (fs : SFs) (maxLinks : Nat) (p : AbsPath) : Except SymErr Bool :=
  match resolveS fs maxLinks p with
  | .found (.sdir _) => .ok true
  | .found _ => .ok false
  | .missing => .ok false
  | .loopOut => .ok false
  | .fuelOut => .error .fuelOut

/-- Split a listing into sub-directory names and non-directory names
(`os.walk`'s `dirs` and `files`), in listing order. -/
def classifyS (fs : SFs) (maxLinks : Nat) (base : AbsPath) :
    List (String × SEntry) → Except SymErr (List String × List String)
  | [] => .ok ([], [])
  | (n, _) :: rest =>
    match isDirS fs maxLinks (base ++ [n]) with
    | .error e => .error e
    | .ok d =>
      match classifyS fs maxLinks base rest with
      | .error e => .error e
      | .ok (ds, ns) => if d then .ok (n :: ds, ns) else .ok (ds, n :: ns)

/-- Record the modification times of the non-directory names of a directory
(util.py lines 223-233): `os.path.getmtime` follows links and raises
`OSError(ELOOP)` when resolution exceeds the symlink budget. -/
def recFilesS (fs : SFs) (maxLinks : Nat) (srcDir : AbsPath) (rel : RelPath) :
    List String → SrcMap → Except SymErr SrcMap
  | [], sm => .ok sm
  | n :: rest, sm =>
    match resolveS fs maxLinks (srcDir ++ rel ++ [n]) with
    | .found (.sfile m) => recFilesS fs maxLinks srcDir rel rest (smInsert sm (rel ++ [n]) m)
    | .found (.sdir _) => recFilesS fs maxLinks srcDir rel rest sm
    | .found (.slink _) => .error (.enoentStat (srcDir ++ rel ++ [n]))
    | .missing => .error (.enoentStat (srcDir ++ rel ++ [n]))
    | .loopOut => .error (.eloopStat (srcDir ++ rel ++ [n]))
    | .fuelOut => .error .fuelOut

mutual
/-- The `files is None` discovery walk of util.py lines 200-233 in the
symlink model: visit the directory at relative path `rel` under `srcDir`
(`os.walk(src_dir, followlinks=True)`, top-down), then run the loop body:
compute `real = os.path.realpath(parent)` — `parent` is the cwd-relative
path, so resolution happens against `cwd` — fail with the recursion
`Exception` if `real` was already encountered, otherwise record it, record
the subdirectories into `src_dirs` and the file mtimes into `src_files`,
and descend into the subdirectories. -/
def walkDiscAux (fs : SFs) (maxLinks : Nat) (cwd srcDir : AbsPath) :
    Nat → RelPath → DiscState → Except SymErr DiscState
  | 0, _, _ => .error .fuelOut
  | fuel + 1, rel, st =>
    match listdirS fs maxLinks (srcDir ++ rel) with
    | .error e => .error e
    | .ok none => .ok st
    | .ok (some cs) =>
      match classifyS fs maxLinks (srcDir ++ rel) cs with
      | .error e => .error e
      | .ok (dirNames, fileNames) =>
        let real := realpathS fs maxLinks (cwd ++ rel)
        match encLookup st.enc real with
        | some firstAt => .error (.cycleExc real firstAt rel)
        | none =>
          let st₁ : DiscState :=
            ⟨(real, rel) :: st.enc, st.sdirs ++ dirNames.map (fun d => rel ++ [d]), st.sfiles⟩
          match recFilesS fs maxLinks srcDir rel fileNames st₁.sfiles with
          | .error e => .error e
          | .ok sm' =>
            walkDiscList fs maxLinks cwd srcDir fuel rel dirNames ⟨st₁.enc, st₁.sdirs, sm'⟩

/-- Descend into the subdirectories of `rel`, in listing order. -/
def walkDiscList (fs : SFs) (maxLinks : Nat) (cwd srcDir : AbsPath) :
    Nat → RelPath → List String → DiscState → Except SymErr DiscState
  | 0, _, _, _ => .error .fuelOut
  | _ + 1, _, [], st => .ok st
  | fuel + 1, rel, d :: ds, st =>
    match walkDiscAux fs maxLinks cwd srcDir fuel (rel ++ [d]) st with
    | .error e => .error e
    | .ok st' => walkDiscList fs maxLinks cwd srcDir fuel rel ds st'
end

/-- The whole full-walk discovery of the symlink model, starting at the
source root (`os.walk` yields the root as relative path `.`, here `[]`). -/
def walkDisc (fs : SFs) (maxLinks : Nat) (cwd srcDir : AbsPath) (fuel : Nat) :
    Except SymErr DiscState :=
  walkDiscAux fs maxLinks cwd srcDir fuel [] ⟨[], [], []⟩

/-! ### Pure specification of the destination walk

The destination walk threads the mutable dict `src_files` through the
traversal, but the only keys it consults or deletes at a position are that
position's own full path, and in a well-formed tree distinct positions
have distinct full paths.  The walk is therefore equivalent to the
following pure per-entry functions computed against the *initial* map
`sm0`; the equivalence is proved below (`walkTree_eq_spec`). -/

section WalkSpec

variable (src : Entry) (sd kd kf : List RelPath) (sm0 : SrcMap)

/-- What `shutil.copy2` would install at `p`: the source file's metadata
and content (the fallback for a non-file source never arises in a
successful run). -/
def copiedEntry (p : RelPath) (m : Int) (c : String) : Entry :=
  match findEntry src p with
  | some (.file a b) => .file a b
  | _ => .file m c

/-- The fate of a destination file at path `p` with mtime `m`, content `c`
(util.py lines 250-263), computed against the initial `src_files`. -/
def specFileResult (p : RelPath) (m : Int) (c : String) : Option Entry :=
  match smLookup sm0 p with
  | some mt => if m < mt then some (copiedEntry src p m c) else some (.file m c)
  | none => if p ∈ kf then some (.file m c) else none

mutual
/-- The surviving (possibly rewritten) destination entry after the walk. -/
def specEntry (P : RelPath) (n : String) : Entry → Option (String × Entry)
  | .dir m kids =>
    if P ++ [n] ∈ sd ∨ P ++ [n] ∈ kd then
      some (n, .dir m (specTree (P ++ [n]) kids))
    else none
  | .file m c => (specFileResult src kf sm0 (P ++ [n]) m c).map (fun e => (n, e))

def specTree (P : RelPath) : Tree → Tree
  | [] => []
  | (n, e) :: rest =>
    (specEntry P n e).toList ++ specTree P rest
end

mutual
/-- The file paths whose `src_files` keys the walk deletes ("handled",
util.py lines 259-260): reached file positions whose path has a key. -/
def handledEntry (P : RelPath) (n : String) : Entry → List RelPath
  | .dir _ kids =>
    if P ++ [n] ∈ sd ∨ P ++ [n] ∈ kd then handledTree (P ++ [n]) kids else []
  | .file _ _ =>
    if (smLookup sm0 (P ++ [n])).isSome then [P ++ [n]] else []

def handledTree (P : RelPath) : Tree → List RelPath
  | [] => []
  | (n, e) :: rest => handledEntry P n e ++ handledTree P rest
end

mutual
/-- The operations the walk performs. -/
def specLogEntry (P : RelPath) (n : String) : Entry → List Op
  | .dir _ kids =>
    if P ++ [n] ∈ sd ∨ P ++ [n] ∈ kd then specLogTree (P ++ [n]) kids
    else [.rmtree (P ++ [n])]
  | .file m _ =>
    match smLookup sm0 (P ++ [n]) with
    | some mt => if m < mt then [.copy (P ++ [n])] else []
    | none => if P ++ [n] ∈ kf then [] else [.remove (P ++ [n])]

def specLogTree (P : RelPath) : Tree → List Op
  | [] => []
  | (n, e) :: rest => specLogEntry P n e ++ specLogTree P rest
end

mutual
/-- Whether the walk completes without raising: the only failure is
`shutil.copy2` applied to a stale file whose source entry is not a regular
file. -/
def walkOkEntry (P : RelPath) (n : String) : Entry → Bool
  | .dir _ kids =>
    if P ++ [n] ∈ sd ∨ P ++ [n] ∈ kd then walkOkTree (P ++ [n]) kids else true
  | .file m _ =>
    match smLookup sm0 (P ++ [n]) with
    | some mt =>
      if m < mt then
        match findEntry src (P ++ [n]) with
        | some (.file _ _) => true
        | _ => false
      else true
    | none => true

def walkOkTree (P : RelPath) : Tree → Bool
  | [] => true
  | (n, e) :: rest => walkOkEntry P n e && walkOkTree P rest
end

mutual
/-- An already-synchronized destination subtree: every directory is kept,
and every file either has a key with destination mtime at least the source
mtime, or has no key and is in `keep_files`. -/
def syncedEntry (P : RelPath) (n : String) : Entry → Bool
  | .dir _ kids =>
    decide (P ++ [n] ∈ sd ∨ P ++ [n] ∈ kd) && syncedTree (P ++ [n]) kids
  | .file m _ =>
    match smLookup sm0 (P ++ [n]) with
    | some mt => decide (mt ≤ m)
    | none => decide (P ++ [n] ∈ kf)

def syncedTree (P : RelPath) : Tree → Bool
  | [] => true
  | (n, e) :: rest => syncedEntry P n e && syncedTree P rest
end

end WalkSpec

/-- Sequential dict deletions. -/
def smEraseList : SrcMap → List RelPath → SrcMap
  | m, [] => m
  | m, p :: ps => smEraseList (smErase m p) ps

mutual
/-- All file-position paths of an entry named `n`, relative to its parent. -/
def filePathsEntry (n : String) : Entry → List RelPath
  | .file _ _ => [[n]]
  | .dir _ kids => (filePathsTree kids).map (fun q => n :: q)

def filePathsTree : Tree → List RelPath
  | [] => []
  | (n, e) :: rest => filePathsEntry n e ++ filePathsTree rest
end

/-- Navigate a relative path from a list of children (the destination walk
works with the children of the root directory). -/
def findT (cs : Tree) : RelPath → Option Entry
  | [] => none
  | n :: rest => findInList cs n rest

/-- Navigate from an optional surviving child entry. -/
def optionFind : Option (String × Entry) → RelPath → Option Entry
  | none, _ => none
  | some (_, e), q => findEntry e q

mutual
/-- All positions (directory and file) of an entry named `n`, as paths
relative to its parent. -/
def allPathsEntry (n : String) : Entry → List RelPath
  | .file _ _ => [[n]]
  | .dir _ kids => [n] :: (allPathsTree kids).map (fun q => n :: q)

def allPathsTree : Tree → List RelPath
  | [] => []
  | (n, e) :: rest => allPathsEntry n e ++ allPathsTree rest
end

/-- The destination path an operation acts on. -/
def opPath : Op → RelPath
  | .rmtree p => p
  | .remove p => p
  | .copy p => p
  | .mkdir p => p
  | .mkdirExistsTolerated p => p

/-! ## Lemmas: the `src_files` dict -/

theorem smErase_sublist (m : SrcMap) (k : RelPath) : (smErase m k).Sublist m := by
  induction m with
  | nil => simp [smErase]
  | cons hd tl ih =>
    simp only [smErase]
    by_cases h : hd.1 = k
    · simp [h]
    · simpa [h] using ih.cons₂ hd

theorem smEraseList_sublist (m : SrcMap) (l : List RelPath) :
    (smEraseList m l).Sublist m := by
  induction l generalizing m with
  | nil => simp [smEraseList]
  | cons p ps ih => exact (ih (smErase m p)).trans (smErase_sublist m p)

theorem smLookup_smErase_ne (m : SrcMap) (k p : RelPath) (h : k ≠ p) :
    smLookup (smErase m k) p = smLookup m p := by
  induction m with
  | nil => simp [smErase]
  | cons hd tl ih =>
    rcases hd with ⟨a, w⟩
    simp only [smErase]
    by_cases h1 : a = k
    · rw [if_pos h1]
      have hne : a ≠ p := fun hh => h (h1 ▸ hh)
      simp [smLookup, hne]
    · rw [if_neg h1]
      simp only [smLookup]
      by_cases h2 : a = p
      · simp [h2]
      · simp [h2, ih]

theorem smLookup_smEraseList_ne (m : SrcMap) (l : List RelPath) (p : RelPath)
    (h : ∀ r ∈ l, r ≠ p) : smLookup (smEraseList m l) p = smLookup m p := by
  induction l generalizing m with
  | nil => simp [smEraseList]
  | cons r rs ih =>
    simp only [smEraseList]
    rw [ih (smErase m r) (fun x hx => h x (List.mem_cons_of_mem r hx)),
      smLookup_smErase_ne m r p (h r (List.mem_cons_self r rs))]

theorem smEraseList_append (m : SrcMap) (l1 l2 : List RelPath) :
    smEraseList m (l1 ++ l2) = smEraseList (smEraseList m l1) l2 := by
  induction l1 generalizing m with
  | nil => simp [smEraseList]
  | cons p ps ih => simp [smEraseList, ih]

theorem smLookup_ne_none_iff (m : SrcMap) (p : RelPath) :
    smLookup m p ≠ none ↔ p ∈ smKeys m := by
  induction m with
  | nil => simp [smLookup, smKeys]
  | cons hd tl ih =>
    rcases hd with ⟨a, w⟩
    simp only [smLookup, smKeys, List.map_cons, List.mem_cons]
    by_cases h : a = p
    · simp [h]
    · simp only [if_neg h]
      rw [smKeys] at ih
      simp [ih, Ne.symm h]

theorem smLookup_smErase_self (m : SrcMap) (p : RelPath) (h : (smKeys m).Nodup) :
    smLookup (smErase m p) p = none := by
  induction m with
  | nil => simp [smErase, smLookup]
  | cons hd tl ih =>
    rcases hd with ⟨a, w⟩
    simp only [smKeys, List.map_cons, List.nodup_cons] at h
    simp only [smErase]
    by_cases h1 : a = p
    · rw [if_pos h1]
      by_contra hc
      exact h.1 (h1 ▸ (smLookup_ne_none_iff tl p).mp hc)
    · rw [if_neg h1, smLookup, if_neg h1]
      exact ih h.2

theorem smLookup_smEraseList_mem (m : SrcMap) (l : List RelPath) (p : RelPath)
    (hn : (smKeys m).Nodup) (h : p ∈ l) : smLookup (smEraseList m l) p = none := by
  induction l generalizing m with
  | nil => simp at h
  | cons r rs ih =>
    simp only [smEraseList]
    have hn' : (smKeys (smErase m r)).Nodup :=
      ((smErase_sublist m r).map Prod.fst).nodup hn
    rcases List.mem_cons.mp h with h | h
    · subst h
      have h0 : smLookup (smErase m p) p = none := smLookup_smErase_self m p hn
      by_cases hmem : p ∈ rs
      · exact ih (smErase m p) hn' hmem
      · rw [smLookup_smEraseList_ne _ rs p (fun x hx => by rintro rfl; exact hmem hx), h0]
    · exact ih (smErase m r) hn' h

theorem mem_of_mem_smEraseList (m : SrcMap) (l : List RelPath) (x : RelPath × Int)
    (h : x ∈ smEraseList m l) : x ∈ m :=
  (smEraseList_sublist m l).mem h

theorem smKeys_smEraseList_nodup (m : SrcMap) (l : List RelPath) (h : (smKeys m).Nodup) :
    (smKeys (smEraseList m l)).Nodup :=
  ((smEraseList_sublist m l).map Prod.fst).nodup h

theorem smLookup_of_mem (m : SrcMap) (p : RelPath) (v : Int)
    (hn : (smKeys m).Nodup) (h : (p, v) ∈ m) : smLookup m p = some v := by
  induction m with
  | nil => simp at h
  | cons hd tl ih =>
    rcases hd with ⟨a, w⟩
    simp only [smKeys, List.map_cons, List.nodup_cons] at hn
    rcases List.mem_cons.mp h with h | h
    · rw [Prod.mk.injEq] at h
      simp only [smLookup]
      rw [if_pos h.1.symm, h.2]
    · have hne : a ≠ p := by
        rintro rfl
        exact hn.1 (List.mem_map.mpr ⟨(a, v), h, rfl⟩)
      rw [smLookup, if_neg hne]
      exact ih hn.2 h

theorem mem_of_smLookup_eq_some (m : SrcMap) (p : RelPath) (v : Int)
    (h : smLookup m p = some v) : (p, v) ∈ m := by
  induction m with
  | nil => simp [smLookup] at h
  | cons hd tl ih =>
    rcases hd with ⟨a, w⟩
    simp only [smLookup] at h
    by_cases h1 : a = p
    · rw [if_pos h1] at h
      injection h with h
      rw [← h1, ← h]
      exact List.mem_cons_self _ _
    · rw [if_neg h1] at h
      exact List.mem_cons_of_mem _ (ih h)

theorem smEraseList_eq_nil (m : SrcMap) (l : List RelPath)
    (hn : (smKeys m).Nodup) (h : ∀ k ∈ smKeys m, k ∈ l) : smEraseList m l = [] := by
  rcases he : smEraseList m l with _ | ⟨⟨p, v⟩, rest⟩
  · rfl
  · exfalso
    have hmem : (p, v) ∈ m := mem_of_mem_smEraseList m l (p, v) (he ▸ List.mem_cons_self _ _)
    have hkey : p ∈ smKeys m := List.mem_map.mpr ⟨(p, v), hmem, rfl⟩
    have h1 : smLookup (smEraseList m l) p = none :=
      smLookup_smEraseList_mem m l p hn (h p hkey)
    rw [he] at h1
    simp [smLookup] at h1

/-! ## Lemmas: ancestor chains -/

theorem mem_dirChain_iff (p r : RelPath) :
    r ∈ dirChain p ↔ ∃ k, 0 < k ∧ k < p.length ∧ r = p.take k := by
  induction p generalizing r with
  | nil =>
    simp only [dirChain, List.not_mem_nil, List.length_nil, false_iff, not_exists]
    intro k
    omega
  | cons n rest ih =>
    match rest with
    | [] =>
      simp only [dirChain, List.not_mem_nil, List.length_cons, List.length_nil, false_iff,
        not_exists]
      intro k
      omega
    | m :: rest2 =>
      simp only [dirChain, List.mem_cons, List.mem_map]
      constructor
      · rintro (rfl | ⟨q, hq, rfl⟩)
        · refine ⟨1, Nat.one_pos, ?_, by simp⟩
          simp
        · rcases (ih q).mp hq with ⟨k, h1, h2, rfl⟩
          refine ⟨k + 1, by omega, ?_, by simp⟩
          simp only [List.length_cons] at h2 ⊢
          omega
      · rintro ⟨k, h1, h2, rfl⟩
        match k with
        | 1 => left; simp
        | k + 2 =>
          right
          refine ⟨(m :: rest2).take (k + 1), (ih _).mpr ⟨k + 1, by omega, ?_, rfl⟩, by simp⟩
          simp only [List.length_cons] at h2 ⊢
          omega

theorem cons_mem_dirChain (n : String) (r q : RelPath) (h : r ∈ dirChain q) :
    (n :: r) ∈ dirChain (n :: q) := by
  rcases (mem_dirChain_iff q r).mp h with ⟨k, h1, h2, rfl⟩
  exact (mem_dirChain_iff _ _).mpr ⟨k + 1, by omega, by simp; omega, by simp⟩

theorem single_mem_dirChain (n : String) (q : RelPath) (h : q ≠ []) :
    [n] ∈ dirChain (n :: q) := by
  refine (mem_dirChain_iff _ _).mpr ⟨1, by omega, ?_, by simp⟩
  cases q with
  | nil => exact absurd rfl h
  | cons _ _ => simp

theorem mem_dirChain_cons (n : String) (r : RelPath) (q : RelPath)
    (h : r ∈ dirChain (n :: q)) : r = [n] ∨ ∃ r', r = n :: r' ∧ r' ∈ dirChain q := by
  rcases (mem_dirChain_iff _ _).mp h with ⟨k, h1, h2, rfl⟩
  match k with
  | 1 => left; simp
  | k + 2 =>
    right
    refine ⟨q.take (k + 1), by simp, (mem_dirChain_iff _ _).mpr ⟨k + 1, by omega, ?_, rfl⟩⟩
    simp at h2; omega

/-! ## Lemmas: path navigation -/

theorem findT_cons (cs : Tree) (n : String) (rest : RelPath) :
    findT cs (n :: rest) = findInList cs n rest := rfl

theorem findEntry_dir_ne_nil (m : Int) (cs : Tree) (q : RelPath) (h : q ≠ []) :
    findEntry (.dir m cs) q = findT cs q := by
  cases q with
  | nil => exact absurd rfl h
  | cons n rest => rfl

theorem findInList_append (cs1 cs2 : Tree) (n : String) (p : RelPath) :
    findInList (cs1 ++ cs2) n p =
      if n ∈ cs1.map Prod.fst then findInList cs1 n p else findInList cs2 n p := by
  induction cs1 with
  | nil => simp [findInList]
  | cons hd tl ih =>
    rcases hd with ⟨n2, e⟩
    simp only [List.cons_append, findInList, List.map_cons, List.mem_cons]
    by_cases h : n2 = n
    · simp [h]
    · rw [if_neg h]
      simp only [List.append_eq] at *
      rw [ih]
      by_cases h2 : n ∈ tl.map Prod.fst
      · rw [if_pos h2, if_pos (Or.inr h2), if_neg h]
      · rw [if_neg h2, if_neg ?_]
        rintro (hh | hh)
        · exact h hh.symm
        · exact h2 hh

/-! ## Lemmas: file-position paths -/

theorem filePathsEntry_shape (n : String) (e : Entry) (q : RelPath)
    (h : q ∈ filePathsEntry n e) : ∃ q', q = n :: q' := by
  match e with
  | .file m c => simp [filePathsEntry] at h; exact ⟨[], by simp [h]⟩
  | .dir m kids =>
    simp only [filePathsEntry, List.mem_map] at h
    rcases h with ⟨q', _, rfl⟩
    exact ⟨q', rfl⟩

theorem filePathsTree_shape (cs : Tree) (q : RelPath) (h : q ∈ filePathsTree cs) :
    ∃ n q', q = n :: q' ∧ n ∈ cs.map Prod.fst := by
  induction cs with
  | nil => simp [filePathsTree] at h
  | cons hd tl ih =>
    rcases hd with ⟨n, e⟩
    simp only [filePathsTree, List.mem_append] at h
    rcases h with h | h
    · rcases filePathsEntry_shape n e q h with ⟨q', rfl⟩
      exact ⟨n, q', rfl, by simp⟩
    · rcases ih h with ⟨n', q', rfl, hm⟩
      exact ⟨n', q', rfl, by simp [hm]⟩

mutual
theorem handledEntry_sub (sd kd : List RelPath) (sm0 : SrcMap) (P : RelPath) (n : String)
    (e : Entry) (r : RelPath) (h : r ∈ handledEntry sd kd sm0 P n e) :
    ∃ q ∈ filePathsEntry n e, r = P ++ q := by
  match e with
  | .file m c =>
    simp only [handledEntry] at h
    split at h
    · simp only [List.mem_singleton] at h
      exact ⟨[n], by simp [filePathsEntry], h⟩
    · simp at h
  | .dir m kids =>
    simp only [handledEntry] at h
    split at h
    · rcases handledTree_sub sd kd sm0 (P ++ [n]) kids r h with ⟨q, hq, rfl⟩
      exact ⟨n :: q, by simp [filePathsEntry, hq], by simp⟩
    · simp at h

theorem handledTree_sub (sd kd : List RelPath) (sm0 : SrcMap) (P : RelPath) (cs : Tree)
    (r : RelPath) (h : r ∈ handledTree sd kd sm0 P cs) :
    ∃ q ∈ filePathsTree cs, r = P ++ q := by
  match cs with
  | [] => simp [handledTree] at h
  | (n, e) :: rest =>
    simp only [handledTree, List.mem_append] at h
    rcases h with h | h
    · rcases handledEntry_sub sd kd sm0 P n e r h with ⟨q, hq, rfl⟩
      exact ⟨q, by simp [filePathsTree, hq], rfl⟩
    · rcases handledTree_sub sd kd sm0 P rest r h with ⟨q, hq, rfl⟩
      exact ⟨q, by simp [filePathsTree, hq], rfl⟩
end

/-! ## The destination walk equals its pure specification

The agreement hypothesis says the threaded `src_files` still agrees with
the initial map `sm0` on every file-position path of the subtree being
walked; the walk deletes only keys of already-processed positions, which
in a well-formed tree never coincide with positions of a disjoint
subtree. -/

mutual
theorem walkEntry_eq_spec (src : Entry) (sd kd kf : List RelPath) (sm0 : SrcMap)
    (P : RelPath) (n : String) (sf : SrcMap) (e : Entry)
    (hwf : wfbEntry e = true)
    (hag : ∀ q ∈ filePathsEntry n e, smLookup sf (P ++ q) = smLookup sm0 (P ++ q)) :
    (walkOkEntry src sd kd sm0 P n e = true →
      walkEntry src sd kd kf P n sf e =
        .ok (specEntry src sd kd kf sm0 P n e,
             smEraseList sf (handledEntry sd kd sm0 P n e),
             specLogEntry sd kd kf sm0 P n e)) ∧
    (walkOkEntry src sd kd sm0 P n e = false →
      ∃ err, walkEntry src sd kd kf P n sf e = .error err) := by
  match e with
  | .file m c =>
    have hag1 : smLookup sf (P ++ [n]) = smLookup sm0 (P ++ [n]) :=
      hag [n] (by simp [filePathsEntry])
    constructor
    · intro hok
      simp only [walkEntry, specEntry, specFileResult, handledEntry, specLogEntry, hag1]
      split
      next mt hmk =>
        simp only [walkOkEntry, hmk] at hok
        by_cases hlt : m < mt
        · simp only [if_pos hlt] at hok ⊢
          cases hsrc : findEntry src (P ++ [n]) with
          | none => rw [hsrc] at hok; simp at hok
          | some e0 =>
            cases e0 with
            | dir md csd => rw [hsrc] at hok; simp at hok
            | file a b =>
              simp [copyFromSrc, copiedEntry, hsrc, smEraseList, hmk]
        · simp [if_neg hlt, smEraseList, hmk]
      next hmk =>
        by_cases hkf : P ++ [n] ∈ kf
        · simp [hkf, smEraseList, hmk]
        · simp [hkf, smEraseList, hmk]
    · intro hbad
      simp only [walkOkEntry] at hbad
      split at hbad
      next mt hmk =>
        by_cases hlt : m < mt
        · simp only [if_pos hlt] at hbad
          simp only [walkEntry, hag1, hmk, if_pos hlt, copyFromSrc]
          cases hsrc : findEntry src (P ++ [n]) with
          | none => exact ⟨.enoent (P ++ [n]), by simp [hsrc]⟩
          | some e0 =>
            cases e0 with
            | file a b => rw [hsrc] at hbad; simp at hbad
            | dir md csd => exact ⟨.isdir (P ++ [n]), by simp [hsrc]⟩
        · simp [if_neg hlt] at hbad
      next hmk => simp at hbad
  | .dir m kids =>
    have hwf2 : (kids.map Prod.fst).Nodup ∧ wfbTree kids = true := by
      simpa [wfbEntry] using hwf
    by_cases hkept : P ++ [n] ∈ sd ∨ P ++ [n] ∈ kd
    · have hagk : ∀ q ∈ filePathsTree kids,
          smLookup sf ((P ++ [n]) ++ q) = smLookup sm0 ((P ++ [n]) ++ q) := by
        intro q hq
        have h0 := hag (n :: q) (by
          simp only [filePathsEntry, List.mem_map]
          exact ⟨q, hq, rfl⟩)
        simpa [List.append_assoc] using h0
      have IH := walkTree_eq_spec src sd kd kf sm0 (P ++ [n]) sf kids hwf2.1 hwf2.2 hagk
      constructor
      · intro hok
        have hokk : walkOkTree src sd kd sm0 (P ++ [n]) kids = true := by
          simpa only [walkOkEntry, if_pos hkept] using hok
        simp only [walkEntry, if_pos hkept, IH.1 hokk, specEntry, handledEntry, specLogEntry]
      · intro hbad
        have hbadk : walkOkTree src sd kd sm0 (P ++ [n]) kids = false := by
          simpa only [walkOkEntry, if_pos hkept] using hbad
        rcases IH.2 hbadk with ⟨err, herr⟩
        exact ⟨err, by simp only [walkEntry, if_pos hkept, herr]⟩
    · constructor
      · intro _
        simp [walkEntry, specEntry, handledEntry, specLogEntry, hkept, smEraseList]
      · intro hbad
        simp [walkOkEntry, hkept] at hbad

theorem walkTree_eq_spec (src : Entry) (sd kd kf : List RelPath) (sm0 : SrcMap)
    (P : RelPath) (sf : SrcMap) (cs : Tree)
    (hnd : (cs.map Prod.fst).Nodup) (hwf : wfbTree cs = true)
    (hag : ∀ q ∈ filePathsTree cs, smLookup sf (P ++ q) = smLookup sm0 (P ++ q)) :
    (walkOkTree src sd kd sm0 P cs = true →
      walkTree src sd kd kf P sf cs =
        .ok (specTree src sd kd kf sm0 P cs,
             smEraseList sf (handledTree sd kd sm0 P cs),
             specLogTree sd kd kf sm0 P cs)) ∧
    (walkOkTree src sd kd sm0 P cs = false →
      ∃ err, walkTree src sd kd kf P sf cs = .error err) := by
  match cs with
  | [] =>
    constructor
    · intro _
      simp [walkTree, specTree, handledTree, specLogTree, smEraseList]
    · intro hbad
      simp [walkOkTree] at hbad
  | (n, e) :: rest =>
    have hwfe : wfbEntry e = true ∧ wfbTree rest = true := by
      simpa [wfbTree] using hwf
    have hnd2 : n ∉ rest.map Prod.fst ∧ (rest.map Prod.fst).Nodup := by
      simpa using hnd
    have hagE : ∀ q ∈ filePathsEntry n e, smLookup sf (P ++ q) = smLookup sm0 (P ++ q) :=
      fun q hq => hag q (by simp [filePathsTree, hq])
    have IHe := walkEntry_eq_spec src sd kd kf sm0 P n sf e hwfe.1 hagE
    have hag1 : ∀ q ∈ filePathsTree rest,
        smLookup (smEraseList sf (handledEntry sd kd sm0 P n e)) (P ++ q) =
          smLookup sm0 (P ++ q) := by
      intro q hq
      rw [smLookup_smEraseList_ne]
      · exact hag q (by simp [filePathsTree, hq])
      · intro r hr hcontra
        rcases handledEntry_sub sd kd sm0 P n e r hr with ⟨q0, hq0, rfl⟩
        rcases filePathsEntry_shape n e q0 hq0 with ⟨q1, rfl⟩
        rcases filePathsTree_shape rest q hq with ⟨n2, q2, rfl, hn2⟩
        have hcc : (n :: q1 : RelPath) = n2 :: q2 := by
          exact List.append_cancel_left hcontra
        have : n = n2 := by injection hcc
        exact hnd2.1 (this ▸ hn2)
    have IHr := walkTree_eq_spec src sd kd kf sm0 P
      (smEraseList sf (handledEntry sd kd sm0 P n e)) rest hnd2.2 hwfe.2 hag1
    constructor
    · intro hok
      have h1 : walkOkEntry src sd kd sm0 P n e = true ∧
          walkOkTree src sd kd sm0 P rest = true := by
        simpa [walkOkTree] using hok
      simp only [walkTree, IHe.1 h1.1, IHr.1 h1.2, specTree, handledTree, specLogTree,
        smEraseList_append]
    · intro hbad
      cases he : walkOkEntry src sd kd sm0 P n e with
      | false =>
        rcases IHe.2 he with ⟨err, herr⟩
        exact ⟨err, by simp only [walkTree, herr]⟩
      | true =>
        have hr : walkOkTree src sd kd sm0 P rest = false := by
          simpa [walkOkTree, he] using hbad
        rcases IHr.2 hr with ⟨err, herr⟩
        exact ⟨err, by simp only [walkTree, IHe.1 he, herr]⟩
end

/-! ## Lemmas: child replacement and lookup -/

theorem replaceChild_names (cs : Tree) (n : String) (e' : Entry) :
    (replaceChild cs n e').map Prod.fst = cs.map Prod.fst := by
  induction cs with
  | nil => simp [replaceChild]
  | cons hd tl ih =>
    rcases hd with ⟨a, e⟩
    by_cases h : a = n
    · simp [replaceChild, h] at ih ⊢
      exact ih
    · simp [replaceChild, h] at ih ⊢
      exact ih

theorem findInList_replaceChild_ne (cs : Tree) (n : String) (e' : Entry) (n2 : String)
    (q : RelPath) (h : n2 ≠ n) :
    findInList (replaceChild cs n e') n2 q = findInList cs n2 q := by
  induction cs with
  | nil => rfl
  | cons hd tl ih =>
    rcases hd with ⟨a, e⟩
    show findInList ((if a = n then (n, e') else (a, e)) :: replaceChild tl n e') n2 q =
      findInList ((a, e) :: tl) n2 q
    by_cases ha : a = n
    · rw [if_pos ha]
      show (if n = n2 then findEntry e' q else findInList (replaceChild tl n e') n2 q) =
        (if a = n2 then findEntry e q else findInList tl n2 q)
      rw [if_neg (fun hh => h hh.symm), if_neg (fun hh => h (ha ▸ hh).symm), ih]
    · rw [if_neg ha]
      show (if a = n2 then findEntry e q else findInList (replaceChild tl n e') n2 q) =
        (if a = n2 then findEntry e q else findInList tl n2 q)
      by_cases h2 : a = n2
      · rw [if_pos h2, if_pos h2]
      · rw [if_neg h2, if_neg h2, ih]

theorem findInList_replaceChild_self (cs : Tree) (n : String) (e' : Entry)
    (q : RelPath) (h : n ∈ cs.map Prod.fst) :
    findInList (replaceChild cs n e') n q = findEntry e' q := by
  induction cs with
  | nil => simp at h
  | cons hd tl ih =>
    rcases hd with ⟨a, e⟩
    show findInList ((if a = n then (n, e') else (a, e)) :: replaceChild tl n e') n q =
      findEntry e' q
    by_cases ha : a = n
    · rw [if_pos ha]
      show (if n = n then findEntry e' q else findInList (replaceChild tl n e') n q) =
        findEntry e' q
      rw [if_pos rfl]
    · rw [if_neg ha]
      show (if a = n then findEntry e q else findInList (replaceChild tl n e') n q) =
        findEntry e' q
      rw [if_neg ha]
      refine ih ?_
      simp only [List.map_cons, List.mem_cons] at h
      rcases h with h | h
      · exact absurd h.symm ha
      · exact h

theorem findInList_none_of_not_mem (cs : Tree) (n : String) (p : RelPath)
    (h : n ∉ cs.map Prod.fst) : findInList cs n p = none := by
  induction cs with
  | nil => rfl
  | cons hd tl ih =>
    rcases hd with ⟨a, e⟩
    simp only [List.map_cons, List.mem_cons] at h
    push_neg at h
    show (if a = n then findEntry e p else findInList tl n p) = none
    rw [if_neg (fun hh => h.1 hh.symm)]
    exact ih h.2

theorem specFileResult_shape (src : Entry) (kf : List RelPath) (sm0 : SrcMap)
    (p : RelPath) (m : Int) (c : String) (e' : Entry)
    (h : specFileResult src kf sm0 p m c = some e') : ∃ a b, e' = Entry.file a b := by
  simp only [specFileResult, copiedEntry] at h
  split at h
  · split at h
    · split at h
      next a b _ => injection h with h; exact ⟨a, b, h.symm⟩
      next => injection h with h; exact ⟨m, c, h.symm⟩
    · injection h with h; exact ⟨m, c, h.symm⟩
  · split at h
    · injection h with h; exact ⟨m, c, h.symm⟩
    · cases h

theorem findInList_eq_lookup (cs : Tree) (n : String) (q : RelPath) :
    findInList cs n q =
      match findInList cs n [] with
      | some e => findEntry e q
      | none => none := by
  induction cs with
  | nil => simp [findInList]
  | cons hd tl ih =>
    rcases hd with ⟨a, e⟩
    simp only [findInList]
    by_cases h : a = n
    · rw [if_pos h, if_pos h]
      simp [findEntry]
    · rw [if_neg h, if_neg h]
      exact ih

/-! ## Lemmas: names of the specification tree -/

theorem specEntry_name (src : Entry) (sd kd kf : List RelPath) (sm0 : SrcMap)
    (P : RelPath) (n : String) (e : Entry) (x : String × Entry)
    (h : x ∈ (specEntry src sd kd kf sm0 P n e).toList) : x.1 = n := by
  match e with
  | .file m c =>
    simp only [specEntry] at h
    cases hv : specFileResult src kf sm0 (P ++ [n]) m c with
    | none => rw [hv] at h; simp at h
    | some e' => rw [hv] at h; simp at h; rw [h]
  | .dir m kids =>
    simp only [specEntry] at h
    split at h
    · simp at h; rw [h]
    · simp at h

theorem specTree_names_sub (src : Entry) (sd kd kf : List RelPath) (sm0 : SrcMap)
    (P : RelPath) (cs : Tree) (x : String)
    (h : x ∈ (specTree src sd kd kf sm0 P cs).map Prod.fst) : x ∈ cs.map Prod.fst := by
  induction cs with
  | nil => simp [specTree] at h
  | cons hd tl ih =>
    rcases hd with ⟨n, e⟩
    simp only [specTree, List.map_append, List.mem_append] at h
    rcases h with h | h
    · rcases List.mem_map.mp h with ⟨y, hy, rfl⟩
      have := specEntry_name src sd kd kf sm0 P n e y hy
      simp [this]
    · simp [ih h]

/-! ## Lemmas: files in the specification tree -/

mutual
theorem specEntry_find_file (src : Entry) (sd kd kf : List RelPath) (sm0 : SrcMap)
    (P : RelPath) (n : String) (e : Entry) (q : RelPath) (m : Int) (c : String)
    (hwf : wfbEntry e = true)
    (hfind : findEntry e q = some (.file m c))
    (hreach : ∀ r ∈ dirChain (n :: q), P ++ r ∈ sd ∨ P ++ r ∈ kd) :
    optionFind (specEntry src sd kd kf sm0 P n e) q =
      specFileResult src kf sm0 (P ++ n :: q) m c := by
  match e with
  | .file m1 c1 =>
    match q with
    | [] =>
      simp only [findEntry, Option.some_inj] at hfind
      cases hfind
      simp only [specEntry]
      cases hv : specFileResult src kf sm0 (P ++ [n]) m c with
      | none => simp [optionFind, hv]
      | some e' => simp [optionFind, hv, findEntry]
    | x :: q2 => simp [findEntry] at hfind
  | .dir m1 kids =>
    match q with
    | [] => simp [findEntry] at hfind
    | x :: q2 =>
      have hwf2 : (kids.map Prod.fst).Nodup ∧ wfbTree kids = true := by
        simpa [wfbEntry] using hwf
      have hkept : P ++ [n] ∈ sd ∨ P ++ [n] ∈ kd :=
        hreach [n] (single_mem_dirChain n (x :: q2) (by simp))
      have hreach2 : ∀ r ∈ dirChain (x :: q2), (P ++ [n]) ++ r ∈ sd ∨ (P ++ [n]) ++ r ∈ kd := by
        intro r hr
        have := hreach (n :: r) (cons_mem_dirChain n r (x :: q2) hr)
        simpa [List.append_assoc] using this
      have hf : findT kids (x :: q2) = some (.file m c) := hfind
      have IH := specTree_find_file src sd kd kf sm0 (P ++ [n]) kids (x :: q2) m c
        hwf2.1 hwf2.2 hf hreach2
      simp only [specEntry, if_pos hkept, optionFind]
      rw [findEntry_dir_ne_nil _ _ _ (by simp), IH]
      simp [List.append_assoc]

theorem specTree_find_file (src : Entry) (sd kd kf : List RelPath) (sm0 : SrcMap)
    (P : RelPath) (cs : Tree) (q : RelPath) (m : Int) (c : String)
    (hnd : (cs.map Prod.fst).Nodup) (hwf : wfbTree cs = true)
    (hfind : findT cs q = some (.file m c))
    (hreach : ∀ r ∈ dirChain q, P ++ r ∈ sd ∨ P ++ r ∈ kd) :
    findT (specTree src sd kd kf sm0 P cs) q =
      specFileResult src kf sm0 (P ++ q) m c := by
  match cs with
  | [] =>
    match q with
    | [] => simp [findT] at hfind
    | x :: q2 => simp [findT, findInList] at hfind
  | (n, e) :: rest =>
    match q with
    | [] => simp [findT] at hfind
    | x :: q2 =>
      have hwfe : wfbEntry e = true ∧ wfbTree rest = true := by
        simpa [wfbTree] using hwf
      have hnd2 : n ∉ rest.map Prod.fst ∧ (rest.map Prod.fst).Nodup := by
        simpa using hnd
      by_cases hx : n = x
      · subst hx
        have hfind2 : findEntry e q2 = some (.file m c) := by
          simpa [findT, findInList] using hfind
        have IH := specEntry_find_file src sd kd kf sm0 P n e q2 m c hwfe.1 hfind2 hreach
        simp only [specTree, findT]
        cases hv : specEntry src sd kd kf sm0 P n e with
        | some y =>
          have hy : y.1 = n := specEntry_name src sd kd kf sm0 P n e y (by simp [hv])
          rcases y with ⟨n1, e1⟩
          simp only at hy
          subst hy
          rw [hv] at IH
          simp only [Option.toList_some, List.cons_append, findInList, if_pos rfl]
          exact IH
        | none =>
          rw [hv] at IH
          simp only [optionFind] at IH
          simp only [Option.toList_none, List.nil_append, findT]
          rw [findInList_none_of_not_mem _ _ _
            (fun hmem => hnd2.1 (specTree_names_sub src sd kd kf sm0 P rest n hmem))]
          exact IH
      · have hfind2 : findT rest (x :: q2) = some (.file m c) := by
          simpa [findT, findInList, hx] using hfind
        have IH := specTree_find_file src sd kd kf sm0 P rest (x :: q2) m c
          hnd2.2 hwfe.2 hfind2 hreach
        simp only [specTree, findT]
        rw [findInList_append]
        split
        next hmem =>
          exfalso
          rcases List.mem_map.mp hmem with ⟨y, hy, hyx⟩
          have := specEntry_name src sd kd kf sm0 P n e y hy
          exact hx (by rw [← this, hyx])
        next _ => exact IH
end

/-! ## Lemmas: paths absent from every set are absent from the spec tree -/

mutual
theorem specEntry_absent (src : Entry) (sd kd kf : List RelPath) (sm0 : SrcMap)
    (P : RelPath) (n : String) (e : Entry) (q : RelPath)
    (hnsd : P ++ n :: q ∉ sd) (hnkd : P ++ n :: q ∉ kd)
    (hkey : smLookup sm0 (P ++ n :: q) = none) (hnkf : P ++ n :: q ∉ kf) :
    optionFind (specEntry src sd kd kf sm0 P n e) q = none := by
  match e with
  | .file m1 c1 =>
    match q with
    | [] =>
      simp only [specEntry, specFileResult, hkey]
      rw [if_neg hnkf]
      simp [optionFind]
    | x :: q2 =>
      simp only [specEntry]
      cases hv : specFileResult src kf sm0 (P ++ [n]) m1 c1 with
      | none => simp [optionFind, hv]
      | some e2 =>
        rcases specFileResult_shape src kf sm0 (P ++ [n]) m1 c1 e2 hv with ⟨a, b, rfl⟩
        simp [optionFind, hv, findEntry]
  | .dir m1 kids =>
    match q with
    | [] =>
      simp only [specEntry]
      rw [if_neg (fun h => h.elim (fun h1 => hnsd (by simpa using h1))
        (fun h1 => hnkd (by simpa using h1)))]
      simp [optionFind]
    | x :: q2 =>
      simp only [specEntry]
      by_cases hkept : P ++ [n] ∈ sd ∨ P ++ [n] ∈ kd
      · rw [if_pos hkept]
        simp only [optionFind]
        rw [findEntry_dir_ne_nil _ _ _ (by simp)]
        exact specTree_absent src sd kd kf sm0 (P ++ [n]) kids (x :: q2)
          (by simpa [List.append_assoc] using hnsd)
          (by simpa [List.append_assoc] using hnkd)
          (by simpa [List.append_assoc] using hkey)
          (by simpa [List.append_assoc] using hnkf)
      · rw [if_neg hkept]
        simp [optionFind]

theorem specTree_absent (src : Entry) (sd kd kf : List RelPath) (sm0 : SrcMap)
    (P : RelPath) (cs : Tree) (q : RelPath)
    (hnsd : P ++ q ∉ sd) (hnkd : P ++ q ∉ kd)
    (hkey : smLookup sm0 (P ++ q) = none) (hnkf : P ++ q ∉ kf) :
    findT (specTree src sd kd kf sm0 P cs) q = none := by
  match cs with
  | [] =>
    match q with
    | [] => rfl
    | x :: q2 => simp [specTree, findT, findInList]
  | (n, e) :: rest =>
    match q with
    | [] => rfl
    | x :: q2 =>
      simp only [specTree, findT]
      rw [findInList_append]
      split
      next hmem =>
        rcases List.mem_map.mp hmem with ⟨y, hy, hyx⟩
        have hyn := specEntry_name src sd kd kf sm0 P n e y hy
        have hxn : x = n := by rw [← hyx, hyn]
        subst hxn
        cases hv : specEntry src sd kd kf sm0 P x e with
        | none => rw [hv] at hy; simp at hy
        | some y2 =>
          have hy2 : y2.1 = x := specEntry_name src sd kd kf sm0 P x e y2 (by simp [hv])
          have hopt := specEntry_absent src sd kd kf sm0 P x e q2 hnsd hnkd hkey hnkf
          rw [hv] at hopt
          rcases y2 with ⟨n2, e2⟩
          simp only at hy2
          subst hy2
          simp only [optionFind] at hopt
          simp only [Option.toList_some, findInList, if_pos rfl]
          exact hopt
      next _ =>
        exact specTree_absent src sd kd kf sm0 P rest (x :: q2) hnsd hnkd hkey hnkf
end

/-! ## Lemmas: dict insertion -/

theorem smLookup_smInsert_self (m : SrcMap) (p : RelPath) (v : Int) :
    smLookup (smInsert m p v) p = some v := by
  induction m with
  | nil => simp [smInsert, smLookup]
  | cons hd tl ih =>
    rcases hd with ⟨a, w⟩
    by_cases h : a = p
    · simp [smInsert, h, smLookup]
    · show smLookup (if a = p then (p, v) :: tl else (a, w) :: smInsert tl p v) p = some v
      rw [if_neg h]
      show (if a = p then some w else smLookup (smInsert tl p v) p) = some v
      rw [if_neg h, ih]

theorem smLookup_smInsert_ne (m : SrcMap) (p p2 : RelPath) (v : Int) (h : p ≠ p2) :
    smLookup (smInsert m p v) p2 = smLookup m p2 := by
  induction m with
  | nil =>
    show (if p = p2 then some v else none) = none
    rw [if_neg h]
  | cons hd tl ih =>
    rcases hd with ⟨a, w⟩
    show smLookup (if a = p then (p, v) :: tl else (a, w) :: smInsert tl p v) p2 =
      (if a = p2 then some w else smLookup tl p2)
    by_cases ha : a = p
    · rw [if_pos ha]
      show (if p = p2 then some v else smLookup tl p2) = _
      rw [if_neg h, if_neg (fun hh => h (ha ▸ hh))]
    · rw [if_neg ha]
      show (if a = p2 then some w else smLookup (smInsert tl p v) p2) = _
      by_cases h2 : a = p2
      · rw [if_pos h2, if_pos h2]
      · rw [if_neg h2, if_neg h2, ih]

theorem smKeys_smInsert (m : SrcMap) (p : RelPath) (v : Int) :
    smKeys (smInsert m p v) = if p ∈ smKeys m then smKeys m else smKeys m ++ [p] := by
  induction m with
  | nil => simp [smInsert, smKeys]
  | cons hd tl ih =>
    rcases hd with ⟨a, w⟩
    by_cases h : a = p
    · simp [smInsert, h, smKeys]
    · show smKeys (if a = p then (p, v) :: tl else (a, w) :: smInsert tl p v) = _
      rw [if_neg h]
      show a :: smKeys (smInsert tl p v) =
        if p ∈ a :: smKeys tl then a :: smKeys tl else (a :: smKeys tl) ++ [p]
      rw [ih]
      by_cases h2 : p ∈ smKeys tl
      · rw [if_pos h2, if_pos (List.mem_cons_of_mem a h2)]
      · rw [if_neg h2, if_neg ?_]
        · rfl
        · intro hm
          rcases List.mem_cons.mp hm with hh | hh
          · exact h hh.symm
          · exact h2 hh

theorem smKeys_smInsert_nodup (m : SrcMap) (p : RelPath) (v : Int)
    (h : (smKeys m).Nodup) : (smKeys (smInsert m p v)).Nodup := by
  rw [smKeys_smInsert]
  by_cases h2 : p ∈ smKeys m
  · rwa [if_pos h2]
  · rw [if_neg h2]
    rw [List.nodup_append]
    refine ⟨h, List.nodup_singleton p, ?_⟩
    intro a ha hb
    rw [List.mem_singleton] at hb
    subst hb
    exact h2 ha

/-! ## Lemmas: path navigation composes -/

theorem findEntry_append (e : Entry) (p q : RelPath) :
    findEntry e (p ++ q) =
      match findEntry e p with
      | some e2 => findEntry e2 q
      | none => none := by
  induction p generalizing e with
  | nil => simp [findEntry]
  | cons n p2 ih =>
    match e with
    | .file m c => rfl
    | .dir m cs =>
      show findInList cs n (p2 ++ q) = _
      rw [findInList_eq_lookup cs n (p2 ++ q)]
      show _ = match findInList cs n p2 with
        | some e2 => findEntry e2 q
        | none => none
      rw [findInList_eq_lookup cs n p2]
      cases findInList cs n [] with
      | none => rfl
      | some e2 => exact ih e2

/-! ## Lemmas: positions -/

theorem allPathsEntry_shape (n : String) (e : Entry) (q : RelPath)
    (h : q ∈ allPathsEntry n e) : ∃ q2, q = n :: q2 := by
  match e with
  | .file m c =>
    simp only [allPathsEntry, List.mem_singleton] at h
    exact ⟨[], by simp [h]⟩
  | .dir m kids =>
    simp only [allPathsEntry, List.mem_cons, List.mem_map] at h
    rcases h with h | ⟨q2, _, rfl⟩
    · exact ⟨[], by simp [h]⟩
    · exact ⟨q2, rfl⟩

theorem allPathsTree_shape (cs : Tree) (q : RelPath) (h : q ∈ allPathsTree cs) :
    ∃ n q2, q = n :: q2 ∧ n ∈ cs.map Prod.fst := by
  induction cs with
  | nil => simp [allPathsTree] at h
  | cons hd tl ih =>
    rcases hd with ⟨n, e⟩
    simp only [allPathsTree, List.mem_append] at h
    rcases h with h | h
    · rcases allPathsEntry_shape n e q h with ⟨q2, rfl⟩
      exact ⟨n, q2, rfl, by simp⟩
    · rcases ih h with ⟨n2, q2, rfl, hm⟩
      exact ⟨n2, q2, rfl, by simp [hm]⟩

mutual
theorem specLogEntry_paths (sd kd kf : List RelPath) (sm0 : SrcMap) (P : RelPath)
    (n : String) (e : Entry) (op : Op) (h : op ∈ specLogEntry sd kd kf sm0 P n e) :
    ∃ q ∈ allPathsEntry n e, opPath op = P ++ q := by
  match e with
  | .file m c =>
    simp only [specLogEntry] at h
    refine ⟨[n], by simp [allPathsEntry], ?_⟩
    split at h
    · split at h
      · simp only [List.mem_singleton] at h
        simp [h, opPath]
      · simp at h
    · split at h
      · simp at h
      · simp only [List.mem_singleton] at h
        simp [h, opPath]
  | .dir m kids =>
    simp only [specLogEntry] at h
    split at h
    · rcases specLogTree_paths sd kd kf sm0 (P ++ [n]) kids op h with ⟨q, hq, hpath⟩
      refine ⟨n :: q, by simp [allPathsEntry, hq], ?_⟩
      simpa [List.append_assoc] using hpath
    · simp only [List.mem_singleton] at h
      exact ⟨[n], by simp [allPathsEntry], by simp [h, opPath]⟩

theorem specLogTree_paths (sd kd kf : List RelPath) (sm0 : SrcMap) (P : RelPath)
    (cs : Tree) (op : Op) (h : op ∈ specLogTree sd kd kf sm0 P cs) :
    ∃ q ∈ allPathsTree cs, opPath op = P ++ q := by
  match cs with
  | [] => simp [specLogTree] at h
  | (n, e) :: rest =>
    simp only [specLogTree, List.mem_append] at h
    rcases h with h | h
    · rcases specLogEntry_paths sd kd kf sm0 P n e op h with ⟨q, hq, hpath⟩
      exact ⟨q, by simp [allPathsTree, hq], hpath⟩
    · rcases specLogTree_paths sd kd kf sm0 P rest op h with ⟨q, hq, hpath⟩
      exact ⟨q, by simp [allPathsTree, hq], hpath⟩
end

/-! ## Lemmas: counting copies in the walk log -/

theorem copy_not_mem_specLogEntry (sd kd kf : List RelPath) (sm0 : SrcMap) (P : RelPath)
    (n : String) (e : Entry) (p : RelPath) (h : ∀ q2, p ≠ P ++ n :: q2) :
    Op.copy p ∉ specLogEntry sd kd kf sm0 P n e := by
  intro hmem
  rcases specLogEntry_paths sd kd kf sm0 P n e _ hmem with ⟨q, hq, hpath⟩
  rcases allPathsEntry_shape n e q hq with ⟨q2, rfl⟩
  exact h q2 hpath

mutual
theorem specLogEntry_copy_count (src : Entry) (sd kd kf : List RelPath) (sm0 : SrcMap)
    (P : RelPath) (n : String) (e : Entry) (q : RelPath) (m : Int) (c : String) (mt : Int)
    (hwf : wfbEntry e = true)
    (hfind : findEntry e q = some (.file m c))
    (hmt : smLookup sm0 (P ++ n :: q) = some mt)
    (hreach : ∀ r ∈ dirChain (n :: q), P ++ r ∈ sd ∨ P ++ r ∈ kd) :
    (specLogEntry sd kd kf sm0 P n e).count (.copy (P ++ n :: q)) =
      if m < mt then 1 else 0 := by
  match e with
  | .file m1 c1 =>
    match q with
    | [] =>
      simp only [findEntry, Option.some_inj] at hfind
      cases hfind
      simp only [specLogEntry, hmt]
      by_cases hlt : m < mt
      · rw [if_pos hlt, if_pos hlt]
        simp
      · rw [if_neg hlt, if_neg hlt]
        simp
    | x :: q2 => simp [findEntry] at hfind
  | .dir m1 kids =>
    match q with
    | [] => simp [findEntry] at hfind
    | x :: q2 =>
      have hwf2 : (kids.map Prod.fst).Nodup ∧ wfbTree kids = true := by
        simpa [wfbEntry] using hwf
      have hkept : P ++ [n] ∈ sd ∨ P ++ [n] ∈ kd :=
        hreach [n] (single_mem_dirChain n (x :: q2) (by simp))
      have hreach2 : ∀ r ∈ dirChain (x :: q2),
          (P ++ [n]) ++ r ∈ sd ∨ (P ++ [n]) ++ r ∈ kd := by
        intro r hr
        have := hreach (n :: r) (cons_mem_dirChain n r (x :: q2) hr)
        simpa [List.append_assoc] using this
      have IH := specLogTree_copy_count src sd kd kf sm0 (P ++ [n]) kids (x :: q2) m c mt
        hwf2.1 hwf2.2 hfind (by simpa [List.append_assoc] using hmt) hreach2
      simp only [specLogEntry, if_pos hkept]
      rw [show P ++ n :: x :: q2 = (P ++ [n]) ++ x :: q2 by simp]
      exact IH

theorem specLogTree_copy_count (src : Entry) (sd kd kf : List RelPath) (sm0 : SrcMap)
    (P : RelPath) (cs : Tree) (q : RelPath) (m : Int) (c : String) (mt : Int)
    (hnd : (cs.map Prod.fst).Nodup) (hwf : wfbTree cs = true)
    (hfind : findT cs q = some (.file m c))
    (hmt : smLookup sm0 (P ++ q) = some mt)
    (hreach : ∀ r ∈ dirChain q, P ++ r ∈ sd ∨ P ++ r ∈ kd) :
    (specLogTree sd kd kf sm0 P cs).count (.copy (P ++ q)) = if m < mt then 1 else 0 := by
  match cs with
  | [] =>
    match q with
    | [] => simp [findT] at hfind
    | x :: q2 => simp [findT, findInList] at hfind
  | (n, e) :: rest =>
    match q with
    | [] => simp [findT] at hfind
    | x :: q2 =>
      have hwfe : wfbEntry e = true ∧ wfbTree rest = true := by
        simpa [wfbTree] using hwf
      have hnd2 : n ∉ rest.map Prod.fst ∧ (rest.map Prod.fst).Nodup := by
        simpa using hnd
      simp only [specLogTree, List.count_append]
      by_cases hx : n = x
      · subst hx
        have hfind2 : findEntry e q2 = some (.file m c) := by
          simpa [findT, findInList] using hfind
        have hE := specLogEntry_copy_count src sd kd kf sm0 P n e q2 m c mt
          hwfe.1 hfind2 hmt hreach
        have hR : (specLogTree sd kd kf sm0 P rest).count (.copy (P ++ n :: q2)) = 0 := by
          rw [List.count_eq_zero]
          intro hmem
          rcases specLogTree_paths sd kd kf sm0 P rest _ hmem with ⟨q0, hq0, hpath⟩
          rcases allPathsTree_shape rest q0 hq0 with ⟨n2, q3, rfl, hn2⟩
          have : (n : String) :: q2 = n2 :: q3 := List.append_cancel_left hpath
          have hnn : n = n2 := by injection this
          exact hnd2.1 (hnn ▸ hn2)
        rw [hE, hR]
        simp
      · have hfind2 : findT rest (x :: q2) = some (.file m c) := by
          simpa [findT, findInList, hx] using hfind
        have hE : (specLogEntry sd kd kf sm0 P n e).count (.copy (P ++ x :: q2)) = 0 := by
          rw [List.count_eq_zero]
          refine copy_not_mem_specLogEntry sd kd kf sm0 P n e _ ?_
          intro q3 hq3
          have : (x : String) :: q2 = n :: q3 := List.append_cancel_left hq3
          have := (by injection this : x = n)
          exact hx this.symm
        have IH := specLogTree_copy_count src sd kd kf sm0 P rest (x :: q2) m c mt
          hnd2.2 hwfe.2 hfind2 hmt hreach
        rw [hE, IH]
        simp
end

/-! ## Lemmas: deletions recorded in the walk log -/

mutual
theorem specLogEntry_rmtree_mem (sd kd kf : List RelPath) (sm0 : SrcMap)
    (P : RelPath) (n : String) (e : Entry) (q : RelPath) (md : Int) (kids : Tree)
    (hfind : findEntry e q = some (.dir md kids))
    (hq : ¬(P ++ n :: q ∈ sd ∨ P ++ n :: q ∈ kd))
    (hreach : ∀ r ∈ dirChain (n :: q), P ++ r ∈ sd ∨ P ++ r ∈ kd) :
    Op.rmtree (P ++ n :: q) ∈ specLogEntry sd kd kf sm0 P n e := by
  match e with
  | .file m1 c1 =>
    match q with
    | [] => simp [findEntry] at hfind
    | x :: q2 => simp [findEntry] at hfind
  | .dir m1 kids1 =>
    match q with
    | [] =>
      simp only [specLogEntry]
      rw [if_neg (by simpa using hq)]
      simp
    | x :: q2 =>
      have hkept : P ++ [n] ∈ sd ∨ P ++ [n] ∈ kd :=
        hreach [n] (single_mem_dirChain n (x :: q2) (by simp))
      have hreach2 : ∀ r ∈ dirChain (x :: q2),
          (P ++ [n]) ++ r ∈ sd ∨ (P ++ [n]) ++ r ∈ kd := by
        intro r hr
        have := hreach (n :: r) (cons_mem_dirChain n r (x :: q2) hr)
        simpa [List.append_assoc] using this
      have IH := specLogTree_rmtree_mem sd kd kf sm0 (P ++ [n]) kids1 (x :: q2) md kids
        hfind (by simpa [List.append_assoc] using hq) hreach2
      simp only [specLogEntry, if_pos hkept]
      rw [show P ++ n :: x :: q2 = (P ++ [n]) ++ x :: q2 by simp]
      exact IH

theorem specLogTree_rmtree_mem (sd kd kf : List RelPath) (sm0 : SrcMap)
    (P : RelPath) (cs : Tree) (q : RelPath) (md : Int) (kids : Tree)
    (hfind : findT cs q = some (.dir md kids))
    (hq : ¬(P ++ q ∈ sd ∨ P ++ q ∈ kd))
    (hreach : ∀ r ∈ dirChain q, P ++ r ∈ sd ∨ P ++ r ∈ kd) :
    Op.rmtree (P ++ q) ∈ specLogTree sd kd kf sm0 P cs := by
  match cs with
  | [] =>
    match q with
    | [] => simp [findT] at hfind
    | x :: q2 => simp [findT, findInList] at hfind
  | (n, e) :: rest =>
    match q with
    | [] => simp [findT] at hfind
    | x :: q2 =>
      simp only [specLogTree, List.mem_append]
      by_cases hx : n = x
      · subst hx
        have hfind2 : findEntry e q2 = some (.dir md kids) := by
          simpa [findT, findInList] using hfind
        exact Or.inl (specLogEntry_rmtree_mem sd kd kf sm0 P n e q2 md kids hfind2 hq hreach)
      · have hfind2 : findT rest (x :: q2) = some (.dir md kids) := by
          simpa [findT, findInList, hx] using hfind
        exact Or.inr (specLogTree_rmtree_mem sd kd kf sm0 P rest (x :: q2) md kids
          hfind2 hq hreach)
end

mutual
theorem specLogEntry_remove_mem (sd kd kf : List RelPath) (sm0 : SrcMap)
    (P : RelPath) (n : String) (e : Entry) (q : RelPath) (m : Int) (c : String)
    (hfind : findEntry e q = some (.file m c))
    (hkey : smLookup sm0 (P ++ n :: q) = none) (hkf : P ++ n :: q ∉ kf)
    (hreach : ∀ r ∈ dirChain (n :: q), P ++ r ∈ sd ∨ P ++ r ∈ kd) :
    Op.remove (P ++ n :: q) ∈ specLogEntry sd kd kf sm0 P n e := by
  match e with
  | .file m1 c1 =>
    match q with
    | [] =>
      simp only [specLogEntry, hkey]
      rw [if_neg hkf]
      simp
    | x :: q2 => simp [findEntry] at hfind
  | .dir m1 kids1 =>
    match q with
    | [] => simp [findEntry] at hfind
    | x :: q2 =>
      have hkept : P ++ [n] ∈ sd ∨ P ++ [n] ∈ kd :=
        hreach [n] (single_mem_dirChain n (x :: q2) (by simp))
      have hreach2 : ∀ r ∈ dirChain (x :: q2),
          (P ++ [n]) ++ r ∈ sd ∨ (P ++ [n]) ++ r ∈ kd := by
        intro r hr
        have := hreach (n :: r) (cons_mem_dirChain n r (x :: q2) hr)
        simpa [List.append_assoc] using this
      have IH := specLogTree_remove_mem sd kd kf sm0 (P ++ [n]) kids1 (x :: q2) m c
        hfind (by simpa [List.append_assoc] using hkey)
        (by simpa [List.append_assoc] using hkf) hreach2
      simp only [specLogEntry, if_pos hkept]
      rw [show P ++ n :: x :: q2 = (P ++ [n]) ++ x :: q2 by simp]
      exact IH

theorem specLogTree_remove_mem (sd kd kf : List RelPath) (sm0 : SrcMap)
    (P : RelPath) (cs : Tree) (q : RelPath) (m : Int) (c : String)
    (hfind : findT cs q = some (.file m c))
    (hkey : smLookup sm0 (P ++ q) = none) (hkf : P ++ q ∉ kf)
    (hreach : ∀ r ∈ dirChain q, P ++ r ∈ sd ∨ P ++ r ∈ kd) :
    Op.remove (P ++ q) ∈ specLogTree sd kd kf sm0 P cs := by
  match cs with
  | [] =>
    match q with
    | [] => simp [findT] at hfind
    | x :: q2 => simp [findT, findInList] at hfind
  | (n, e) :: rest =>
    match q with
    | [] => simp [findT] at hfind
    | x :: q2 =>
      simp only [specLogTree, List.mem_append]
      by_cases hx : n = x
      · subst hx
        have hfind2 : findEntry e q2 = some (.file m c) := by
          simpa [findT, findInList] using hfind
        exact Or.inl (specLogEntry_remove_mem sd kd kf sm0 P n e q2 m c hfind2 hkey hkf hreach)
      · have hfind2 : findT rest (x :: q2) = some (.file m c) := by
          simpa [findT, findInList, hx] using hfind
        exact Or.inr (specLogTree_remove_mem sd kd kf sm0 P rest (x :: q2) m c
          hfind2 hkey hkf hreach)
end

/-! ## Lemmas: a pruned directory is not descended into -/

mutual
theorem specLogEntry_no_under (sd kd kf : List RelPath) (sm0 : SrcMap)
    (P : RelPath) (n : String) (e : Entry) (q : RelPath) (md : Int) (kids : Tree)
    (hwf : wfbEntry e = true)
    (hfind : findEntry e q = some (.dir md kids))
    (hq : ¬(P ++ n :: q ∈ sd ∨ P ++ n :: q ∈ kd)) :
    ∀ op ∈ specLogEntry sd kd kf sm0 P n e, ∀ ext, ext ≠ [] →
      opPath op ≠ (P ++ n :: q) ++ ext := by
  match e with
  | .file m1 c1 =>
    match q with
    | [] => simp [findEntry] at hfind
    | x :: q2 => simp [findEntry] at hfind
  | .dir m1 kids1 =>
    match q with
    | [] =>
      intro op hop ext hext
      simp only [specLogEntry] at hop
      rw [if_neg (by simpa using hq)] at hop
      simp only [List.mem_singleton] at hop
      subst hop
      simp only [opPath]
      intro hcontra
      have := List.append_cancel_left (hcontra.trans (List.append_assoc _ _ _))
      simp [hext] at this
    | x :: q2 =>
      intro op hop ext hext
      by_cases hkept : P ++ [n] ∈ sd ∨ P ++ [n] ∈ kd
      · simp only [specLogEntry, if_pos hkept] at hop
        have hwf2 : (kids1.map Prod.fst).Nodup ∧ wfbTree kids1 = true := by
          simpa [wfbEntry] using hwf
        have IH := specLogTree_no_under sd kd kf sm0 (P ++ [n]) kids1 (x :: q2) md kids
          hwf2.1 hwf2.2 hfind (by simpa [List.append_assoc] using hq) op hop ext hext
        intro hcontra
        exact IH (by rw [hcontra]; simp)
      · simp only [specLogEntry, if_neg hkept] at hop
        simp only [List.mem_singleton] at hop
        subst hop
        simp only [opPath]
        intro hcontra
        have h2 : ([n] : RelPath) = (n :: x :: q2) ++ ext := by
          have := hcontra.trans (List.append_assoc _ _ _)
          exact List.append_cancel_left this
        have := congrArg List.length h2
        simp at this

theorem specLogTree_no_under (sd kd kf : List RelPath) (sm0 : SrcMap)
    (P : RelPath) (cs : Tree) (q : RelPath) (md : Int) (kids : Tree)
    (hnd : (cs.map Prod.fst).Nodup) (hwf : wfbTree cs = true)
    (hfind : findT cs q = some (.dir md kids))
    (hq : ¬(P ++ q ∈ sd ∨ P ++ q ∈ kd)) :
    ∀ op ∈ specLogTree sd kd kf sm0 P cs, ∀ ext, ext ≠ [] →
      opPath op ≠ (P ++ q) ++ ext := by
  match cs with
  | [] =>
    match q with
    | [] => simp [findT] at hfind
    | x :: q2 => simp [findT, findInList] at hfind
  | (n, e) :: rest =>
    match q with
    | [] => simp [findT] at hfind
    | x :: q2 =>
      intro op hop ext hext
      have hwfe : wfbEntry e = true ∧ wfbTree rest = true := by
        simpa [wfbTree] using hwf
      have hnd2 : n ∉ rest.map Prod.fst ∧ (rest.map Prod.fst).Nodup := by
        simpa using hnd
      simp only [specLogTree, List.mem_append] at hop
      by_cases hx : n = x
      · subst hx
        rcases hop with hop | hop
        · have hfind2 : findEntry e q2 = some (.dir md kids) := by
            simpa [findT, findInList] using hfind
          exact specLogEntry_no_under sd kd kf sm0 P n e q2 md kids hwfe.1 hfind2 hq
            op hop ext hext
        · rcases specLogTree_paths sd kd kf sm0 P rest op hop with ⟨q0, hq0, hpath⟩
          rcases allPathsTree_shape rest q0 hq0 with ⟨n2, q3, rfl, hn2⟩
          rw [hpath]
          intro hcontra
          have h2 : (n2 : String) :: q3 = n :: q2 ++ ext := by
            have := hcontra.trans (List.append_assoc _ _ _)
            exact List.append_cancel_left this
          have : n2 = n := by injection h2
          exact hnd2.1 (this ▸ hn2)
      · rcases hop with hop | hop
        · rcases specLogEntry_paths sd kd kf sm0 P n e op hop with ⟨q0, hq0, hpath⟩
          rcases allPathsEntry_shape n e q0 hq0 with ⟨q3, rfl⟩
          rw [hpath]
          intro hcontra
          have h2 : (n : String) :: q3 = x :: q2 ++ ext := by
            have := hcontra.trans (List.append_assoc _ _ _)
            exact List.append_cancel_left this
          have : n = x := by injection h2
          exact hx this
        · have hfind2 : findT rest (x :: q2) = some (.dir md kids) := by
            simpa [findT, findInList, hx] using hfind
          exact specLogTree_no_under sd kd kf sm0 P rest (x :: q2) md kids
            hnd2.2 hwfe.2 hfind2 hq op hop ext hext
end

/-! ## Lemmas: a kept destination file attracts no operation -/

mutual
theorem specLogEntry_quiet (sd kd kf : List RelPath) (sm0 : SrcMap)
    (P : RelPath) (n : String) (e : Entry) (q : RelPath) (m : Int) (c : String)
    (hwf : wfbEntry e = true)
    (hfind : findEntry e q = some (.file m c))
    (hkey : smLookup sm0 (P ++ n :: q) = none) (hkf : P ++ n :: q ∈ kf) :
    ∀ op ∈ specLogEntry sd kd kf sm0 P n e, opPath op ≠ P ++ n :: q := by
  match e with
  | .file m1 c1 =>
    match q with
    | [] =>
      intro op hop
      simp only [specLogEntry, hkey] at hop
      rw [if_pos hkf] at hop
      simp at hop
    | x :: q2 => simp [findEntry] at hfind
  | .dir m1 kids1 =>
    match q with
    | [] => simp [findEntry] at hfind
    | x :: q2 =>
      intro op hop
      by_cases hkept : P ++ [n] ∈ sd ∨ P ++ [n] ∈ kd
      · simp only [specLogEntry, if_pos hkept] at hop
        have hwf2 : (kids1.map Prod.fst).Nodup ∧ wfbTree kids1 = true := by
          simpa [wfbEntry] using hwf
        have IH := specLogTree_quiet sd kd kf sm0 (P ++ [n]) kids1 (x :: q2) m c
          hwf2.1 hwf2.2 hfind (by simpa [List.append_assoc] using hkey)
          (by simpa [List.append_assoc] using hkf) op hop
        intro hcontra
        exact IH (by rw [hcontra]; simp)
      · simp only [specLogEntry, if_neg hkept, List.mem_singleton] at hop
        subst hop
        simp only [opPath]
        intro hcontra
        have := List.append_cancel_left hcontra
        have := congrArg List.length this
        simp at this

theorem specLogTree_quiet (sd kd kf : List RelPath) (sm0 : SrcMap)
    (P : RelPath) (cs : Tree) (q : RelPath) (m : Int) (c : String)
    (hnd : (cs.map Prod.fst).Nodup) (hwf : wfbTree cs = true)
    (hfind : findT cs q = some (.file m c))
    (hkey : smLookup sm0 (P ++ q) = none) (hkf : P ++ q ∈ kf) :
    ∀ op ∈ specLogTree sd kd kf sm0 P cs, opPath op ≠ P ++ q := by
  match cs with
  | [] =>
    match q with
    | [] => simp [findT] at hfind
    | x :: q2 => simp [findT, findInList] at hfind
  | (n, e) :: rest =>
    match q with
    | [] => simp [findT] at hfind
    | x :: q2 =>
      intro op hop
      have hwfe : wfbEntry e = true ∧ wfbTree rest = true := by
        simpa [wfbTree] using hwf
      have hnd2 : n ∉ rest.map Prod.fst ∧ (rest.map Prod.fst).Nodup := by
        simpa using hnd
      simp only [specLogTree, List.mem_append] at hop
      by_cases hx : n = x
      · subst hx
        rcases hop with hop | hop
        · have hfind2 : findEntry e q2 = some (.file m c) := by
            simpa [findT, findInList] using hfind
          exact specLogEntry_quiet sd kd kf sm0 P n e q2 m c hwfe.1 hfind2 hkey hkf op hop
        · rcases specLogTree_paths sd kd kf sm0 P rest op hop with ⟨q0, hq0, hpath⟩
          rcases allPathsTree_shape rest q0 hq0 with ⟨n2, q3, rfl, hn2⟩
          rw [hpath]
          intro hcontra
          have h2 : (n2 : String) :: q3 = n :: q2 := List.append_cancel_left hcontra
          have : n2 = n := by injection h2
          exact hnd2.1 (this ▸ hn2)
      · rcases hop with hop | hop
        · rcases specLogEntry_paths sd kd kf sm0 P n e op hop with ⟨q0, hq0, hpath⟩
          rcases allPathsEntry_shape n e q0 hq0 with ⟨q3, rfl⟩
          rw [hpath]
          intro hcontra
          have h2 : (n : String) :: q3 = x :: q2 := List.append_cancel_left hcontra
          have : n = x := by injection h2
          exact hx this
        · have hfind2 : findT rest (x :: q2) = some (.file m c) := by
            simpa [findT, findInList, hx] using hfind
          exact specLogTree_quiet sd kd kf sm0 P rest (x :: q2) m c
            hnd2.2 hwfe.2 hfind2 hkey hkf op hop
end

/-! ## Lemmas: a successful walk has a regular source file behind every
stale destination file -/

mutual
theorem walkOkEntry_stale_src (src : Entry) (sd kd : List RelPath) (sm0 : SrcMap)
    (P : RelPath) (n : String) (e : Entry) (q : RelPath) (m : Int) (c : String) (mt : Int)
    (hok : walkOkEntry src sd kd sm0 P n e = true)
    (hfind : findEntry e q = some (.file m c))
    (hmt : smLookup sm0 (P ++ n :: q) = some mt) (hlt : m < mt)
    (hreach : ∀ r ∈ dirChain (n :: q), P ++ r ∈ sd ∨ P ++ r ∈ kd) :
    ∃ a b, findEntry src (P ++ n :: q) = some (.file a b) := by
  match e with
  | .file m1 c1 =>
    match q with
    | [] =>
      simp only [findEntry, Option.some_inj] at hfind
      cases hfind
      simp only [walkOkEntry, hmt] at hok
      rw [if_pos hlt] at hok
      cases hsrc : findEntry src (P ++ [n]) with
      | none => rw [hsrc] at hok; simp at hok
      | some e0 =>
        cases e0 with
        | file a b => exact ⟨a, b, rfl⟩
        | dir md csd => rw [hsrc] at hok; simp at hok
    | x :: q2 => simp [findEntry] at hfind
  | .dir m1 kids1 =>
    match q with
    | [] => simp [findEntry] at hfind
    | x :: q2 =>
      have hkept : P ++ [n] ∈ sd ∨ P ++ [n] ∈ kd :=
        hreach [n] (single_mem_dirChain n (x :: q2) (by simp))
      have hok2 : walkOkTree src sd kd sm0 (P ++ [n]) kids1 = true := by
        simpa only [walkOkEntry, if_pos hkept] using hok
      have hreach2 : ∀ r ∈ dirChain (x :: q2),
          (P ++ [n]) ++ r ∈ sd ∨ (P ++ [n]) ++ r ∈ kd := by
        intro r hr
        have := hreach (n :: r) (cons_mem_dirChain n r (x :: q2) hr)
        simpa [List.append_assoc] using this
      have IH := walkOkTree_stale_src src sd kd sm0 (P ++ [n]) kids1 (x :: q2) m c mt
        hok2 hfind (by simpa [List.append_assoc] using hmt) hlt hreach2
      simpa [List.append_assoc] using IH

theorem walkOkTree_stale_src (src : Entry) (sd kd : List RelPath) (sm0 : SrcMap)
    (P : RelPath) (cs : Tree) (q : RelPath) (m : Int) (c : String) (mt : Int)
    (hok : walkOkTree src sd kd sm0 P cs = true)
    (hfind : findT cs q = some (.file m c))
    (hmt : smLookup sm0 (P ++ q) = some mt) (hlt : m < mt)
    (hreach : ∀ r ∈ dirChain q, P ++ r ∈ sd ∨ P ++ r ∈ kd) :
    ∃ a b, findEntry src (P ++ q) = some (.file a b) := by
  match cs with
  | [] =>
    match q with
    | [] => simp [findT] at hfind
    | x :: q2 => simp [findT, findInList] at hfind
  | (n, e) :: rest =>
    match q with
    | [] => simp [findT] at hfind
    | x :: q2 =>
      have hoks : walkOkEntry src sd kd sm0 P n e = true ∧
          walkOkTree src sd kd sm0 P rest = true := by
        simpa [walkOkTree] using hok
      by_cases hx : n = x
      · subst hx
        have hfind2 : findEntry e q2 = some (.file m c) := by
          simpa [findT, findInList] using hfind
        exact walkOkEntry_stale_src src sd kd sm0 P n e q2 m c mt hoks.1 hfind2 hmt hlt hreach
      · have hfind2 : findT rest (x :: q2) = some (.file m c) := by
          simpa [findT, findInList, hx] using hfind
        exact walkOkTree_stale_src src sd kd sm0 P rest (x :: q2) m c mt
          hoks.2 hfind2 hmt hlt hreach
end

/-! ## Lemmas: characterizing the handled keys -/

mutual
theorem handledEntry_char (sd kd : List RelPath) (sm0 : SrcMap)
    (P : RelPath) (n : String) (e : Entry) (p : RelPath)
    (hwf : wfbEntry e = true)
    (h : p ∈ handledEntry sd kd sm0 P n e) :
    ∃ q2 m c, p = P ++ n :: q2 ∧ findEntry e q2 = some (.file m c) ∧
      (∀ r ∈ dirChain (n :: q2), P ++ r ∈ sd ∨ P ++ r ∈ kd) ∧
      (smLookup sm0 p).isSome = true := by
  match e with
  | .file m1 c1 =>
    simp only [handledEntry] at h
    split at h
    next hkey =>
      simp only [List.mem_singleton] at h
      subst h
      exact ⟨[], m1, c1, by simp, rfl, by simp [dirChain], hkey⟩
    next => simp at h
  | .dir m1 kids =>
    simp only [handledEntry] at h
    split at h
    next hkept =>
      have hwf2 : (kids.map Prod.fst).Nodup ∧ wfbTree kids = true := by
        simpa [wfbEntry] using hwf
      rcases handledTree_char sd kd sm0 (P ++ [n]) kids p hwf2.1 hwf2.2 h with
        ⟨x, q3, m2, c2, rfl, hxm, hfind, hreach, hkey⟩
      refine ⟨x :: q3, m2, c2, by simp, ?_, ?_, hkey⟩
      · rw [findEntry_dir_ne_nil _ _ _ (by simp)]
        exact hfind
      · intro r hr
        rcases mem_dirChain_cons n r (x :: q3) hr with hr1 | ⟨r2, rfl, hr2⟩
        · subst hr1
          exact hkept
        · have := hreach r2 hr2
          simpa [List.append_assoc] using this
    next => simp at h

theorem handledTree_char (sd kd : List RelPath) (sm0 : SrcMap)
    (P : RelPath) (cs : Tree) (p : RelPath)
    (hnd : (cs.map Prod.fst).Nodup) (hwf : wfbTree cs = true)
    (h : p ∈ handledTree sd kd sm0 P cs) :
    ∃ x q2 m c, p = P ++ x :: q2 ∧ x ∈ cs.map Prod.fst ∧
      findT cs (x :: q2) = some (.file m c) ∧
      (∀ r ∈ dirChain (x :: q2), P ++ r ∈ sd ∨ P ++ r ∈ kd) ∧
      (smLookup sm0 p).isSome = true := by
  match cs with
  | [] => simp [handledTree] at h
  | (n, e) :: rest =>
    have hwfe : wfbEntry e = true ∧ wfbTree rest = true := by
      simpa [wfbTree] using hwf
    have hnd2 : n ∉ rest.map Prod.fst ∧ (rest.map Prod.fst).Nodup := by
      simpa using hnd
    simp only [handledTree, List.mem_append] at h
    rcases h with h | h
    · rcases handledEntry_char sd kd sm0 P n e p hwfe.1 h with
        ⟨q2, m2, c2, rfl, hfind, hreach, hkey⟩
      refine ⟨n, q2, m2, c2, rfl, by simp, ?_, hreach, hkey⟩
      show (if n = n then findEntry e q2 else findInList rest n q2) = _
      rw [if_pos rfl]
      exact hfind
    · rcases handledTree_char sd kd sm0 P rest p hnd2.2 hwfe.2 h with
        ⟨x, q2, m2, c2, rfl, hxm, hfind, hreach, hkey⟩
      refine ⟨x, q2, m2, c2, rfl, by simp [hxm], ?_, hreach, hkey⟩
      show (if n = x then findEntry e q2 else findInList rest x q2) = _
      rw [if_neg (fun hh => hnd2.1 (by rw [hh]; exact hxm))]
      exact hfind
end

mutual
theorem handledEntry_cover (sd kd kf : List RelPath) (sm0 : SrcMap)
    (P : RelPath) (n : String) (e : Entry) (q : RelPath) (m : Int) (c : String)
    (hsync : syncedEntry sd kd kf sm0 P n e = true)
    (hfind : findEntry e q = some (.file m c))
    (hkey : (smLookup sm0 (P ++ n :: q)).isSome = true) :
    P ++ n :: q ∈ handledEntry sd kd sm0 P n e := by
  match e with
  | .file m1 c1 =>
    match q with
    | [] =>
      simp only [handledEntry]
      rw [if_pos hkey]
      simp
    | x :: q2 => simp [findEntry] at hfind
  | .dir m1 kids =>
    match q with
    | [] => simp [findEntry] at hfind
    | x :: q2 =>
      have hs : (P ++ [n] ∈ sd ∨ P ++ [n] ∈ kd) ∧
          syncedTree sd kd kf sm0 (P ++ [n]) kids = true := by
        simpa [syncedEntry] using hsync
      have IH := handledTree_cover sd kd kf sm0 (P ++ [n]) kids (x :: q2) m c
        hs.2 hfind (by simpa [List.append_assoc] using hkey)
      simp only [handledEntry, if_pos hs.1]
      simpa [List.append_assoc] using IH

theorem handledTree_cover (sd kd kf : List RelPath) (sm0 : SrcMap)
    (P : RelPath) (cs : Tree) (q : RelPath) (m : Int) (c : String)
    (hsync : syncedTree sd kd kf sm0 P cs = true)
    (hfind : findT cs q = some (.file m c))
    (hkey : (smLookup sm0 (P ++ q)).isSome = true) :
    P ++ q ∈ handledTree sd kd sm0 P cs := by
  match cs with
  | [] =>
    match q with
    | [] => simp [findT] at hfind
    | x :: q2 => simp [findT, findInList] at hfind
  | (n, e) :: rest =>
    match q with
    | [] => simp [findT] at hfind
    | x :: q2 =>
      have hs : syncedEntry sd kd kf sm0 P n e = true ∧
          syncedTree sd kd kf sm0 P rest = true := by
        simpa [syncedTree] using hsync
      simp only [handledTree, List.mem_append]
      by_cases hx : n = x
      · subst hx
        have hfind2 : findEntry e q2 = some (.file m c) := by
          simpa [findT, findInList] using hfind
        exact Or.inl (handledEntry_cover sd kd kf sm0 P n e q2 m c hs.1 hfind2 hkey)
      · have hfind2 : findT rest (x :: q2) = some (.file m c) := by
          simpa [findT, findInList, hx] using hfind
        exact Or.inr (handledTree_cover sd kd kf sm0 P rest (x :: q2) m c
          hs.2 hfind2 hkey)
end

/-! ## Lemmas: a synchronized destination is a fixed point of the walk -/

mutual
theorem syncedEntry_fix (src : Entry) (sd kd kf : List RelPath) (sm0 : SrcMap)
    (P : RelPath) (n : String) (e : Entry)
    (hsync : syncedEntry sd kd kf sm0 P n e = true) :
    specEntry src sd kd kf sm0 P n e = some (n, e) ∧
      specLogEntry sd kd kf sm0 P n e = [] ∧
      walkOkEntry src sd kd sm0 P n e = true := by
  match e with
  | .file m c =>
    simp only [syncedEntry] at hsync
    simp only [specEntry, specFileResult, specLogEntry, walkOkEntry]
    split at hsync
    next mt hmt =>
      have hle : mt ≤ m := by simpa using hsync
      have hnlt : ¬m < mt := not_lt.mpr hle
      rw [if_neg hnlt, if_neg hnlt, if_neg hnlt]
      simp
    next hmt =>
      have hkf : P ++ [n] ∈ kf := by simpa using hsync
      rw [if_pos hkf, if_pos hkf]
      simp
  | .dir m kids =>
    have hs : (P ++ [n] ∈ sd ∨ P ++ [n] ∈ kd) ∧
        syncedTree sd kd kf sm0 (P ++ [n]) kids = true := by
      simpa [syncedEntry] using hsync
    have IH := syncedTree_fix src sd kd kf sm0 (P ++ [n]) kids hs.2
    simp only [specEntry, specLogEntry, walkOkEntry, if_pos hs.1]
    exact ⟨by rw [IH.1], IH.2.1, IH.2.2⟩

theorem syncedTree_fix (src : Entry) (sd kd kf : List RelPath) (sm0 : SrcMap)
    (P : RelPath) (cs : Tree)
    (hsync : syncedTree sd kd kf sm0 P cs = true) :
    specTree src sd kd kf sm0 P cs = cs ∧
      specLogTree sd kd kf sm0 P cs = [] ∧
      walkOkTree src sd kd sm0 P cs = true := by
  match cs with
  | [] => exact ⟨rfl, rfl, rfl⟩
  | (n, e) :: rest =>
    have hs : syncedEntry sd kd kf sm0 P n e = true ∧
        syncedTree sd kd kf sm0 P rest = true := by
      simpa [syncedTree] using hsync
    have IHe := syncedEntry_fix src sd kd kf sm0 P n e hs.1
    have IHr := syncedTree_fix src sd kd kf sm0 P rest hs.2
    refine ⟨?_, ?_, ?_⟩
    · simp only [specTree, IHe.1, IHr.1, Option.toList_some, List.cons_append,
        List.nil_append]
    · simp only [specLogTree, IHe.2.1, IHr.2.1, List.append_nil]
    · simp only [walkOkTree, IHe.2.2, IHr.2.2, Bool.and_self]
end

/-! ## Lemmas: the walk's output is synchronized -/

mutual
theorem specEntry_synced (src : Entry) (sd kd kf : List RelPath) (sm0 : SrcMap)
    (P : RelPath) (n : String) (e : Entry)
    (hd2 : ∀ p mt, smLookup sm0 p = some mt → getmtime src p = some mt)
    (hok : walkOkEntry src sd kd sm0 P n e = true) :
    ∀ y ∈ (specEntry src sd kd kf sm0 P n e).toList,
      syncedEntry sd kd kf sm0 P y.1 y.2 = true := by
  match e with
  | .file m c =>
    intro y hy
    have hy1 : y.1 = n := specEntry_name src sd kd kf sm0 P n (.file m c) y hy
    simp only [specEntry] at hy
    cases hv : specFileResult src kf sm0 (P ++ [n]) m c with
    | none => rw [hv] at hy; simp at hy
    | some e2 =>
      rw [hv] at hy
      simp at hy
      subst hy
      simp only [specFileResult] at hv
      split at hv
      next mt hmt =>
        simp only [walkOkEntry, hmt] at hok
        by_cases hlt : m < mt
        · rw [if_pos hlt] at hv hok
          simp only [copiedEntry] at hv
          cases hsrc : findEntry src (P ++ [n]) with
          | none => rw [hsrc] at hok; simp at hok
          | some e0 =>
            cases e0 with
            | dir md csd => rw [hsrc] at hok; simp at hok
            | file a b =>
              rw [hsrc] at hv
              simp only [Option.some_inj] at hv
              subst hv
              have : getmtime src (P ++ [n]) = some mt := hd2 _ _ hmt
              simp only [getmtime, hsrc] at this
              simp only [Option.some_inj] at this
              simp only [syncedEntry, hmt]
              simp [this]
        · rw [if_neg hlt] at hv
          simp only [Option.some_inj] at hv
          subst hv
          simp only [syncedEntry, hmt]
          simp [not_lt.mp hlt]
      next hmt =>
        split at hv
        next hkf =>
          simp only [Option.some_inj] at hv
          subst hv
          simp only [syncedEntry, hmt]
          simp [hkf]
        next => simp at hv
  | .dir m kids =>
    intro y hy
    simp only [specEntry] at hy
    by_cases hkept : P ++ [n] ∈ sd ∨ P ++ [n] ∈ kd
    · rw [if_pos hkept] at hy
      simp only [Option.toList_some, List.mem_singleton] at hy
      subst hy
      have hok2 : walkOkTree src sd kd sm0 (P ++ [n]) kids = true := by
        simpa only [walkOkEntry, if_pos hkept] using hok
      have IH := specTree_synced src sd kd kf sm0 (P ++ [n]) kids hd2 hok2
      simp only [syncedEntry]
      rw [Bool.and_eq_true]
      exact ⟨by simpa using hkept, IH⟩
    · rw [if_neg hkept] at hy
      simp at hy

theorem specTree_synced (src : Entry) (sd kd kf : List RelPath) (sm0 : SrcMap)
    (P : RelPath) (cs : Tree)
    (hd2 : ∀ p mt, smLookup sm0 p = some mt → getmtime src p = some mt)
    (hok : walkOkTree src sd kd sm0 P cs = true) :
    syncedTree sd kd kf sm0 P (specTree src sd kd kf sm0 P cs) = true := by
  match cs with
  | [] => rfl
  | (n, e) :: rest =>
    have hoks : walkOkEntry src sd kd sm0 P n e = true ∧
        walkOkTree src sd kd sm0 P rest = true := by
      simpa [walkOkTree] using hok
    have IHe := specEntry_synced src sd kd kf sm0 P n e hd2 hoks.1
    have IHr := specTree_synced src sd kd kf sm0 P rest hd2 hoks.2
    simp only [specTree]
    cases hv : specEntry src sd kd kf sm0 P n e with
    | none => simpa using IHr
    | some y =>
      rcases y with ⟨n1, e1⟩
      have := IHe (n1, e1) (by simp [hv])
      simp only [Option.toList_some, List.cons_append, List.nil_append, syncedTree]
      rw [Bool.and_eq_true]
      exact ⟨this, IHr⟩
end

/-! ## Lemmas: discovery (the `files` branch) -/

theorem getmtime_none_iff (root : Entry) (p : RelPath) :
    getmtime root p = none ↔ findEntry root p = none := by
  simp only [getmtime]
  cases h : findEntry root p with
  | none => simp
  | some e => cases e <;> simp

theorem discoverFiles_sd_mono (src : Entry) (files : List RelPath) :
    ∀ sd sm sd' sm', discoverFiles src files sd sm = .ok (sd', sm') →
      ∀ x ∈ sd, x ∈ sd' := by
  induction files with
  | nil =>
    intro sd sm sd' sm' h x hx
    simp only [discoverFiles] at h
    cases h
    exact hx
  | cons p rest ih =>
    intro sd sm sd' sm' h x hx
    simp only [discoverFiles] at h
    cases hmt : getmtime src p with
    | none => rw [hmt] at h; cases h
    | some mt =>
      rw [hmt] at h
      exact ih _ _ _ _ h x (by simp [hx])

theorem discoverFiles_d2 (src : Entry) (files : List RelPath) :
    ∀ sd sm sd' sm', discoverFiles src files sd sm = .ok (sd', sm') →
      (∀ p mt, smLookup sm p = some mt → getmtime src p = some mt) →
      ∀ p mt, smLookup sm' p = some mt → getmtime src p = some mt := by
  induction files with
  | nil =>
    intro sd sm sd' sm' h hinv
    simp only [discoverFiles] at h
    cases h
    exact hinv
  | cons p0 rest ih =>
    intro sd sm sd' sm' h hinv
    simp only [discoverFiles] at h
    cases hmt : getmtime src p0 with
    | none => rw [hmt] at h; cases h
    | some mt0 =>
      rw [hmt] at h
      refine ih _ _ _ _ h ?_
      intro p mt hp
      by_cases hpe : p0 = p
      · subst hpe
        rw [smLookup_smInsert_self] at hp
        cases hp
        exact hmt
      · rw [smLookup_smInsert_ne sm p0 p mt0 hpe] at hp
        exact hinv p mt hp

theorem discoverFiles_chains (src : Entry) (files : List RelPath) :
    ∀ sd sm sd' sm', discoverFiles src files sd sm = .ok (sd', sm') →
      (∀ p, p ∈ smKeys sm → ∀ r ∈ dirChain p, r ∈ sd) →
      ∀ p, p ∈ smKeys sm' → ∀ r ∈ dirChain p, r ∈ sd' := by
  induction files with
  | nil =>
    intro sd sm sd' sm' h hinv
    simp only [discoverFiles] at h
    cases h
    exact hinv
  | cons p0 rest ih =>
    intro sd sm sd' sm' h hinv
    simp only [discoverFiles] at h
    cases hmt : getmtime src p0 with
    | none => rw [hmt] at h; cases h
    | some mt0 =>
      rw [hmt] at h
      refine ih _ _ _ _ h ?_
      intro p hp r hr
      rw [smKeys_smInsert] at hp
      have : p ∈ smKeys sm ∨ p = p0 := by
        by_cases hm : p0 ∈ smKeys sm
        · rw [if_pos hm] at hp; exact Or.inl hp
        · rw [if_neg hm] at hp
          rcases List.mem_append.mp hp with hp | hp
          · exact Or.inl hp
          · simp at hp; exact Or.inr hp
      rcases this with hp2 | rfl
      · exact List.mem_append.mpr (Or.inl (hinv p hp2 r hr))
      · exact List.mem_append.mpr (Or.inr hr)

theorem discoverFiles_nodup (src : Entry) (files : List RelPath) :
    ∀ sd sm sd' sm', discoverFiles src files sd sm = .ok (sd', sm') →
      (smKeys sm).Nodup → (smKeys sm').Nodup := by
  induction files with
  | nil =>
    intro sd sm sd' sm' h hinv
    simp only [discoverFiles] at h
    cases h
    exact hinv
  | cons p0 rest ih =>
    intro sd sm sd' sm' h hinv
    simp only [discoverFiles] at h
    cases hmt : getmtime src p0 with
    | none => rw [hmt] at h; cases h
    | some mt0 =>
      rw [hmt] at h
      exact ih _ _ _ _ h (smKeys_smInsert_nodup sm p0 mt0 hinv)

theorem discoverFiles_keys_sub (src : Entry) (files : List RelPath) :
    ∀ sd sm sd' sm', discoverFiles src files sd sm = .ok (sd', sm') →
      ∀ p, p ∈ smKeys sm' → p ∈ smKeys sm ∨ p ∈ files := by
  induction files with
  | nil =>
    intro sd sm sd' sm' h p hp
    simp only [discoverFiles] at h
    cases h
    exact Or.inl hp
  | cons p0 rest ih =>
    intro sd sm sd' sm' h p hp
    simp only [discoverFiles] at h
    cases hmt : getmtime src p0 with
    | none => rw [hmt] at h; cases h
    | some mt0 =>
      rw [hmt] at h
      rcases ih _ _ _ _ h p hp with hp2 | hp2
      · rw [smKeys_smInsert] at hp2
        by_cases hm : p0 ∈ smKeys sm
        · rw [if_pos hm] at hp2; exact Or.inl hp2
        · rw [if_neg hm] at hp2
          rcases List.mem_append.mp hp2 with hp3 | hp3
          · exact Or.inl hp3
          · simp at hp3; exact Or.inr (by simp [hp3])
      · exact Or.inr (by simp [hp2])

theorem discoverFiles_missing (src : Entry) (files : List RelPath) (p : RelPath)
    (hp : p ∈ files) (hmiss : findEntry src p = none) :
    ∀ sd sm, ∃ q, discoverFiles src files sd sm = .error (.enoent q) ∧
      findEntry src q = none := by
  induction files with
  | nil => simp at hp
  | cons p0 rest ih =>
    intro sd sm
    cases hmt : getmtime src p0 with
    | none =>
      refine ⟨p0, ?_, (getmtime_none_iff src p0).mp hmt⟩
      simp only [discoverFiles, hmt]
    | some mt0 =>
      have hp2 : p ∈ rest := by
        rcases List.mem_cons.mp hp with rfl | hp2
        · rw [(getmtime_none_iff src p).mpr hmiss] at hmt; cases hmt
        · exact hp2
      rcases ih hp2 (sd ++ dirChain p0) (smInsert sm p0 mt0) with ⟨q, hq, hq2⟩
      refine ⟨q, ?_, hq2⟩
      simp only [discoverFiles, hmt]
      exact hq

theorem getmtime_congr (src src2 : Entry) (p : RelPath)
    (h : findEntry src p = findEntry src2 p) : getmtime src p = getmtime src2 p := by
  simp only [getmtime, h]

theorem discoverFiles_congr (src src2 : Entry) (files : List RelPath)
    (h : ∀ p ∈ files, findEntry src p = findEntry src2 p) :
    ∀ sd sm, discoverFiles src files sd sm = discoverFiles src2 files sd sm := by
  induction files with
  | nil => intro sd sm; rfl
  | cons p0 rest ih =>
    intro sd sm
    have h0 : getmtime src p0 = getmtime src2 p0 :=
      getmtime_congr src src2 p0 (h p0 (by simp))
    simp only [discoverFiles, h0]
    cases getmtime src2 p0 with
    | none => rfl
    | some mt0 => exact ih (fun p hp => h p (by simp [hp])) _ _

/-! ## Lemmas: discovery (the walk branch) -/

theorem wfbTree_mem (cs : Tree) (nc : String × Entry) (h : nc ∈ cs)
    (hwf : wfbTree cs = true) : wfbEntry nc.2 = true := by
  induction cs with
  | nil => simp at h
  | cons hd tl ih =>
    rcases hd with ⟨a, e⟩
    have hw : wfbEntry e = true ∧ wfbTree tl = true := by simpa [wfbTree] using hwf
    rcases List.mem_cons.mp h with rfl | h
    · exact hw.1
    · exact ih h hw.2

theorem findInList_of_mem_nodup (cs : Tree) (n : String) (e : Entry)
    (hnd : (cs.map Prod.fst).Nodup) (h : (n, e) ∈ cs) : findInList cs n [] = some e := by
  induction cs with
  | nil => simp at h
  | cons hd tl ih =>
    rcases hd with ⟨a, w⟩
    have hnd2 : a ∉ tl.map Prod.fst ∧ (tl.map Prod.fst).Nodup := by simpa using hnd
    rcases List.mem_cons.mp h with hh | hh
    · rw [Prod.mk.injEq] at hh
      show (if a = n then findEntry w [] else findInList tl n []) = some e
      rw [if_pos hh.1.symm]
      simp [findEntry, hh.2]
    · show (if a = n then findEntry w [] else findInList tl n []) = some e
      rw [if_neg ?_]
      · exact ih hnd2.2 hh
      · rintro rfl
        exact hnd2.1 (List.mem_map.mpr ⟨(a, e), hh, rfl⟩)

theorem mem_dirChain_append_single (parent : RelPath) (n : String) (r : RelPath)
    (h : r ∈ dirChain (parent ++ [n])) :
    r ∈ dirChain parent ∨ (r = parent ∧ parent ≠ []) := by
  rcases (mem_dirChain_iff _ _).mp h with ⟨k, h1, h2, rfl⟩
  simp only [List.length_append, List.length_singleton] at h2
  by_cases hk : k < parent.length
  · left
    refine (mem_dirChain_iff _ _).mpr ⟨k, h1, hk, ?_⟩
    rw [List.take_append_of_le_length (by omega)]
  · right
    have hke : k = parent.length := by omega
    subst hke
    constructor
    · rw [List.take_append_of_le_length (by omega), List.take_length]
    · intro hp
      rw [hp] at h1
      simp at h1

mutual
theorem discoverWalkTree_props (src : Entry) (parent : RelPath) (cs : Tree) :
    ∀ sd sm sd' sm', discoverWalkTree parent cs sd sm = (sd', sm') →
      (∀ nc ∈ cs, findEntry src (parent ++ [nc.1]) = some nc.2) →
      wfbTree cs = true →
      (∀ r ∈ dirChain parent, r ∈ sd) → (parent ≠ [] → parent ∈ sd) →
      (∀ x ∈ sd, x ∈ sd') ∧
      ((∀ p mt, smLookup sm p = some mt → getmtime src p = some mt) →
        ∀ p mt, smLookup sm' p = some mt → getmtime src p = some mt) ∧
      ((∀ p, p ∈ smKeys sm → ∀ r ∈ dirChain p, r ∈ sd) →
        ∀ p, p ∈ smKeys sm' → ∀ r ∈ dirChain p, r ∈ sd') ∧
      ((smKeys sm).Nodup → (smKeys sm').Nodup) := by
  match cs with
  | [] =>
    intro sd sm sd' sm' h _ _ _ _
    simp only [discoverWalkTree] at h
    cases h
    exact ⟨fun x hx => hx, fun hi => hi, fun hi => hi, fun hi => hi⟩
  | (n, e) :: rest =>
    intro sd sm sd' sm' h hname hwf hanc hpar
    have hwfe : wfbEntry e = true ∧ wfbTree rest = true := by
      simpa [wfbTree] using hwf
    simp only [discoverWalkTree] at h
    rcases hmid : discoverWalkEntry parent n e sd sm with ⟨sd1, sm1⟩
    rw [hmid] at h
    have hE := discoverWalkEntry_props src parent n e sd sm sd1 sm1 hmid
      (hname (n, e) (by simp)) hwfe.1 hanc hpar
    have hT := discoverWalkTree_props src parent rest sd1 sm1 sd' sm' h
      (fun nc hnc => hname nc (by simp [hnc])) hwfe.2
      (fun r hr => hE.1 r (hanc r hr)) (fun hp => hE.1 parent (hpar hp))
    refine ⟨fun x hx => hT.1 x (hE.1 x hx), ?_, ?_, fun hi => hT.2.2.2 (hE.2.2.2 hi)⟩
    · intro hi
      exact hT.2.1 (hE.2.1 hi)
    · intro hi
      exact hT.2.2.1 (hE.2.2.1 hi)

theorem discoverWalkEntry_props (src : Entry) (parent : RelPath) (n : String) (e : Entry) :
    ∀ sd sm sd' sm', discoverWalkEntry parent n e sd sm = (sd', sm') →
      findEntry src (parent ++ [n]) = some e →
      wfbEntry e = true →
      (∀ r ∈ dirChain parent, r ∈ sd) → (parent ≠ [] → parent ∈ sd) →
      (∀ x ∈ sd, x ∈ sd') ∧
      ((∀ p mt, smLookup sm p = some mt → getmtime src p = some mt) →
        ∀ p mt, smLookup sm' p = some mt → getmtime src p = some mt) ∧
      ((∀ p, p ∈ smKeys sm → ∀ r ∈ dirChain p, r ∈ sd) →
        ∀ p, p ∈ smKeys sm' → ∀ r ∈ dirChain p, r ∈ sd') ∧
      ((smKeys sm).Nodup → (smKeys sm').Nodup) := by
  match e with
  | .file m c =>
    intro sd sm sd' sm' h hsrc _ hanc hpar
    simp only [discoverWalkEntry] at h
    cases h
    refine ⟨fun x hx => hx, ?_, ?_, fun hi => smKeys_smInsert_nodup sm _ m hi⟩
    · intro hi p mt hp
      by_cases hpe : parent ++ [n] = p
      · subst hpe
        rw [smLookup_smInsert_self] at hp
        cases hp
        simp [getmtime, hsrc]
      · rw [smLookup_smInsert_ne sm _ p m hpe] at hp
        exact hi p mt hp
    · intro hi p hp r hr
      rw [smKeys_smInsert] at hp
      have : p ∈ smKeys sm ∨ p = parent ++ [n] := by
        by_cases hm : parent ++ [n] ∈ smKeys sm
        · rw [if_pos hm] at hp; exact Or.inl hp
        · rw [if_neg hm] at hp
          rcases List.mem_append.mp hp with hp | hp
          · exact Or.inl hp
          · simp at hp; exact Or.inr hp
      rcases this with hp2 | rfl
      · exact hi p hp2 r hr
      · rcases mem_dirChain_append_single parent n r hr with hr2 | ⟨rfl, hne⟩
        · exact hanc r hr2
        · exact hpar hne
  | .dir m kids =>
    intro sd sm sd' sm' h hsrc hwf hanc hpar
    have hwf2 : (kids.map Prod.fst).Nodup ∧ wfbTree kids = true := by
      simpa [wfbEntry] using hwf
    simp only [discoverWalkEntry] at h
    have hname2 : ∀ nc ∈ kids, findEntry src ((parent ++ [n]) ++ [nc.1]) = some nc.2 := by
      intro nc hnc
      rw [findEntry_append, hsrc]
      show findInList kids nc.1 [] = some nc.2
      exact findInList_of_mem_nodup kids nc.1 nc.2 hwf2.1 hnc
    have hT := discoverWalkTree_props src (parent ++ [n]) kids (sd ++ [parent ++ [n]]) sm
      sd' sm' h hname2 hwf2.2 ?_ ?_
    · refine ⟨fun x hx => hT.1 x (by simp [hx]), hT.2.1, ?_, hT.2.2.2⟩
      intro hi
      refine hT.2.2.1 ?_
      intro p hp r hr
      simp [hi p hp r hr]
    · intro r hr
      rcases mem_dirChain_append_single parent n r hr with hr2 | ⟨rfl, hne⟩
      · simp [hanc r hr2]
      · simp [hpar hne]
    · intro _
      simp
end

/-! ## Lemmas: completion phase building blocks -/

theorem findEntry_nil (e : Entry) : findEntry e [] = some e := by
  cases e <;> rfl

theorem findInList_some_mem_names (cs : Tree) (n : String) (p : RelPath) (e : Entry)
    (h : findInList cs n p = some e) : n ∈ cs.map Prod.fst := by
  by_contra hmem
  rw [findInList_none_of_not_mem cs n p hmem] at h
  cases h

theorem mem_names_findInList_some (cs : Tree) (n : String) (h : n ∈ cs.map Prod.fst) :
    ∃ e, findInList cs n [] = some e := by
  induction cs with
  | nil => simp at h
  | cons hd tl ih =>
    rcases hd with ⟨a, w⟩
    show ∃ e, (if a = n then findEntry w [] else findInList tl n []) = some e
    by_cases ha : a = n
    · exact ⟨w, by rw [if_pos ha]; exact findEntry_nil w⟩
    · rcases ih (by
        simp only [List.map_cons, List.mem_cons] at h
        rcases h with h | h
        · exact absurd h.symm ha
        · exact h) with ⟨e, he⟩
      exact ⟨e, by rw [if_neg ha]; exact he⟩

theorem findInList_some_findEntry (cs : Tree) (n : String) (child : Entry) (q : RelPath)
    (hl : findInList cs n [] = some child) : findInList cs n q = findEntry child q := by
  rw [findInList_eq_lookup, hl]

theorem mkChain_name (n : String) (rest : List String) : (mkChain n rest).1 = n := by
  cases rest <;> rfl

theorem mkChain_find_ne_none (n : String) : ∀ (rest : List String) (q : RelPath),
    findEntry (mkChain n rest).2 q ≠ none → ∃ k, k ≤ rest.length ∧ q = rest.take k := by
  intro rest
  induction rest generalizing n with
  | nil =>
    intro q h
    cases q with
    | nil => exact ⟨0, by simp⟩
    | cons x q2 =>
      exfalso
      apply h
      show findInList [] x q2 = none
      rfl
  | cons n2 rest2 ih =>
    intro q h
    cases q with
    | nil => exact ⟨0, by simp⟩
    | cons x q2 =>
      have hx : findInList [mkChain n2 rest2] x q2 ≠ none := h
      by_cases hxe : n2 = x
      · subst hxe
        have h2 : findEntry (mkChain n2 rest2).2 q2 ≠ none := by
          intro hc
          apply hx
          show (if (mkChain n2 rest2).1 = n2 then findEntry (mkChain n2 rest2).2 q2
            else findInList [] n2 q2) = none
          rw [if_pos (mkChain_name n2 rest2)]
          exact hc
        rcases ih n2 q2 h2 with ⟨k, hk, rfl⟩
        exact ⟨k + 1, by simpa using hk, by simp⟩
      · exfalso
        apply hx
        show (if (mkChain n2 rest2).1 = x then findEntry (mkChain n2 rest2).2 q2
          else findInList [] x q2) = none
        rw [mkChain_name, if_neg hxe]
        rfl

theorem mkChain_wf (n : String) : ∀ (rest : List String), wfbEntry (mkChain n rest).2 = true := by
  intro rest
  induction rest generalizing n with
  | nil => rfl
  | cons n2 rest2 ih =>
    show wfbEntry (.dir 0 [mkChain n2 rest2]) = true
    simp only [wfbEntry, wfbTree]
    simp [ih n2]

theorem wfbTree_append (a b : Tree) :
    wfbTree (a ++ b) = (wfbTree a && wfbTree b) := by
  induction a with
  | nil => simp [wfbTree]
  | cons hd tl ih =>
    rcases hd with ⟨n, e⟩
    simp [wfbTree, ih, Bool.and_assoc]

theorem wfbTree_replaceChild (cs : Tree) (n : String) (e' : Entry)
    (hwf : wfbTree cs = true) (he : wfbEntry e' = true) :
    wfbTree (replaceChild cs n e') = true := by
  induction cs with
  | nil => rfl
  | cons hd tl ih =>
    rcases hd with ⟨a, w⟩
    have hw : wfbEntry w = true ∧ wfbTree tl = true := by simpa [wfbTree] using hwf
    show wfbTree ((if a = n then (n, e') else (a, w)) :: replaceChild tl n e') = true
    by_cases ha : a = n
    · rw [if_pos ha]
      show (wfbEntry e' && wfbTree (replaceChild tl n e')) = true
      simp [he, ih hw.2]
    · rw [if_neg ha]
      show (wfbEntry w && wfbTree (replaceChild tl n e')) = true
      simp [hw.1, ih hw.2]

theorem makedirs_shape (m : Int) (cs : Tree) (d : RelPath) (root' : Entry)
    (h : makedirs (.dir m cs) d = .ok root') : ∃ cs', root' = .dir m cs' := by
  cases d with
  | nil => cases h
  | cons n rest =>
    simp only [makedirs] at h
    split at h
    next child hl =>
      split at h
      next child' hmk =>
        cases h
        exact ⟨replaceChild cs n child', rfl⟩
      next e hmk => cases h
    next hl =>
      cases h
      exact ⟨cs ++ [mkChain n rest], rfl⟩

theorem makedirs_frame_file (d : RelPath) : ∀ (root root' : Entry),
    makedirs root d = .ok root' →
    ∀ q m2 c2, findEntry root q = some (.file m2 c2) →
      findEntry root' q = some (.file m2 c2) := by
  induction d with
  | nil => intro root root' h; cases root <;> cases h
  | cons n rest ih =>
    intro root root' h q m2 c2 hq
    match root with
    | .file mf cf => cases h
    | .dir m cs =>
      simp only [makedirs] at h
      split at h
      next child hl =>
        split at h
        next child' hmk =>
          cases h
          cases q with
          | nil => rw [findEntry_nil] at hq; cases hq
          | cons y q2 =>
            show findInList (replaceChild cs n child') y q2 = some (.file m2 c2)
            have hq2 : findInList cs y q2 = some (.file m2 c2) := hq
            by_cases hy : y = n
            · subst hy
              rw [findInList_replaceChild_self cs y child' q2
                (findInList_some_mem_names cs y [] child hl)]
              rw [findInList_some_findEntry cs y child q2 hl] at hq2
              exact ih child child' hmk q2 m2 c2 hq2
            · rw [findInList_replaceChild_ne cs n child' y q2 hy]
              exact hq2
        next e hmk => cases h
      next hl =>
        cases h
        cases q with
        | nil => rw [findEntry_nil] at hq; cases hq
        | cons y q2 =>
          show findInList (cs ++ [mkChain n rest]) y q2 = some (.file m2 c2)
          have hq2 : findInList cs y q2 = some (.file m2 c2) := hq
          rw [findInList_append]
          rw [if_pos (findInList_some_mem_names cs y q2 _ hq2)]
          exact hq2

theorem makedirs_add (d : RelPath) : ∀ (root root' : Entry),
    makedirs root d = .ok root' →
    ∀ q, findEntry root' q ≠ none →
      findEntry root q ≠ none ∨ (∃ k, 0 < k ∧ k ≤ d.length ∧ q = d.take k) := by
  induction d with
  | nil => intro root root' h; cases root <;> cases h
  | cons n rest ih =>
    intro root root' h q hq
    match root with
    | .file mf cf => cases h
    | .dir m cs =>
      simp only [makedirs] at h
      split at h
      next child hl =>
        split at h
        next child' hmk =>
          cases h
          cases q with
          | nil => exact Or.inl (by rw [findEntry_nil]; intro hc; cases hc)
          | cons y q2 =>
            have hq2 : findInList (replaceChild cs n child') y q2 ≠ none := hq
            by_cases hy : y = n
            · subst hy
              rw [findInList_replaceChild_self cs y child' q2
                (findInList_some_mem_names cs y [] child hl)] at hq2
              rcases ih child child' hmk q2 hq2 with h2 | ⟨k, hk1, hk2, rfl⟩
              · left
                show findInList cs y q2 ≠ none
                rw [findInList_some_findEntry cs y child q2 hl]
                exact h2
              · right
                exact ⟨k + 1, by omega, by simpa using hk2, by simp⟩
            · left
              rw [findInList_replaceChild_ne cs n child' y q2 hy] at hq2
              exact hq2
        next e hmk => cases h
      next hl =>
        cases h
        cases q with
        | nil => exact Or.inl (by rw [findEntry_nil]; intro hc; cases hc)
        | cons y q2 =>
          have hq2 : findInList (cs ++ [mkChain n rest]) y q2 ≠ none := hq
          rw [findInList_append] at hq2
          by_cases hy : y ∈ cs.map Prod.fst
          · rw [if_pos hy] at hq2
            left
            exact hq2
          · rw [if_neg hy] at hq2
            by_cases hyn : n = y
            · subst hyn
              have hq3 : findEntry (mkChain n rest).2 q2 ≠ none := by
                intro hc
                apply hq2
                show (if (mkChain n rest).1 = n then findEntry (mkChain n rest).2 q2
                  else findInList [] n q2) = none
                rw [if_pos (mkChain_name n rest)]
                exact hc
              rcases mkChain_find_ne_none n rest q2 hq3 with ⟨k, hk, rfl⟩
              right
              exact ⟨k + 1, by omega, by simpa using hk, by simp⟩
            · exfalso
              apply hq2
              show (if (mkChain n rest).1 = y then findEntry (mkChain n rest).2 q2
                else findInList [] y q2) = none
              rw [mkChain_name, if_neg hyn]
              rfl

theorem wfbTree_find (cs : Tree) (n : String) (child : Entry)
    (hwf : wfbTree cs = true) (hl : findInList cs n [] = some child) :
    wfbEntry child = true := by
  induction cs with
  | nil => cases hl
  | cons hd tl ih =>
    rcases hd with ⟨a, w⟩
    have hw2 : wfbEntry w = true ∧ wfbTree tl = true := by
      simpa [wfbTree] using hwf
    have hl2 : (if a = n then findEntry w [] else findInList tl n []) = some child := hl
    by_cases ha : a = n
    · rw [if_pos ha, findEntry_nil] at hl2
      cases hl2
      exact hw2.1
    · rw [if_neg ha] at hl2
      exact ih hw2.2 hl2

theorem makedirs_wf (d : RelPath) : ∀ (root root' : Entry),
    makedirs root d = .ok root' → wfbEntry root = true → wfbEntry root' = true := by
  induction d with
  | nil => intro root root' h; cases root <;> cases h
  | cons n rest ih =>
    intro root root' h hwf
    match root with
    | .file mf cf => cases h
    | .dir m cs =>
      have hw : (cs.map Prod.fst).Nodup ∧ wfbTree cs = true := by
        simpa [wfbEntry] using hwf
      simp only [makedirs] at h
      split at h
      next child hl =>
        split at h
        next child' hmk =>
          cases h
          have hcwf : wfbEntry child = true := wfbTree_find cs n child hw.2 hl
          simp only [wfbEntry]
          rw [Bool.and_eq_true]
          constructor
          · simp only [decide_eq_true_eq]
            rw [replaceChild_names]
            exact hw.1
          · exact wfbTree_replaceChild cs n child' hw.2 (ih child child' hmk hcwf)
        next e hmk => cases h
      next hl =>
        cases h
        simp only [wfbEntry]
        rw [Bool.and_eq_true]
        constructor
        · have hnm : n ∉ cs.map Prod.fst := by
            intro hmem
            rcases mem_names_findInList_some cs n hmem with ⟨e2, he2⟩
            rw [hl] at he2
            cases he2
          simp only [decide_eq_true_eq, List.map_append, List.map_cons, List.map_nil,
            mkChain_name]
          rw [List.nodup_append]
          refine ⟨hw.1, List.nodup_singleton n, ?_⟩
          intro a ha hb
          rw [List.mem_singleton] at hb
          subst hb
          exact hnm ha
        · rw [wfbTree_append]
          simp [hw.2, wfbTree, mkChain_wf n rest]

theorem findInList_none_findEntry (cs : Tree) (n : String) (q : RelPath)
    (hl : findInList cs n [] = none) : findInList cs n q = none := by
  rw [findInList_eq_lookup, hl]

theorem copyTo_shape (m : Int) (cs : Tree) (p : RelPath) (mt : Int) (c : String)
    (root' : Entry) (h : copyTo (.dir m cs) p mt c = .ok root') :
    ∃ cs', root' = .dir m cs' := by
  cases p with
  | nil => cases h
  | cons n rest =>
    cases rest with
    | nil =>
      simp only [copyTo] at h
      split at h
      next a b hl => cases h
      next a b hl => cases h; exact ⟨_, rfl⟩
      next hl => cases h; exact ⟨_, rfl⟩
    | cons n2 rest2 =>
      simp only [copyTo] at h
      split at h
      next child hl =>
        split at h
        next child' hcp => cases h; exact ⟨_, rfl⟩
        next e hcp => cases h
      next hl => cases h

theorem copyTo_result (mt : Int) (c : String) : ∀ (p : RelPath) (root root' : Entry),
    copyTo root p mt c = .ok root' → findEntry root' p = some (.file mt c) := by
  intro p
  induction p with
  | nil => intro root root' h; cases root <;> cases h
  | cons n rest ih =>
    intro root root' h
    match root with
    | .file mf cf => cases h
    | .dir m cs =>
      cases rest with
      | nil =>
        simp only [copyTo] at h
        split at h
        next md kds hl => cases h
        next mf2 cf2 hl =>
          cases h
          show findInList (replaceChild cs n (.file mt c)) n [] = some (.file mt c)
          rw [findInList_replaceChild_self cs n _ []
            (findInList_some_mem_names cs n [] _ hl)]
          rfl
        next hl =>
          cases h
          show findInList (cs ++ [(n, .file mt c)]) n [] = some (.file mt c)
          rw [findInList_append]
          have hnm : n ∉ cs.map Prod.fst := by
            intro hmem
            rcases mem_names_findInList_some cs n hmem with ⟨e2, he2⟩
            rw [hl] at he2
            cases he2
          rw [if_neg hnm]
          show (if n = n then findEntry (.file mt c) []
            else findInList [] n []) = some (.file mt c)
          rw [if_pos rfl]
          rfl
      | cons n2 rest2 =>
        simp only [copyTo] at h
        split at h
        next child hl =>
          split at h
          next child' hcp =>
            cases h
            show findInList (replaceChild cs n child') n (n2 :: rest2) = some (.file mt c)
            rw [findInList_replaceChild_self cs n child' (n2 :: rest2)
              (findInList_some_mem_names cs n [] child hl)]
            exact ih child child' hcp
          next e hcp => cases h
        next hl => cases h

theorem copyTo_frame_file (mt : Int) (c : String) : ∀ (p : RelPath) (root root' : Entry),
    copyTo root p mt c = .ok root' →
    ∀ q m2 c2, q ≠ p → findEntry root q = some (.file m2 c2) →
      findEntry root' q = some (.file m2 c2) := by
  intro p
  induction p with
  | nil => intro root root' h; cases root <;> cases h
  | cons n rest ih =>
    intro root root' h q m2 c2 hne hq
    match root with
    | .file mf cf => cases h
    | .dir m cs =>
      cases q with
      | nil => rw [findEntry_nil] at hq; cases hq
      | cons y q2 =>
        have hq2 : findInList cs y q2 = some (.file m2 c2) := hq
        cases rest with
        | nil =>
          simp only [copyTo] at h
          split at h
          next md kds hl => cases h
          next mf2 cf2 hl =>
            cases h
            show findInList (replaceChild cs n (.file mt c)) y q2 = some (.file m2 c2)
            by_cases hy : y = n
            · subst hy
              rw [findInList_some_findEntry cs y _ q2 hl] at hq2
              cases q2 with
              | nil => exact absurd rfl hne
              | cons z q3 => cases hq2
            · rw [findInList_replaceChild_ne cs n _ y q2 hy]
              exact hq2
          next hl =>
            cases h
            show findInList (cs ++ [(n, .file mt c)]) y q2 = some (.file m2 c2)
            rw [findInList_append, if_pos (findInList_some_mem_names cs y q2 _ hq2)]
            exact hq2
        | cons n2 rest2 =>
          simp only [copyTo] at h
          split at h
          next child hl =>
            split at h
            next child' hcp =>
              cases h
              show findInList (replaceChild cs n child') y q2 = some (.file m2 c2)
              by_cases hy : y = n
              · subst hy
                rw [findInList_replaceChild_self cs y child' q2
                  (findInList_some_mem_names cs y [] child hl)]
                rw [findInList_some_findEntry cs y child q2 hl] at hq2
                exact ih child child' hcp q2 m2 c2 (fun hc => hne (by rw [hc])) hq2
              · rw [findInList_replaceChild_ne cs n child' y q2 hy]
                exact hq2
            next e hcp => cases h
          next hl => cases h

theorem copyTo_add (mt : Int) (c : String) : ∀ (p : RelPath) (root root' : Entry),
    copyTo root p mt c = .ok root' →
    ∀ q, findEntry root' q ≠ none → findEntry root q ≠ none ∨ q = p := by
  intro p
  induction p with
  | nil => intro root root' h; cases root <;> cases h
  | cons n rest ih =>
    intro root root' h q hq
    match root with
    | .file mf cf => cases h
    | .dir m cs =>
      cases q with
      | nil => exact Or.inl (by rw [findEntry_nil]; intro hc; cases hc)
      | cons y q2 =>
        cases rest with
        | nil =>
          simp only [copyTo] at h
          split at h
          next md kds hl => cases h
          next mf2 cf2 hl =>
            cases h
            have hq2 : findInList (replaceChild cs n (.file mt c)) y q2 ≠ none := hq
            by_cases hy : y = n
            · subst hy
              rw [findInList_replaceChild_self cs y _ q2
                (findInList_some_mem_names cs y [] _ hl)] at hq2
              cases q2 with
              | nil => exact Or.inr rfl
              | cons z q3 => exact absurd rfl hq2
            · left
              rw [findInList_replaceChild_ne cs n _ y q2 hy] at hq2
              exact hq2
          next hl =>
            cases h
            have hq2 : findInList (cs ++ [(n, .file mt c)]) y q2 ≠ none := hq
            rw [findInList_append] at hq2
            by_cases hy : y ∈ cs.map Prod.fst
            · rw [if_pos hy] at hq2
              exact Or.inl hq2
            · rw [if_neg hy] at hq2
              by_cases hyn : n = y
              · subst hyn
                cases q2 with
                | nil => exact Or.inr rfl
                | cons z q3 =>
                  exfalso
                  apply hq2
                  show (if n = n then findEntry (.file mt c) (z :: q3)
                    else findInList [] n (z :: q3)) = none
                  rw [if_pos rfl]
                  rfl
              · exfalso
                apply hq2
                show (if n = y then findEntry (.file mt c) q2
                  else findInList [] y q2) = none
                rw [if_neg hyn]
                rfl
        | cons n2 rest2 =>
          simp only [copyTo] at h
          split at h
          next child hl =>
            split at h
            next child' hcp =>
              cases h
              have hq2 : findInList (replaceChild cs n child') y q2 ≠ none := hq
              by_cases hy : y = n
              · subst hy
                rw [findInList_replaceChild_self cs y child' q2
                  (findInList_some_mem_names cs y [] child hl)] at hq2
                rcases ih child child' hcp q2 hq2 with h2 | rfl
                · left
                  show findInList cs y q2 ≠ none
                  rw [findInList_some_findEntry cs y child q2 hl]
                  exact h2
                · exact Or.inr rfl
              · left
                rw [findInList_replaceChild_ne cs n child' y q2 hy] at hq2
                exact hq2
            next e hcp => cases h
          next hl => cases h

theorem copyTo_wf (mt : Int) (c : String) : ∀ (p : RelPath) (root root' : Entry),
    copyTo root p mt c = .ok root' → wfbEntry root = true → wfbEntry root' = true := by
  intro p
  induction p with
  | nil => intro root root' h; cases root <;> cases h
  | cons n rest ih =>
    intro root root' h hwf
    match root with
    | .file mf cf => cases h
    | .dir m cs =>
      have hw : (cs.map Prod.fst).Nodup ∧ wfbTree cs = true := by
        simpa [wfbEntry] using hwf
      cases rest with
      | nil =>
        simp only [copyTo] at h
        split at h
        next md kds hl => cases h
        next mf2 cf2 hl =>
          cases h
          simp only [wfbEntry]
          rw [Bool.and_eq_true]
          refine ⟨?_, wfbTree_replaceChild cs n (.file mt c) hw.2 rfl⟩
          simp only [decide_eq_true_eq]
          rw [replaceChild_names]
          exact hw.1
        next hl =>
          cases h
          have hnm : n ∉ cs.map Prod.fst := by
            intro hmem
            rcases mem_names_findInList_some cs n hmem with ⟨e2, he2⟩
            rw [hl] at he2
            cases he2
          simp only [wfbEntry]
          rw [Bool.and_eq_true]
          constructor
          · simp only [decide_eq_true_eq, List.map_append, List.map_cons, List.map_nil]
            rw [List.nodup_append]
            refine ⟨hw.1, List.nodup_singleton n, ?_⟩
            intro a ha hb
            rw [List.mem_singleton] at hb
            subst hb
            exact hnm ha
          · rw [wfbTree_append]
            simp [hw.2, wfbTree, wfbEntry]
      | cons n2 rest2 =>
        simp only [copyTo] at h
        split at h
        next child hl =>
          split at h
          next child' hcp =>
            cases h
            simp only [wfbEntry]
            rw [Bool.and_eq_true]
            constructor
            · simp only [decide_eq_true_eq]
              rw [replaceChild_names]
              exact hw.1
            · exact wfbTree_replaceChild cs n child' hw.2
                (ih child child' hcp (wfbTree_find cs n child hw.2 hl))
          next e hcp => cases h
        next hl => cases h

theorem syncedTree_cons (sd kd kf : List RelPath) (sm0 : SrcMap) (P : RelPath)
    (x : String × Entry) (l : Tree) :
    syncedTree sd kd kf sm0 P (x :: l) =
      (syncedEntry sd kd kf sm0 P x.1 x.2 && syncedTree sd kd kf sm0 P l) := by
  rcases x with ⟨n, e⟩
  rfl

theorem syncedTree_append_eq (sd kd kf : List RelPath) (sm0 : SrcMap) (P : RelPath)
    (a b : Tree) : syncedTree sd kd kf sm0 P (a ++ b) =
      (syncedTree sd kd kf sm0 P a && syncedTree sd kd kf sm0 P b) := by
  induction a with
  | nil => simp [syncedTree]
  | cons hd tl ih =>
    rcases hd with ⟨n, e⟩
    simp [syncedTree, ih, Bool.and_assoc]

theorem syncedTree_find (sd kd kf : List RelPath) (sm0 : SrcMap) (P : RelPath)
    (cs : Tree) (n : String) (child : Entry)
    (hsync : syncedTree sd kd kf sm0 P cs = true)
    (hl : findInList cs n [] = some child) :
    syncedEntry sd kd kf sm0 P n child = true := by
  induction cs with
  | nil => cases hl
  | cons hd tl ih =>
    rcases hd with ⟨a, w⟩
    have hs : syncedEntry sd kd kf sm0 P a w = true ∧
        syncedTree sd kd kf sm0 P tl = true := by
      simpa [syncedTree] using hsync
    have hl2 : (if a = n then findEntry w [] else findInList tl n []) = some child := hl
    by_cases ha : a = n
    · rw [if_pos ha, findEntry_nil] at hl2
      cases hl2
      subst ha
      exact hs.1
    · rw [if_neg ha] at hl2
      exact ih hs.2 hl2

theorem syncedTree_replaceChild (sd kd kf : List RelPath) (sm0 : SrcMap) (P : RelPath)
    (cs : Tree) (n : String) (e' : Entry)
    (hsync : syncedTree sd kd kf sm0 P cs = true)
    (he : syncedEntry sd kd kf sm0 P n e' = true) :
    syncedTree sd kd kf sm0 P (replaceChild cs n e') = true := by
  induction cs with
  | nil => rfl
  | cons hd tl ih =>
    rcases hd with ⟨a, w⟩
    have hs : syncedEntry sd kd kf sm0 P a w = true ∧
        syncedTree sd kd kf sm0 P tl = true := by
      simpa [syncedTree] using hsync
    show syncedTree sd kd kf sm0 P
      ((if a = n then (n, e') else (a, w)) :: replaceChild tl n e') = true
    by_cases ha : a = n
    · rw [if_pos ha]
      show (syncedEntry sd kd kf sm0 P n e' &&
        syncedTree sd kd kf sm0 P (replaceChild tl n e')) = true
      simp [he, ih hs.2]
    · rw [if_neg ha]
      show (syncedEntry sd kd kf sm0 P a w &&
        syncedTree sd kd kf sm0 P (replaceChild tl n e')) = true
      simp [hs.1, ih hs.2]

theorem mkChain_synced (sd kd kf : List RelPath) (sm0 : SrcMap) :
    ∀ (rest : List String) (P : RelPath) (n : String),
    (∀ k, k ≤ rest.length → P ++ n :: rest.take k ∈ sd ∨ P ++ n :: rest.take k ∈ kd) →
    syncedEntry sd kd kf sm0 P n (mkChain n rest).2 = true := by
  intro rest
  induction rest with
  | nil =>
    intro P n h
    show (decide (P ++ [n] ∈ sd ∨ P ++ [n] ∈ kd) &&
      syncedTree sd kd kf sm0 (P ++ [n]) []) = true
    have h0 := h 0 (by simp)
    simp only [List.take_nil] at h0
    simp [h0, syncedTree]
  | cons n2 rest2 ih =>
    intro P n h
    show (decide (P ++ [n] ∈ sd ∨ P ++ [n] ∈ kd) &&
      syncedTree sd kd kf sm0 (P ++ [n]) [mkChain n2 rest2]) = true
    have h0 := h 0 (by simp)
    simp only [List.take_zero] at h0
    have h1 : syncedEntry sd kd kf sm0 (P ++ [n]) n2 (mkChain n2 rest2).2 = true := by
      apply ih (P ++ [n]) n2
      intro k hk
      simpa [List.take_succ_cons, List.append_assoc] using
        h (k + 1) (by simpa using hk)
    rw [syncedTree_cons, mkChain_name]
    simp [h0, h1, syncedTree]

theorem makedirs_synced (sd kd kf : List RelPath) (sm0 : SrcMap) :
    ∀ (d : RelPath) (P : RelPath) (m : Int) (cs : Tree) (root' : Entry),
    makedirs (.dir m cs) d = .ok root' →
    (∀ k, 0 < k → k ≤ d.length → P ++ d.take k ∈ sd ∨ P ++ d.take k ∈ kd) →
    syncedTree sd kd kf sm0 P cs = true →
    ∃ cs', root' = .dir m cs' ∧ syncedTree sd kd kf sm0 P cs' = true := by
  intro d
  induction d with
  | nil => intro P m cs root' h; cases h
  | cons n rest ih =>
    intro P m cs root' h hkeep hsync
    simp only [makedirs] at h
    split at h
    next child hl =>
      split at h
      next child' hmk =>
        cases h
        cases child with
        | file mf cf =>
          cases rest with
          | nil => cases hmk
          | cons a b => cases hmk
        | dir mc csc =>
          have hce : syncedEntry sd kd kf sm0 P n (.dir mc csc) = true :=
            syncedTree_find sd kd kf sm0 P cs n _ hsync hl
          have hsplit : (P ++ [n] ∈ sd ∨ P ++ [n] ∈ kd) ∧
              syncedTree sd kd kf sm0 (P ++ [n]) csc = true := by
            simpa [syncedEntry] using hce
          rcases ih (P ++ [n]) mc csc child' hmk (fun k hk hk2 => by
            simpa [List.take_succ_cons, List.append_assoc] using
              hkeep (k + 1) (by omega) (by simpa using hk2)) hsplit.2
            with ⟨cs2, rfl, hcs2⟩
          refine ⟨replaceChild cs n (.dir mc cs2), rfl, ?_⟩
          apply syncedTree_replaceChild sd kd kf sm0 P cs n _ hsync
          show (decide (P ++ [n] ∈ sd ∨ P ++ [n] ∈ kd) &&
            syncedTree sd kd kf sm0 (P ++ [n]) cs2) = true
          simp [hsplit.1, hcs2]
      next e hmk => cases h
    next hl =>
      cases h
      refine ⟨cs ++ [mkChain n rest], rfl, ?_⟩
      rw [syncedTree_append_eq, Bool.and_eq_true]
      refine ⟨hsync, ?_⟩
      rw [syncedTree_cons, mkChain_name]
      have hck := mkChain_synced sd kd kf sm0 rest P n (fun k hk => by
        simpa [List.take_succ_cons] using hkeep (k + 1) (by omega) (by simpa using hk))
      simp [hck, syncedTree]

theorem copyTo_synced (sd kd kf : List RelPath) (sm0 : SrcMap) (mt : Int) (c : String) :
    ∀ (p : RelPath) (P : RelPath) (m : Int) (cs : Tree) (root' : Entry),
    copyTo (.dir m cs) p mt c = .ok root' →
    (match smLookup sm0 (P ++ p) with
     | some v => v ≤ mt
     | none => P ++ p ∈ kf) →
    syncedTree sd kd kf sm0 P cs = true →
    ∃ cs', root' = .dir m cs' ∧ syncedTree sd kd kf sm0 P cs' = true := by
  intro p
  induction p with
  | nil => intro P m cs root' h; cases h
  | cons n rest ih =>
    intro P m cs root' h hkey hsync
    cases rest with
    | nil =>
      have hfile : syncedEntry sd kd kf sm0 P n (.file mt c) = true := by
        simp only [syncedEntry]
        split at hkey
        next v heq => rw [heq]; simp [hkey]
        next heq => rw [heq]; simp [hkey]
      simp only [copyTo] at h
      split at h
      next a b hl => cases h
      next a b hl =>
        cases h
        refine ⟨_, rfl, ?_⟩
        exact syncedTree_replaceChild sd kd kf sm0 P cs n _ hsync hfile
      next hl =>
        cases h
        refine ⟨_, rfl, ?_⟩
        rw [syncedTree_append_eq, Bool.and_eq_true]
        refine ⟨hsync, ?_⟩
        rw [syncedTree_cons]
        simp [hfile, syncedTree]
    | cons n2 rest2 =>
      simp only [copyTo] at h
      split at h
      next child hl =>
        split at h
        next child' hcp =>
          cases h
          cases child with
          | file mf cf => cases hcp
          | dir mc csc =>
            have hce : syncedEntry sd kd kf sm0 P n (.dir mc csc) = true :=
              syncedTree_find sd kd kf sm0 P cs n _ hsync hl
            have hsplit : (P ++ [n] ∈ sd ∨ P ++ [n] ∈ kd) ∧
                syncedTree sd kd kf sm0 (P ++ [n]) csc = true := by
              simpa [syncedEntry] using hce
            rcases ih (P ++ [n]) mc csc child' hcp (by
              have hPe : P ++ n :: n2 :: rest2 = (P ++ [n]) ++ n2 :: rest2 := by simp
              rw [hPe] at hkey
              exact hkey) hsplit.2 with ⟨cs2, rfl, hcs2⟩
            refine ⟨_, rfl, ?_⟩
            apply syncedTree_replaceChild sd kd kf sm0 P cs n _ hsync
            show (decide (P ++ [n] ∈ sd ∨ P ++ [n] ∈ kd) &&
              syncedTree sd kd kf sm0 (P ++ [n]) cs2) = true
            simp [hsplit.1, hcs2]
        next e hcp => cases h
      next hl => cases h

theorem copyFromSrc_ok (src : Entry) (p : RelPath) (mt : Int) (c : String)
    (h : copyFromSrc src p = .ok (mt, c)) : findEntry src p = some (.file mt c) := by
  simp only [copyFromSrc] at h
  split at h
  next a b heq => cases h; exact heq
  next a b heq => cases h
  next heq => cases h

theorem completeOne_eq (src dest : Entry) (p : RelPath) (out : Entry × List Op)
    (h : completeOne src dest p = .ok out) :
    ∃ d' l0 mt c,
      ((makedirs dest p.dropLast = .ok d' ∧ l0 = [Op.mkdir p.dropLast]) ∨
       (makedirs dest p.dropLast = .error .eexist ∧ d' = dest ∧
         l0 = [Op.mkdirExistsTolerated p.dropLast])) ∧
      copyFromSrc src p = .ok (mt, c) ∧
      copyTo d' p mt c = .ok out.1 ∧
      out.2 = l0 ++ [Op.copy p] := by
  simp only [completeOne] at h
  split at h
  next e heq => cases h
  next d' l0 heq =>
    split at h
    next e hcf => cases h
    next mt c hcf =>
      split at h
      next e hct => cases h
      next d2 hct =>
        cases h
        refine ⟨d', l0, mt, c, ?_, hcf, hct, rfl⟩
        split at heq
        next d3 hmk => cases heq; exact Or.inl ⟨hmk, rfl⟩
        next hmk => cases heq; exact Or.inr ⟨hmk, rfl, rfl⟩
        next e hmk hne => cases heq

theorem completeOne_spec (src dest : Entry) (p : RelPath) (d2 : Entry) (L : List Op)
    (h : completeOne src dest p = .ok (d2, L)) :
    (∃ a b, findEntry src p = some (.file a b) ∧ findEntry d2 p = some (.file a b)) ∧
    (∀ q m2 c2, q ≠ p → findEntry dest q = some (.file m2 c2) →
      findEntry d2 q = some (.file m2 c2)) ∧
    (∀ q, findEntry d2 q ≠ none → findEntry dest q ≠ none ∨ q = p ∨
      ∃ k, 0 < k ∧ k ≤ p.dropLast.length ∧ q = p.dropLast.take k) ∧
    (wfbEntry dest = true → wfbEntry d2 = true) ∧
    (∀ op ∈ L, op = Op.copy p ∨ op = Op.mkdir p.dropLast ∨
      op = Op.mkdirExistsTolerated p.dropLast) := by
  obtain ⟨d', l0, mt, c, hmk, hcf, hct, hL⟩ := completeOne_eq src dest p (d2, L) h
  have hsrc := copyFromSrc_ok src p mt c hcf
  have hres := copyTo_result mt c p d' d2 hct
  refine ⟨⟨mt, c, hsrc, hres⟩, ?_, ?_, ?_, ?_⟩
  · intro q m2 c2 hne hq
    rcases hmk with ⟨hmk, _⟩ | ⟨hmk, rfl, _⟩
    · exact copyTo_frame_file mt c p d' d2 hct q m2 c2 hne
        (makedirs_frame_file p.dropLast dest d' hmk q m2 c2 hq)
    · exact copyTo_frame_file mt c p d' d2 hct q m2 c2 hne hq
  · intro q hq
    rcases copyTo_add mt c p d' d2 hct q hq with h2 | rfl
    · rcases hmk with ⟨hmk, _⟩ | ⟨hmk, rfl, _⟩
      · rcases makedirs_add p.dropLast dest d' hmk q h2 with h3 | h3
        · exact Or.inl h3
        · exact Or.inr (Or.inr h3)
      · exact Or.inl h2
    · exact Or.inr (Or.inl rfl)
  · intro hwf
    rcases hmk with ⟨hmk, _⟩ | ⟨hmk, rfl, _⟩
    · exact copyTo_wf mt c p d' d2 hct (makedirs_wf p.dropLast dest d' hmk hwf)
    · exact copyTo_wf mt c p d' d2 hct hwf
  · intro op hop
    rcases hmk with ⟨hmk, rfl⟩ | ⟨hmk, hde, rfl⟩
    · have hL2 : L = [Op.mkdir p.dropLast] ++ [Op.copy p] := hL
      rw [hL2] at hop
      simp only [List.mem_append, List.mem_singleton] at hop
      rcases hop with rfl | rfl
      · exact Or.inr (Or.inl rfl)
      · exact Or.inl rfl
    · have hL2 : L = [Op.mkdirExistsTolerated p.dropLast] ++ [Op.copy p] := hL
      rw [hL2] at hop
      simp only [List.mem_append, List.mem_singleton] at hop
      rcases hop with rfl | rfl
      · exact Or.inr (Or.inr rfl)
      · exact Or.inl rfl

theorem completeFiles_spec (src : Entry) : ∀ (sf : SrcMap) (dest : Entry)
    (acc : List Op) (out : Entry × List Op),
    completeFiles src dest sf acc = .ok out →
    (∀ q m2 c2, findEntry dest q = some (.file m2 c2) → q ∉ smKeys sf →
       findEntry out.1 q = some (.file m2 c2)) ∧
    ((smKeys sf).Nodup → ∀ p v, (p, v) ∈ sf →
       ∃ a b, findEntry src p = some (.file a b) ∧
         findEntry out.1 p = some (.file a b)) ∧
    (∀ q, findEntry out.1 q ≠ none → findEntry dest q ≠ none ∨
       ∃ p₂, p₂ ∈ smKeys sf ∧ (q = p₂ ∨
         ∃ k, 0 < k ∧ k ≤ p₂.dropLast.length ∧ q = p₂.dropLast.take k)) ∧
    (wfbEntry dest = true → wfbEntry out.1 = true) ∧
    (∀ op ∈ out.2, op ∈ acc ∨ ∃ p₂, p₂ ∈ smKeys sf ∧
       (op = Op.copy p₂ ∨ op = Op.mkdir p₂.dropLast ∨
         op = Op.mkdirExistsTolerated p₂.dropLast)) := by
  intro sf
  induction sf with
  | nil =>
    intro dest acc out h
    cases h
    refine ⟨fun q m2 c2 hq _ => hq, fun _ p v hmem => absurd hmem (by simp),
      fun q hq => Or.inl hq, fun hwf => hwf, fun op hop => Or.inl hop⟩
  | cons hd rest ih =>
    rcases hd with ⟨p, v⟩
    intro dest acc out h
    have hh : (match completeOne src dest p with
      | .ok (dest', l) => completeFiles src dest' rest (acc ++ l)
      | .error e => .error e) = .ok out := h
    split at hh
    next dest' l hco =>
      obtain ⟨hown, hfr1, hadd1, hwf1, hlog1⟩ := completeOne_spec src dest p dest' l hco
      obtain ⟨FR, CV, AD, WF, LG⟩ := ih dest' (acc ++ l) out hh
      have hkeys : smKeys ((p, v) :: rest) = p :: smKeys rest := rfl
      refine ⟨?_, ?_, ?_, ?_, ?_⟩
      · intro q m2 c2 hq hnq
        rw [hkeys, List.mem_cons] at hnq
        push_neg at hnq
        exact FR q m2 c2 (hfr1 q m2 c2 hnq.1 hq) hnq.2
      · intro hnd p2 v2 hmem
        rw [hkeys] at hnd
        rw [List.mem_cons] at hmem
        rcases hmem with heq | hmem
        · cases heq
          rcases hown with ⟨a, b, hsa, hda⟩
          exact ⟨a, b, hsa, FR p a b hda (List.nodup_cons.mp hnd).1⟩
        · exact CV (List.nodup_cons.mp hnd).2 p2 v2 hmem
      · intro q hq
        rcases AD q hq with h2 | ⟨p2, hp2, hc⟩
        · rcases hadd1 q h2 with h3 | h3 | h3
          · exact Or.inl h3
          · exact Or.inr ⟨p, by rw [hkeys]; exact List.mem_cons_self p _, Or.inl h3⟩
          · exact Or.inr ⟨p, by rw [hkeys]; exact List.mem_cons_self p _, Or.inr h3⟩
        · exact Or.inr ⟨p2, by rw [hkeys]; exact List.mem_cons_of_mem p hp2, hc⟩
      · intro hwf
        exact WF (hwf1 hwf)
      · intro op hop
        rcases LG op hop with h2 | ⟨p2, hp2, hc⟩
        · rw [List.mem_append] at h2
          rcases h2 with h2 | h2
          · exact Or.inl h2
          · exact Or.inr ⟨p, by rw [hkeys]; exact List.mem_cons_self p _, hlog1 op h2⟩
        · exact Or.inr ⟨p2, by rw [hkeys]; exact List.mem_cons_of_mem p hp2, hc⟩
    next e hco => cases hh

/-! ## Lemmas: decomposing a successful `syncFiles` run -/

theorem syncFiles_run (src : Entry) (dm : Int) (cs : Tree)
    (files keep : Option (List RelPath)) (d1 : Entry) (L : List Op)
    (h : syncFiles src (.dir dm cs) files keep = .ok (d1, L)) :
    ∃ sd sm cs' sf l₁ l₂,
      discover src files = .ok (sd, sm) ∧
      walkTree src sd (keepSets keep).1 (keepSets keep).2 [] sm cs = .ok (cs', sf, l₁) ∧
      completeFiles src (.dir dm cs') sf [] = .ok (d1, l₂) ∧
      L = l₁ ++ l₂ := by
  simp only [syncFiles] at h
  split at h
  next e hdisc => cases h
  next sd sm hdisc =>
    split at h
    next e hmid => cases h
    next dest₁ sf l₁ hmid =>
      split at h
      next d2 l₂ hcomp =>
        cases h
        split at hmid
        next cs' sf2 l hw =>
          cases hmid
          exact ⟨sd, sm, cs', sf, l₁, l₂, hdisc, hw, hcomp, rfl⟩
        next e hw => cases hmid
      next e hcomp => cases h

theorem syncFiles_discover_error (src dest : Entry) (files keep : Option (List RelPath))
    (e : SyncErr) (hdisc : discover src files = .error e) :
    syncFiles src dest files keep = .error e := by
  simp only [syncFiles, hdisc]

/-! ## Lemmas: invariants of the discovery phase -/

theorem discover_props (src : Entry) (files : Option (List RelPath))
    (sd : List RelPath) (sm : SrcMap)
    (hwf : wfbEntry src = true) (h : discover src files = .ok (sd, sm)) :
    (∀ p mt, smLookup sm p = some mt → getmtime src p = some mt) ∧
    (∀ p, p ∈ smKeys sm → ∀ r ∈ dirChain p, r ∈ sd) ∧
    (smKeys sm).Nodup := by
  cases files with
  | some fl =>
    have h2 : discoverFiles src fl [] [] = .ok (sd, sm) := h
    refine ⟨discoverFiles_d2 src fl [] [] sd sm h2 (fun p mt hp => by cases hp),
      discoverFiles_chains src fl [] [] sd sm h2 (fun p hp => by cases hp),
      discoverFiles_nodup src fl [] [] sd sm h2 (by simp [smKeys])⟩
  | none =>
    cases src with
    | file m c =>
      have h2 : (Except.ok (([], []) : List RelPath × SrcMap) :
          Except SyncErr (List RelPath × SrcMap)) = .ok (sd, sm) := h
      cases h2
      refine ⟨?_, ?_, ?_⟩
      · intro p mt hp
        cases hp
      · intro p hp
        simp [smKeys] at hp
      · simp [smKeys]
    | dir m cs =>
      have hw : (cs.map Prod.fst).Nodup ∧ wfbTree cs = true := by
        simpa [wfbEntry] using hwf
      have h2 : (Except.ok (discoverWalkTree [] cs [] []) :
          Except SyncErr (List RelPath × SrcMap)) = .ok (sd, sm) := h
      have hd : discoverWalkTree [] cs [] [] = (sd, sm) := by
        injection h2
      have hP := discoverWalkTree_props (.dir m cs) [] cs [] [] sd sm hd
        (fun nc hnc => by
          rcases nc with ⟨n2, e2⟩
          show findInList cs n2 [] = some e2
          exact findInList_of_mem_nodup cs n2 e2 hw.1 hnc)
        hw.2 (fun r hr => by cases hr) (fun hc => absurd rfl hc)
      refine ⟨?_, ?_, ?_⟩
      · exact hP.2.1 (fun p mt hp => by cases hp)
      · exact hP.2.2.1 (fun p hp => by simp [smKeys] at hp)
      · exact hP.2.2.2 (by simp [smKeys])

/-! ## Lemmas: every reached file position with a key is handled -/

mutual
theorem handledEntry_mem (sd kd : List RelPath) (sm0 : SrcMap)
    (P : RelPath) (n : String) (e : Entry) (q : RelPath) (m : Int) (c : String)
    (hfind : findEntry e q = some (.file m c))
    (hkey : (smLookup sm0 (P ++ n :: q)).isSome = true)
    (hreach : ∀ r ∈ dirChain (n :: q), P ++ r ∈ sd ∨ P ++ r ∈ kd) :
    P ++ n :: q ∈ handledEntry sd kd sm0 P n e := by
  match e with
  | .file m1 c1 =>
    match q with
    | [] =>
      simp only [handledEntry]
      rw [if_pos hkey]
      simp
    | x :: q2 => simp [findEntry] at hfind
  | .dir m1 kids =>
    match q with
    | [] => rw [findEntry_nil] at hfind; cases hfind
    | x :: q2 =>
      have hkept : P ++ [n] ∈ sd ∨ P ++ [n] ∈ kd :=
        hreach [n] (single_mem_dirChain n (x :: q2) (by simp))
      have hreach2 : ∀ r ∈ dirChain (x :: q2),
          (P ++ [n]) ++ r ∈ sd ∨ (P ++ [n]) ++ r ∈ kd := by
        intro r hr
        have := hreach (n :: r) (cons_mem_dirChain n r (x :: q2) hr)
        simpa [List.append_assoc] using this
      have hfind2 : findT kids (x :: q2) = some (.file m c) := hfind
      have IH := handledTree_mem sd kd sm0 (P ++ [n]) kids (x :: q2) m c hfind2
        (by simpa [List.append_assoc] using hkey) hreach2
      simp only [handledEntry, if_pos hkept]
      simpa [List.append_assoc] using IH

theorem handledTree_mem (sd kd : List RelPath) (sm0 : SrcMap)
    (P : RelPath) (cs : Tree) (q : RelPath) (m : Int) (c : String)
    (hfind : findT cs q = some (.file m c))
    (hkey : (smLookup sm0 (P ++ q)).isSome = true)
    (hreach : ∀ r ∈ dirChain q, P ++ r ∈ sd ∨ P ++ r ∈ kd) :
    P ++ q ∈ handledTree sd kd sm0 P cs := by
  match cs with
  | [] =>
    match q with
    | [] => simp [findT] at hfind
    | x :: q2 => simp [findT, findInList] at hfind
  | (n, e) :: rest =>
    match q with
    | [] => simp [findT] at hfind
    | x :: q2 =>
      simp only [handledTree, List.mem_append]
      by_cases hx : n = x
      · subst hx
        have hfind2 : findEntry e q2 = some (.file m c) := by
          simpa [findT, findInList] using hfind
        exact Or.inl (handledEntry_mem sd kd sm0 P n e q2 m c hfind2 hkey hreach)
      · have hfind2 : findT rest (x :: q2) = some (.file m c) := by
          simpa [findT, findInList, hx] using hfind
        exact Or.inr (handledTree_mem sd kd sm0 P rest (x :: q2) m c hfind2
          hkey hreach)
end

/-! ## Lemmas: a pruned directory position vanishes from the spec tree -/

mutual
theorem specEntry_dir_gone (src : Entry) (sd kd kf : List RelPath) (sm0 : SrcMap)
    (P : RelPath) (n : String) (e : Entry) (q : RelPath) (md : Int) (kids : Tree)
    (hwf : wfbEntry e = true)
    (hfind : findEntry e q = some (.dir md kids))
    (hq : ¬(P ++ n :: q ∈ sd ∨ P ++ n :: q ∈ kd)) :
    optionFind (specEntry src sd kd kf sm0 P n e) q = none := by
  match e with
  | .file m1 c1 =>
    match q with
    | [] => rw [findEntry_nil] at hfind; cases hfind
    | x :: q2 => simp [findEntry] at hfind
  | .dir m1 kids1 =>
    match q with
    | [] =>
      simp only [specEntry]
      rw [if_neg (by simpa using hq)]
      rfl
    | x :: q2 =>
      have hwf2 : (kids1.map Prod.fst).Nodup ∧ wfbTree kids1 = true := by
        simpa [wfbEntry] using hwf
      by_cases hkept : P ++ [n] ∈ sd ∨ P ++ [n] ∈ kd
      · have hfind2 : findT kids1 (x :: q2) = some (.dir md kids) := hfind
        have IH := specTree_dir_gone src sd kd kf sm0 (P ++ [n]) kids1 (x :: q2)
          md kids hwf2.1 hwf2.2 hfind2 (by simpa [List.append_assoc] using hq)
        simp only [specEntry, if_pos hkept]
        exact IH
      · simp only [specEntry, if_neg hkept]
        rfl

theorem specTree_dir_gone (src : Entry) (sd kd kf : List RelPath) (sm0 : SrcMap)
    (P : RelPath) (cs : Tree) (q : RelPath) (md : Int) (kids : Tree)
    (hnd : (cs.map Prod.fst).Nodup) (hwf : wfbTree cs = true)
    (hfind : findT cs q = some (.dir md kids))
    (hq : ¬(P ++ q ∈ sd ∨ P ++ q ∈ kd)) :
    findT (specTree src sd kd kf sm0 P cs) q = none := by
  match cs with
  | [] =>
    match q with
    | [] => simp [findT] at hfind
    | x :: q2 => simp [findT, findInList] at hfind
  | (n, e) :: rest =>
    match q with
    | [] => simp [findT] at hfind
    | x :: q2 =>
      have hwfe : wfbEntry e = true ∧ wfbTree rest = true := by
        simpa [wfbTree] using hwf
      have hnd2 : n ∉ rest.map Prod.fst ∧ (rest.map Prod.fst).Nodup := by
        simpa using hnd
      by_cases hx : n = x
      · subst hx
        have hfind2 : findEntry e q2 = some (.dir md kids) := by
          simpa [findT, findInList] using hfind
        have IH := specEntry_dir_gone src sd kd kf sm0 P n e q2 md kids
          hwfe.1 hfind2 hq
        simp only [specTree, findT]
        cases hv : specEntry src sd kd kf sm0 P n e with
        | some y =>
          have hy : y.1 = n := specEntry_name src sd kd kf sm0 P n e y (by simp [hv])
          rcases y with ⟨n1, e1⟩
          simp only at hy
          subst hy
          rw [hv] at IH
          simp only [Option.toList_some, List.cons_append, findInList, if_pos rfl]
          exact IH
        | none =>
          simp only [Option.toList_none, List.nil_append, hv]
          rw [findInList_none_of_not_mem _ _ _
            (fun hmem => hnd2.1 (specTree_names_sub src sd kd kf sm0 P rest n hmem))]
      · have hfind2 : findT rest (x :: q2) = some (.dir md kids) := by
          simpa [findT, findInList, hx] using hfind
        have IH := specTree_dir_gone src sd kd kf sm0 P rest (x :: q2) md kids
          hnd2.2 hwfe.2 hfind2 hq
        simp only [specTree, findT]
        rw [findInList_append]
        split
        next hmem =>
          exfalso
          rcases List.mem_map.mp hmem with ⟨y, hy, hyx⟩
          have := specEntry_name src sd kd kf sm0 P n e y hy
          exact hx (by rw [← this, hyx])
        next _ => exact IH
end

/-! ## Lemmas: a keyless non-keep file position vanishes from the spec tree -/

mutual
theorem specEntry_file_gone (src : Entry) (sd kd kf : List RelPath) (sm0 : SrcMap)
    (P : RelPath) (n : String) (e : Entry) (q : RelPath) (m : Int) (c : String)
    (hwf : wfbEntry e = true)
    (hfind : findEntry e q = some (.file m c))
    (hkey : smLookup sm0 (P ++ n :: q) = none) (hnkf : P ++ n :: q ∉ kf) :
    optionFind (specEntry src sd kd kf sm0 P n e) q = none := by
  match e with
  | .file m1 c1 =>
    match q with
    | [] =>
      simp only [specEntry, specFileResult, hkey]
      rw [if_neg hnkf]
      rfl
    | x :: q2 => simp [findEntry] at hfind
  | .dir m1 kids1 =>
    match q with
    | [] => rw [findEntry_nil] at hfind; cases hfind
    | x :: q2 =>
      have hwf2 : (kids1.map Prod.fst).Nodup ∧ wfbTree kids1 = true := by
        simpa [wfbEntry] using hwf
      by_cases hkept : P ++ [n] ∈ sd ∨ P ++ [n] ∈ kd
      · have hfind2 : findT kids1 (x :: q2) = some (.file m c) := hfind
        have IH := specTree_file_gone src sd kd kf sm0 (P ++ [n]) kids1 (x :: q2)
          m c hwf2.1 hwf2.2 hfind2 (by simpa [List.append_assoc] using hkey)
          (by simpa [List.append_assoc] using hnkf)
        simp only [specEntry, if_pos hkept]
        exact IH
      · simp only [specEntry, if_neg hkept]
        rfl

theorem specTree_file_gone (src : Entry) (sd kd kf : List RelPath) (sm0 : SrcMap)
    (P : RelPath) (cs : Tree) (q : RelPath) (m : Int) (c : String)
    (hnd : (cs.map Prod.fst).Nodup) (hwf : wfbTree cs = true)
    (hfind : findT cs q = some (.file m c))
    (hkey : smLookup sm0 (P ++ q) = none) (hnkf : P ++ q ∉ kf) :
    findT (specTree src sd kd kf sm0 P cs) q = none := by
  match cs with
  | [] =>
    match q with
    | [] => simp [findT] at hfind
    | x :: q2 => simp [findT, findInList] at hfind
  | (n, e) :: rest =>
    match q with
    | [] => simp [findT] at hfind
    | x :: q2 =>
      have hwfe : wfbEntry e = true ∧ wfbTree rest = true := by
        simpa [wfbTree] using hwf
      have hnd2 : n ∉ rest.map Prod.fst ∧ (rest.map Prod.fst).Nodup := by
        simpa using hnd
      by_cases hx : n = x
      · subst hx
        have hfind2 : findEntry e q2 = some (.file m c) := by
          simpa [findT, findInList] using hfind
        have IH := specEntry_file_gone src sd kd kf sm0 P n e q2 m c
          hwfe.1 hfind2 hkey hnkf
        simp only [specTree, findT]
        cases hv : specEntry src sd kd kf sm0 P n e with
        | some y =>
          have hy : y.1 = n := specEntry_name src sd kd kf sm0 P n e y (by simp [hv])
          rcases y with ⟨n1, e1⟩
          simp only at hy
          subst hy
          rw [hv] at IH
          simp only [Option.toList_some, List.cons_append, findInList, if_pos rfl]
          exact IH
        | none =>
          simp only [Option.toList_none, List.nil_append, hv]
          rw [findInList_none_of_not_mem _ _ _
            (fun hmem => hnd2.1 (specTree_names_sub src sd kd kf sm0 P rest n hmem))]
      · have hfind2 : findT rest (x :: q2) = some (.file m c) := by
          simpa [findT, findInList, hx] using hfind
        have IH := specTree_file_gone src sd kd kf sm0 P rest (x :: q2) m c
          hnd2.2 hwfe.2 hfind2 hkey hnkf
        simp only [specTree, findT]
        rw [findInList_append]
        split
        next hmem =>
          exfalso
          rcases List.mem_map.mp hmem with ⟨y, hy, hyx⟩
          have := specEntry_name src sd kd kf sm0 P n e y hy
          exact hx (by rw [← this, hyx])
        next _ => exact IH
end

/-! ## Lemmas: the spec tree is well-formed -/

theorem specTree_names_sublist (src : Entry) (sd kd kf : List RelPath) (sm0 : SrcMap)
    (P : RelPath) (cs : Tree) :
    ((specTree src sd kd kf sm0 P cs).map Prod.fst).Sublist (cs.map Prod.fst) := by
  induction cs with
  | nil => simp [specTree]
  | cons hd tl ih =>
    rcases hd with ⟨n, e⟩
    simp only [specTree, List.map_append, List.map_cons]
    cases hv : specEntry src sd kd kf sm0 P n e with
    | none =>
      simp only [Option.toList_none, List.map_nil, List.nil_append]
      exact List.Sublist.cons n ih
    | some y =>
      have hy : y.1 = n := specEntry_name src sd kd kf sm0 P n e y (by simp [hv])
      simp only [Option.toList_some, List.map_cons, List.map_nil, List.cons_append,
        List.nil_append, hy]
      exact List.Sublist.cons₂ n ih

mutual
theorem specEntry_wf (src : Entry) (sd kd kf : List RelPath) (sm0 : SrcMap)
    (P : RelPath) (n : String) (e : Entry)
    (hwf : wfbEntry e = true) :
    ∀ y ∈ (specEntry src sd kd kf sm0 P n e).toList, wfbEntry y.2 = true := by
  match e with
  | .file m c =>
    intro y hy
    simp only [specEntry] at hy
    cases hv : specFileResult src kf sm0 (P ++ [n]) m c with
    | none => rw [hv] at hy; simp at hy
    | some e2 =>
      rw [hv] at hy
      simp at hy
      rcases specFileResult_shape src kf sm0 (P ++ [n]) m c e2 hv with ⟨a, b, rfl⟩
      rw [hy]
      rfl
  | .dir m kids =>
    intro y hy
    have hwf2 : (kids.map Prod.fst).Nodup ∧ wfbTree kids = true := by
      simpa [wfbEntry] using hwf
    simp only [specEntry] at hy
    split at hy
    · simp at hy
      rw [hy]
      simp only [wfbEntry]
      rw [Bool.and_eq_true]
      constructor
      · simp only [decide_eq_true_eq]
        exact (specTree_names_sublist src sd kd kf sm0 (P ++ [n]) kids).nodup hwf2.1
      · exact specTree_wf src sd kd kf sm0 (P ++ [n]) kids hwf2.2
    · simp at hy

theorem specTree_wf (src : Entry) (sd kd kf : List RelPath) (sm0 : SrcMap)
    (P : RelPath) (cs : Tree)
    (hwf : wfbTree cs = true) :
    wfbTree (specTree src sd kd kf sm0 P cs) = true := by
  match cs with
  | [] => rfl
  | (n, e) :: rest =>
    have hwfe : wfbEntry e = true ∧ wfbTree rest = true := by
      simpa [wfbTree] using hwf
    have IHe := specEntry_wf src sd kd kf sm0 P n e hwfe.1
    have IHr := specTree_wf src sd kd kf sm0 P rest hwfe.2
    simp only [specTree]
    rw [wfbTree_append]
    rw [Bool.and_eq_true]
    constructor
    · cases hv : specEntry src sd kd kf sm0 P n e with
      | none => rfl
      | some y =>
        rcases y with ⟨n1, e1⟩
        have := IHe (n1, e1) (by simp [hv])
        simp only [Option.toList_some]
        show (wfbEntry e1 && wfbTree []) = true
        simp [this, wfbTree]
    · exact IHr
end

/-! ## Lemmas: the completion phase creates files only at `src_files` keys -/

theorem mkChain_no_files (n : String) : ∀ (rest : List String) (q : RelPath)
    (a : Int) (b : String), findEntry (mkChain n rest).2 q = some (.file a b) → False := by
  intro rest
  induction rest generalizing n with
  | nil =>
    intro q a b h
    cases q with
    | nil => rw [findEntry_nil] at h; cases h
    | cons x q2 =>
      have h2 : findInList [] x q2 = some (.file a b) := h
      cases h2
  | cons n2 rest2 ih =>
    intro q a b h
    cases q with
    | nil => rw [findEntry_nil] at h; cases h
    | cons x q2 =>
      have h2 : (if (mkChain n2 rest2).1 = x then findEntry (mkChain n2 rest2).2 q2
        else findInList [] x q2) = some (.file a b) := h
      by_cases hx : n2 = x
      · rw [mkChain_name, if_pos hx] at h2
        subst hx
        exact ih n2 q2 a b h2
      · rw [mkChain_name, if_neg hx] at h2
        cases h2

theorem makedirs_file_rev (d : RelPath) : ∀ (root root' : Entry),
    makedirs root d = .ok root' →
    ∀ q a b, findEntry root' q = some (.file a b) →
      findEntry root q = some (.file a b) := by
  induction d with
  | nil => intro root root' h; cases root <;> cases h
  | cons n rest ih =>
    intro root root' h q a b hq
    match root with
    | .file mf cf => cases h
    | .dir m cs =>
      simp only [makedirs] at h
      split at h
      next child hl =>
        split at h
        next child' hmk =>
          cases h
          cases q with
          | nil => rw [findEntry_nil] at hq; cases hq
          | cons y q2 =>
            have hq2 : findInList (replaceChild cs n child') y q2 = some (.file a b) := hq
            by_cases hy : y = n
            · subst hy
              rw [findInList_replaceChild_self cs y child' q2
                (findInList_some_mem_names cs y [] child hl)] at hq2
              show findInList cs y q2 = some (.file a b)
              rw [findInList_some_findEntry cs y child q2 hl]
              exact ih child child' hmk q2 a b hq2
            · rw [findInList_replaceChild_ne cs n child' y q2 hy] at hq2
              exact hq2
        next e hmk => cases h
      next hl =>
        cases h
        cases q with
        | nil => rw [findEntry_nil] at hq; cases hq
        | cons y q2 =>
          have hq2 : findInList (cs ++ [mkChain n rest]) y q2 = some (.file a b) := hq
          rw [findInList_append] at hq2
          by_cases hy : y ∈ cs.map Prod.fst
          · rw [if_pos hy] at hq2
            exact hq2
          · exfalso
            rw [if_neg hy] at hq2
            by_cases hyn : n = y
            · subst hyn
              rw [show findInList [mkChain n rest] n q2 =
                (if (mkChain n rest).1 = n then findEntry (mkChain n rest).2 q2
                  else findInList [] n q2) from rfl,
                if_pos (mkChain_name n rest)] at hq2
              exact mkChain_no_files n rest q2 a b hq2
            · rw [show findInList [mkChain n rest] y q2 =
                (if (mkChain n rest).1 = y then findEntry (mkChain n rest).2 q2
                  else findInList [] y q2) from rfl,
                mkChain_name, if_neg hyn] at hq2
              cases hq2

theorem copyTo_file_rev (mt : Int) (c : String) : ∀ (p : RelPath) (root root' : Entry),
    copyTo root p mt c = .ok root' →
    ∀ q a b, findEntry root' q = some (.file a b) →
      findEntry root q = some (.file a b) ∨ q = p := by
  intro p
  induction p with
  | nil => intro root root' h; cases root <;> cases h
  | cons n rest ih =>
    intro root root' h q a b hq
    match root with
    | .file mf cf => cases h
    | .dir m cs =>
      cases q with
      | nil =>
        exfalso
        rcases copyTo_shape m cs (n :: rest) mt c root' h with ⟨cs', rfl⟩
        rw [findEntry_nil] at hq
        cases hq
      | cons y q2 =>
        cases rest with
        | nil =>
          simp only [copyTo] at h
          split at h
          next md kds hl => cases h
          next mf2 cf2 hl =>
            cases h
            have hq2 : findInList (replaceChild cs n (.file mt c)) y q2 =
              some (.file a b) := hq
            by_cases hy : y = n
            · subst hy
              rw [findInList_replaceChild_self cs y _ q2
                (findInList_some_mem_names cs y [] _ hl)] at hq2
              cases q2 with
              | nil => exact Or.inr rfl
              | cons z q3 => cases hq2
            · left
              rw [findInList_replaceChild_ne cs n _ y q2 hy] at hq2
              exact hq2
          next hl =>
            cases h
            have hq2 : findInList (cs ++ [(n, .file mt c)]) y q2 = some (.file a b) := hq
            rw [findInList_append] at hq2
            by_cases hy : y ∈ cs.map Prod.fst
            · rw [if_pos hy] at hq2
              exact Or.inl hq2
            · rw [if_neg hy] at hq2
              by_cases hyn : n = y
              · subst hyn
                have hq3 : (if n = n then findEntry (.file mt c) q2
                  else findInList [] n q2) = some (.file a b) := hq2
                rw [if_pos rfl] at hq3
                cases q2 with
                | nil => exact Or.inr rfl
                | cons z q3 => cases hq3
              · exfalso
                have hq3 : (if n = y then findEntry (.file mt c) q2
                  else findInList [] y q2) = some (.file a b) := hq2
                rw [if_neg hyn] at hq3
                cases hq3
        | cons n2 rest2 =>
          simp only [copyTo] at h
          split at h
          next child hl =>
            split at h
            next child' hcp =>
              cases h
              have hq2 : findInList (replaceChild cs n child') y q2 =
                some (.file a b) := hq
              by_cases hy : y = n
              · subst hy
                rw [findInList_replaceChild_self cs y child' q2
                  (findInList_some_mem_names cs y [] child hl)] at hq2
                rcases ih child child' hcp q2 a b hq2 with h2 | rfl
                · left
                  show findInList cs y q2 = some (.file a b)
                  rw [findInList_some_findEntry cs y child q2 hl]
                  exact h2
                · exact Or.inr rfl
              · left
                rw [findInList_replaceChild_ne cs n child' y q2 hy] at hq2
                exact hq2
            next e hcp => cases h
          next hl => cases h

theorem completeOne_file_rev (src dest : Entry) (p : RelPath) (d2 : Entry) (L : List Op)
    (h : completeOne src dest p = .ok (d2, L)) :
    ∀ q a b, findEntry d2 q = some (.file a b) →
      findEntry dest q = some (.file a b) ∨ q = p := by
  obtain ⟨d', l0, mt, c, hmk, hcf, hct, hL⟩ := completeOne_eq src dest p (d2, L) h
  intro q a b hq
  rcases copyTo_file_rev mt c p d' d2 hct q a b hq with h2 | rfl
  · rcases hmk with ⟨hmk, _⟩ | ⟨hmk, rfl, _⟩
    · exact Or.inl (makedirs_file_rev p.dropLast dest d' hmk q a b h2)
    · exact Or.inl h2
  · exact Or.inr rfl

theorem completeFiles_file_rev (src : Entry) : ∀ (sf : SrcMap) (dest : Entry)
    (acc : List Op) (out : Entry × List Op),
    completeFiles src dest sf acc = .ok out →
    ∀ q a b, findEntry out.1 q = some (.file a b) →
      findEntry dest q = some (.file a b) ∨ q ∈ smKeys sf := by
  intro sf
  induction sf with
  | nil =>
    intro dest acc out h q a b hq
    cases h
    exact Or.inl hq
  | cons hd rest ih =>
    rcases hd with ⟨p, v⟩
    intro dest acc out h q a b hq
    have hh : (match completeOne src dest p with
      | .ok (dest', l) => completeFiles src dest' rest (acc ++ l)
      | .error e => .error e) = .ok out := h
    split at hh
    next dest' l hco =>
      rcases ih dest' (acc ++ l) out hh q a b hq with h2 | h2
      · rcases completeOne_file_rev src dest p dest' l hco q a b h2 with h3 | rfl
        · exact Or.inl h3
        · exact Or.inr (List.mem_cons_self _ _)
      · exact Or.inr (List.mem_cons_of_mem _ h2)
    next e hco => cases hh

/-! ## Lemmas: the completion phase preserves synchronization -/

theorem completeOne_synced (src : Entry) (sd kd kf : List RelPath) (sm0 : SrcMap)
    (dm : Int) (cs : Tree) (p : RelPath) (d2 : Entry) (L : List Op)
    (h : completeOne src (.dir dm cs) p = .ok (d2, L))
    (hkey : ∃ v, smLookup sm0 p = some v ∧ getmtime src p = some v)
    (hchain : ∀ k, 0 < k → k ≤ p.dropLast.length → p.dropLast.take k ∈ sd)
    (hsync : syncedTree sd kd kf sm0 [] cs = true) :
    ∃ cs2, d2 = .dir dm cs2 ∧ syncedTree sd kd kf sm0 [] cs2 = true := by
  obtain ⟨d', l0, mt, c, hmk, hcf, hct, hL⟩ := completeOne_eq src (.dir dm cs) p (d2, L) h
  obtain ⟨v, hv, hg⟩ := hkey
  have hsrc := copyFromSrc_ok src p mt c hcf
  have hmtv : mt = v := by
    simp only [getmtime, hsrc] at hg
    exact Option.some_inj.mp hg
  have hd' : ∃ cs1, d' = .dir dm cs1 ∧ syncedTree sd kd kf sm0 [] cs1 = true := by
    rcases hmk with ⟨hmk, _⟩ | ⟨_, rfl, _⟩
    · exact makedirs_synced sd kd kf sm0 p.dropLast [] dm cs d' hmk
        (fun k hk hk2 => Or.inl (hchain k hk hk2)) hsync
    · exact ⟨cs, rfl, hsync⟩
  rcases hd' with ⟨cs1, rfl, hcs1⟩
  have hkc : (match smLookup sm0 (([] : RelPath) ++ p) with
      | some w => w ≤ mt
      | none => ([] : RelPath) ++ p ∈ kf) := by
    have hv2 : smLookup sm0 (([] : RelPath) ++ p) = some v := hv
    rw [hv2]
    exact le_of_eq hmtv.symm
  exact copyTo_synced sd kd kf sm0 mt c p [] dm cs1 d2 hct hkc hcs1

theorem completeFiles_synced (src : Entry) (sd kd kf : List RelPath) (sm0 : SrcMap) :
    ∀ (sf : SrcMap) (dm : Int) (cs : Tree) (acc : List Op) (out : Entry × List Op),
    completeFiles src (.dir dm cs) sf acc = .ok out →
    (∀ p v, (p, v) ∈ sf → smLookup sm0 p = some v ∧ getmtime src p = some v ∧
      (∀ k, 0 < k → k ≤ p.dropLast.length → p.dropLast.take k ∈ sd)) →
    syncedTree sd kd kf sm0 [] cs = true →
    ∃ cs2, out.1 = .dir dm cs2 ∧ syncedTree sd kd kf sm0 [] cs2 = true := by
  intro sf
  induction sf with
  | nil =>
    intro dm cs acc out h hkeys hsync
    cases h
    exact ⟨cs, rfl, hsync⟩
  | cons hd rest ih =>
    rcases hd with ⟨p, v⟩
    intro dm cs acc out h hkeys hsync
    have hh : (match completeOne src (.dir dm cs) p with
      | .ok (dest', l) => completeFiles src dest' rest (acc ++ l)
      | .error e => .error e) = .ok out := h
    split at hh
    next dest' l hco =>
      have hk0 := hkeys p v (by simp)
      rcases completeOne_synced src sd kd kf sm0 dm cs p dest' l hco
        ⟨v, hk0.1, hk0.2.1⟩ hk0.2.2 hsync with ⟨cs1, rfl, hcs1⟩
      exact ih dm cs1 (acc ++ l) out hh (fun p2 v2 hm => hkeys p2 v2 (by simp [hm])) hcs1
    next e hco => cases hh

/-! ## Lemmas: the walk and completion read the source only at `src_files` keys -/

mutual
theorem walkEntry_keys_sub (src : Entry) (sd kd kf : List RelPath) :
    ∀ (P : RelPath) (n : String) (sf : SrcMap) (e : Entry) (ent : Option (String × Entry))
      (sf' : SrcMap) (l : List Op),
      walkEntry src sd kd kf P n sf e = .ok (ent, sf', l) →
      ∀ p ∈ smKeys sf', p ∈ smKeys sf := by
  intro P n sf e ent sf' l h p hp
  match e with
  | .file m c =>
    simp only [walkEntry] at h
    split at h
    next mt hlk =>
      split at h
      · split at h
        next a b hcf =>
          cases h
          exact ((smErase_sublist sf (P ++ [n])).map Prod.fst).subset hp
        next err hcf => cases h
      · cases h
        exact ((smErase_sublist sf (P ++ [n])).map Prod.fst).subset hp
    next hlk =>
      split at h
      · cases h; exact hp
      · cases h; exact hp
  | .dir m kids =>
    simp only [walkEntry] at h
    split at h
    · split at h
      next kids' sf2 l2 hw =>
        cases h
        exact walkTree_keys_sub src sd kd kf (P ++ [n]) sf kids _ _ _ hw p hp
      next err hw => cases h
    · cases h
      exact hp

theorem walkTree_keys_sub (src : Entry) (sd kd kf : List RelPath) :
    ∀ (P : RelPath) (sf : SrcMap) (cs : Tree) (cs' : Tree) (sf' : SrcMap) (l : List Op),
      walkTree src sd kd kf P sf cs = .ok (cs', sf', l) →
      ∀ p ∈ smKeys sf', p ∈ smKeys sf := by
  intro P sf cs cs' sf' l h p hp
  match cs with
  | [] =>
    cases h
    exact hp
  | (n, e) :: rest =>
    simp only [walkTree] at h
    split at h
    next ent sf₁ l₁ hE =>
      split at h
      next rest' sf₂ l₂ hT =>
        cases h
        exact walkEntry_keys_sub src sd kd kf P n sf e ent sf₁ l₁ hE p
          (walkTree_keys_sub src sd kd kf P sf₁ rest rest' sf' l₂ hT p hp)
      next err hT => cases h
    next err hE => cases h
end

theorem copyFromSrc_congr (src src2 : Entry) (p : RelPath)
    (h : findEntry src p = findEntry src2 p) :
    copyFromSrc src p = copyFromSrc src2 p := by
  simp only [copyFromSrc, h]

mutual
theorem walkEntry_congr (src src2 : Entry) (sd kd kf : List RelPath) :
    ∀ (P : RelPath) (n : String) (sf : SrcMap) (e : Entry),
      (∀ p ∈ smKeys sf, findEntry src p = findEntry src2 p) →
      walkEntry src sd kd kf P n sf e = walkEntry src2 sd kd kf P n sf e := by
  intro P n sf e hag
  match e with
  | .file m c =>
    simp only [walkEntry]
    split
    next mt hlk =>
      have hmem : P ++ [n] ∈ smKeys sf := by
        rcases mem_of_smLookup_eq_some sf (P ++ [n]) mt hlk with hm
        exact List.mem_map.mpr ⟨(P ++ [n], mt), hm, rfl⟩
      rw [copyFromSrc_congr src src2 (P ++ [n]) (hag (P ++ [n]) hmem)]
    next hlk => rfl
  | .dir m kids =>
    simp only [walkEntry]
    split
    · rw [walkTree_congr src src2 sd kd kf (P ++ [n]) sf kids hag]
    · rfl

theorem walkTree_congr (src src2 : Entry) (sd kd kf : List RelPath) :
    ∀ (P : RelPath) (sf : SrcMap) (cs : Tree),
      (∀ p ∈ smKeys sf, findEntry src p = findEntry src2 p) →
      walkTree src sd kd kf P sf cs = walkTree src2 sd kd kf P sf cs := by
  intro P sf cs hag
  match cs with
  | [] => rfl
  | (n, e) :: rest =>
    simp only [walkTree]
    rw [walkEntry_congr src src2 sd kd kf P n sf e hag]
    split
    next ent sf₁ l₁ hE =>
      rw [walkTree_congr src src2 sd kd kf P sf₁ rest (fun p hp =>
        hag p (walkEntry_keys_sub src2 sd kd kf P n sf e ent sf₁ l₁ hE p hp))]
    next err hE => rfl
end

theorem completeOne_congr (src src2 dest : Entry) (p : RelPath)
    (h : findEntry src p = findEntry src2 p) :
    completeOne src dest p = completeOne src2 dest p := by
  simp only [completeOne, copyFromSrc_congr src src2 p h]

theorem completeFiles_congr (src src2 : Entry) : ∀ (sf : SrcMap) (dest : Entry)
    (acc : List Op),
    (∀ p ∈ smKeys sf, findEntry src p = findEntry src2 p) →
    completeFiles src dest sf acc = completeFiles src2 dest sf acc := by
  intro sf
  induction sf with
  | nil => intro dest acc hag; rfl
  | cons hd rest ih =>
    rcases hd with ⟨p, v⟩
    intro dest acc hag
    show (match completeOne src dest p with
      | .ok (dest', l) => completeFiles src dest' rest (acc ++ l)
      | .error e => .error e) =
      (match completeOne src2 dest p with
      | .ok (dest', l) => completeFiles src2 dest' rest (acc ++ l)
      | .error e => .error e)
    rw [completeOne_congr src src2 dest p (hag p (by simp [smKeys]))]
    split
    next dest' l hco =>
      exact ih dest' (acc ++ l) (fun p2 hp2 => hag p2 (by simp [smKeys] at hp2 ⊢; exact Or.inr hp2))
    next e hco => rfl

theorem syncFiles_files_congr (src src2 dest : Entry) (fl : List RelPath)
    (keep : Option (List RelPath))
    (hag : ∀ p ∈ fl, findEntry src p = findEntry src2 p) :
    syncFiles src dest (some fl) keep = syncFiles src2 dest (some fl) keep := by
  have hdc : discover src (some fl) = discover src2 (some fl) :=
    discoverFiles_congr src src2 fl hag [] []
  simp only [syncFiles, hdc]
  split
  next e hds => rfl
  next sd sm hds =>
    have hkeys : ∀ p ∈ smKeys sm, findEntry src p = findEntry src2 p := by
      intro p hp
      rcases discoverFiles_keys_sub src2 fl [] [] sd sm hds p hp with h2 | h2
      · simp [smKeys] at h2
      · exact hag p h2
    cases dest with
    | file m c =>
      have hcf := completeFiles_congr src src2 sm (.file m c) [] hkeys
      simp only [hcf]
    | dir dm cs =>
      have hwc := walkTree_congr src src2 sd (keepSets keep).1 (keepSets keep).2
        [] sm cs hkeys
      cases hw2 : walkTree src2 sd (keepSets keep).1 (keepSets keep).2 [] sm cs with
      | error e =>
        have hw1 : walkTree src sd (keepSets keep).1 (keepSets keep).2 [] sm cs =
          .error e := hwc.trans hw2
        simp only [hw1, hw2]
      | ok t =>
        rcases t with ⟨cs', sf, l⟩
        have hw1 : walkTree src sd (keepSets keep).1 (keepSets keep).2 [] sm cs =
          .ok (cs', sf, l) := hwc.trans hw2
        have hcf := completeFiles_congr src src2 sf (.dir dm cs') [] (fun p hp =>
          hkeys p (walkTree_keys_sub src2 sd (keepSets keep).1 (keepSets keep).2
            [] sm cs cs' sf l hw2 p hp))
        simp only [hw1, hw2, hcf]

/-! ## Lemmas: a successful run in terms of the pure specification functions -/

theorem syncFiles_run_spec (src : Entry) (dm : Int) (cs : Tree)
    (files keep : Option (List RelPath)) (d1 : Entry) (L : List Op)
    (hwdest : wfbEntry (Entry.dir dm cs) = true)
    (h : syncFiles src (.dir dm cs) files keep = .ok (d1, L)) :
    ∃ sd sm l₂,
      discover src files = .ok (sd, sm) ∧
      walkOkTree src sd (keepSets keep).1 sm [] cs = true ∧
      completeFiles src
        (.dir dm (specTree src sd (keepSets keep).1 (keepSets keep).2 sm [] cs))
        (smEraseList sm (handledTree sd (keepSets keep).1 sm [] cs)) []
        = .ok (d1, l₂) ∧
      L = specLogTree sd (keepSets keep).1 (keepSets keep).2 sm [] cs ++ l₂ := by
  obtain ⟨sd, sm, cs', sf, l₁, l₂, hdisc, hw, hcomp, hL⟩ :=
    syncFiles_run src dm cs files keep d1 L h
  have hwd : (cs.map Prod.fst).Nodup ∧ wfbTree cs = true := by
    simpa [wfbEntry] using hwdest
  have hspec := walkTree_eq_spec src sd (keepSets keep).1 (keepSets keep).2 sm [] sm cs
    hwd.1 hwd.2 (fun q hq => rfl)
  cases hok : walkOkTree src sd (keepSets keep).1 sm [] cs with
  | false =>
    rcases hspec.2 hok with ⟨err, herr⟩
    rw [herr] at hw
    cases hw
  | true =>
    rw [hspec.1 hok] at hw
    cases hw
    exact ⟨sd, sm, l₂, hdisc, hok, hcomp, hL⟩

theorem dropLast_take_mem_dirChain (p : RelPath) (k : Nat) (hk : 0 < k)
    (hk2 : k ≤ p.dropLast.length) : p.dropLast.take k ∈ dirChain p := by
  rw [mem_dirChain_iff]
  have hlen : p.dropLast.length = p.length - 1 := List.length_dropLast p
  refine ⟨k, hk, by omega, ?_⟩
  rw [List.dropLast_eq_take, List.take_take]
  congr 1
  omega

theorem append_mem_dirChain (q ext : RelPath) (hq : q ≠ []) (hext : ext ≠ []) :
    q ∈ dirChain (q ++ ext) := by
  rw [mem_dirChain_iff]
  refine ⟨q.length, List.length_pos.mpr hq, ?_, (List.take_left q ext).symm⟩
  rw [List.length_append]
  have := List.length_pos.mpr hext
  omega

/-- Positions the completion phase can add below the walk output: a key of
the remaining `src_files` or an ancestor of one; either way, any nonempty
prefix of such a position that is not the whole key is in `src_dirs`. -/
theorem sf_key_facts (sd kd : List RelPath) (sm : SrcMap) (handled : List RelPath)
    (hnodup : (smKeys sm).Nodup)
    (hchains : ∀ p ∈ smKeys sm, ∀ r ∈ dirChain p, r ∈ sd)
    (p₂ : RelPath) (hp2 : p₂ ∈ smKeys (smEraseList sm handled)) :
    smLookup sm p₂ ≠ none ∧ (∀ r ∈ dirChain p₂, r ∈ sd) := by
  rcases List.mem_map.mp hp2 with ⟨⟨p3, v3⟩, hmem, hp3⟩
  simp only at hp3
  have hmem2 : (p₂, v3) ∈ sm := by
    rw [← hp3]
    exact mem_of_mem_smEraseList sm handled (p3, v3) hmem
  have hkey : p₂ ∈ smKeys sm := List.mem_map.mpr ⟨(p₂, v3), hmem2, rfl⟩
  constructor
  · rw [smLookup_of_mem sm p₂ v3 hnodup hmem2]
    intro hc
    cases hc
  · exact hchains p₂ hkey

theorem syncRun_complete (src : Entry) (dm : Int) (cs : Tree)
    (files keep : Option (List RelPath)) (d1 : Entry) (L : List Op)
    (sd : List RelPath) (sm : SrcMap)
    (hwsrc : wfbEntry src = true) (hwdest : wfbEntry (Entry.dir dm cs) = true)
    (hdisc : discover src files = .ok (sd, sm))
    (h : syncFiles src (.dir dm cs) files keep = .ok (d1, L)) :
    ∀ p v, smLookup sm p = some v →
      ∃ a b, findEntry d1 p = some (.file a b) ∧
        (findEntry src p = some (.file a b) ∨
         (findT cs p = some (.file a b) ∧ v ≤ a)) := by
  obtain ⟨sd2, sm2, l₂, hdisc2, hok, hcomp, hL⟩ :=
    syncFiles_run_spec src dm cs files keep d1 L hwdest h
  rw [hdisc] at hdisc2
  simp only [Except.ok.injEq, Prod.mk.injEq] at hdisc2
  obtain ⟨rfl, rfl⟩ := hdisc2
  obtain ⟨hd2, hchains, hnodup⟩ := discover_props src files sd sm hwsrc hdisc
  have hwd : (cs.map Prod.fst).Nodup ∧ wfbTree cs = true := by
    simpa [wfbEntry] using hwdest
  obtain ⟨FR, CV, AD, WF, LG⟩ := completeFiles_spec src _ _ [] (d1, l₂) hcomp
  intro p v hv
  have hkmem : p ∈ smKeys sm :=
    List.mem_map.mpr ⟨(p, v), mem_of_smLookup_eq_some sm p v hv, rfl⟩
  by_cases hhand : p ∈ handledTree sd (keepSets keep).1 sm [] cs
  · rcases handledTree_char sd (keepSets keep).1 sm [] cs p hwd.1 hwd.2 hhand with
      ⟨x, q2, m2, c2, hp, hxm, hfind, hreach2, hkey⟩
    subst hp
    have hsf := specTree_find_file src sd (keepSets keep).1 (keepSets keep).2 sm []
      cs (x :: q2) m2 c2 hwd.1 hwd.2 hfind hreach2
    have hnk : (([] : RelPath) ++ x :: q2) ∉
        smKeys (smEraseList sm (handledTree sd (keepSets keep).1 sm [] cs)) := by
      intro hmem
      have hnone := smLookup_smEraseList_mem sm
        (handledTree sd (keepSets keep).1 sm [] cs) _ hnodup hhand
      exact (smLookup_ne_none_iff _ _).mpr hmem hnone
    by_cases hlt : m2 < v
    · rcases walkOkTree_stale_src src sd (keepSets keep).1 sm [] cs (x :: q2) m2 c2 v
        hok hfind hv hlt hreach2 with ⟨a, b, hsrc⟩
      have hres : findT (specTree src sd (keepSets keep).1 (keepSets keep).2 sm [] cs)
          (x :: q2) = some (.file a b) := by
        rw [hsf]
        simp only [specFileResult, copiedEntry, hv, hsrc, if_pos hlt]
      refine ⟨a, b, ?_, Or.inl hsrc⟩
      exact FR _ a b hres hnk
    · have hres : findT (specTree src sd (keepSets keep).1 (keepSets keep).2 sm [] cs)
          (x :: q2) = some (.file m2 c2) := by
        rw [hsf]
        simp only [specFileResult, hv, if_neg hlt]
      exact ⟨m2, c2, FR _ m2 c2 hres hnk, Or.inr ⟨hfind, not_lt.mp hlt⟩⟩
  · have hsfl : smLookup (smEraseList sm
        (handledTree sd (keepSets keep).1 sm [] cs)) p = some v := by
      rw [smLookup_smEraseList_ne sm _ p (fun r hr hrp => hhand (hrp ▸ hr))]
      exact hv
    have hmemsf := mem_of_smLookup_eq_some _ p v hsfl
    rcases CV (smKeys_smEraseList_nodup sm _ hnodup) p v hmemsf with ⟨a, b, hsa, hda⟩
    exact ⟨a, b, hda, Or.inl hsa⟩

theorem syncRun_junk (src : Entry) (dm : Int) (cs : Tree)
    (files keep : Option (List RelPath)) (d1 : Entry) (L : List Op)
    (sd : List RelPath) (sm : SrcMap)
    (hwsrc : wfbEntry src = true) (hwdest : wfbEntry (Entry.dir dm cs) = true)
    (hdisc : discover src files = .ok (sd, sm))
    (h : syncFiles src (.dir dm cs) files keep = .ok (d1, L)) :
    ∀ q, q ≠ [] → q ∉ sd → q ∉ (keepSets keep).1 →
      smLookup sm q = none → q ∉ (keepSets keep).2 →
      findEntry d1 q = none := by
  obtain ⟨sd2, sm2, l₂, hdisc2, hok, hcomp, hL⟩ :=
    syncFiles_run_spec src dm cs files keep d1 L hwdest h
  rw [hdisc] at hdisc2
  simp only [Except.ok.injEq, Prod.mk.injEq] at hdisc2
  obtain ⟨rfl, rfl⟩ := hdisc2
  obtain ⟨hd2, hchains, hnodup⟩ := discover_props src files sd sm hwsrc hdisc
  obtain ⟨FR, CV, AD, WF, LG⟩ := completeFiles_spec src _ _ [] (d1, l₂) hcomp
  intro q hqne hqsd hqkd hqkey hqkf
  have habs := specTree_absent src sd (keepSets keep).1 (keepSets keep).2 sm [] cs q
    hqsd hqkd hqkey hqkf
  have hdest₁ : findEntry (.dir dm (specTree src sd (keepSets keep).1
      (keepSets keep).2 sm [] cs)) q = none := by
    rw [findEntry_dir_ne_nil _ _ _ hqne]
    exact habs
  by_contra hne
  rcases AD q hne with h2 | ⟨p₂, hp2, hc⟩
  · exact h2 hdest₁
  · obtain ⟨hp2k, hp2c⟩ := sf_key_facts sd (keepSets keep).1 sm _ hnodup hchains p₂ hp2
    rcases hc with rfl | ⟨k, hk1, hk2, rfl⟩
    · exact hp2k hqkey
    · exact hqsd (hp2c _ (dropLast_take_mem_dirChain p₂ k hk1 hk2))

theorem syncRun_dir_removed (src : Entry) (dm : Int) (cs : Tree)
    (files keep : Option (List RelPath)) (d1 : Entry) (L : List Op)
    (sd : List RelPath) (sm : SrcMap) (q : RelPath) (md : Int) (kids : Tree)
    (hwsrc : wfbEntry src = true) (hwdest : wfbEntry (Entry.dir dm cs) = true)
    (hdisc : discover src files = .ok (sd, sm))
    (h : syncFiles src (.dir dm cs) files keep = .ok (d1, L))
    (hfind : findT cs q = some (.dir md kids))
    (hq : ¬(q ∈ sd ∨ q ∈ (keepSets keep).1))
    (hreach : ∀ r ∈ dirChain q, r ∈ sd ∨ r ∈ (keepSets keep).1) :
    Op.rmtree q ∈ L ∧
    (∀ op ∈ L, ∀ ext, ext ≠ [] → opPath op ≠ q ++ ext) ∧
    (smLookup sm q = none → findEntry d1 q = none) := by
  obtain ⟨sd2, sm2, l₂, hdisc2, hok, hcomp, hL⟩ :=
    syncFiles_run_spec src dm cs files keep d1 L hwdest h
  rw [hdisc] at hdisc2
  simp only [Except.ok.injEq, Prod.mk.injEq] at hdisc2
  obtain ⟨rfl, rfl⟩ := hdisc2
  obtain ⟨hd2, hchains, hnodup⟩ := discover_props src files sd sm hwsrc hdisc
  have hwd : (cs.map Prod.fst).Nodup ∧ wfbTree cs = true := by
    simpa [wfbEntry] using hwdest
  obtain ⟨FR, CV, AD, WF, LG⟩ := completeFiles_spec src _ _ [] (d1, l₂) hcomp
  have hqne : q ≠ [] := by
    intro hc
    subst hc
    simp [findT] at hfind
  refine ⟨?_, ?_, ?_⟩
  · rw [hL, List.mem_append]
    exact Or.inl (specLogTree_rmtree_mem sd (keepSets keep).1 (keepSets keep).2 sm
      [] cs q md kids hfind hq hreach)
  · intro op hop ext hext hpath
    rw [hL, List.mem_append] at hop
    rcases hop with hop | hop
    · exact specLogTree_no_under sd (keepSets keep).1 (keepSets keep).2 sm [] cs q
        md kids hwd.1 hwd.2 hfind hq op hop ext hext hpath
    · rcases LG op hop with h2 | ⟨p₂, hp2, hsh⟩
      · simp at h2
      · obtain ⟨hp2k, hp2c⟩ := sf_key_facts sd (keepSets keep).1 sm _ hnodup hchains p₂ hp2
        have hqsd : q ∉ sd := fun hmem => hq (Or.inl hmem)
        rcases hsh with rfl | rfl | rfl
        · -- op = copy p₂, opPath = p₂ = q ++ ext
          simp only [opPath] at hpath
          subst hpath
          exact hqsd (hp2c q (append_mem_dirChain q ext hqne hext))
        · -- op = mkdir p₂.dropLast
          simp only [opPath] at hpath
          have hq2 : q = p₂.dropLast.take q.length := by
            rw [hpath]
            exact (List.take_left q ext).symm
          have hqlen : q.length ≤ p₂.dropLast.length := by
            rw [hpath, List.length_append]
            omega
          exact hqsd (hp2c q (hq2 ▸ dropLast_take_mem_dirChain p₂ q.length
            (List.length_pos.mpr hqne) hqlen))
        · simp only [opPath] at hpath
          have hq2 : q = p₂.dropLast.take q.length := by
            rw [hpath]
            exact (List.take_left q ext).symm
          have hqlen : q.length ≤ p₂.dropLast.length := by
            rw [hpath, List.length_append]
            omega
          exact hqsd (hp2c q (hq2 ▸ dropLast_take_mem_dirChain p₂ q.length
            (List.length_pos.mpr hqne) hqlen))
  · intro hqkey
    have hgone := specTree_dir_gone src sd (keepSets keep).1 (keepSets keep).2 sm []
      cs q md kids hwd.1 hwd.2 hfind hq
    have hdest₁ : findEntry (.dir dm (specTree src sd (keepSets keep).1
        (keepSets keep).2 sm [] cs)) q = none := by
      rw [findEntry_dir_ne_nil _ _ _ hqne]
      exact hgone
    by_contra hne
    rcases AD q hne with h2 | ⟨p₂, hp2, hc⟩
    · exact h2 hdest₁
    · obtain ⟨hp2k, hp2c⟩ := sf_key_facts sd (keepSets keep).1 sm _ hnodup hchains p₂ hp2
      rcases hc with rfl | ⟨k, hk1, hk2, rfl⟩
      · exact hp2k hqkey
      · exact hq (Or.inl (hp2c _ (dropLast_take_mem_dirChain p₂ k hk1 hk2)))

/-! ## The claims -/

/-- C1 (amended): after a successful `sync_files` run on a well-formed source
and destination, every path in the Source File Set is present at the
destination as a file whose content either equals the source's content at
call time, or is the unmodified content of a pre-existing destination file
that was at least as new as its source counterpart (the code does not
overwrite a destination file whose mtime is not strictly older, so "content
equals the source" does not hold in that case); and every nonempty
pre-existing destination path in neither the source-derived sets nor the
keep sets is removed. -/
theorem sync_completeness_and_pruning (src : Entry) (dm : Int) (cs : Tree)
    (files keep : Option (List RelPath)) (d1 : Entry) (L : List Op)
    (sd : List RelPath) (sm : SrcMap)
    (hwsrc : wfbEntry src = true) (hwdest : wfbEntry (Entry.dir dm cs) = true)
    (hdisc : discover src files = .ok (sd, sm))
    (hrun : syncFiles src (.dir dm cs) files keep = .ok (d1, L)) :
    (∀ p v, smLookup sm p = some v →
      ∃ a b, findEntry d1 p = some (.file a b) ∧
        (findEntry src p = some (.file a b) ∨
         (findT cs p = some (.file a b) ∧ v ≤ a))) ∧
    (∀ q, q ≠ [] → q ∉ sd → q ∉ (keepSets keep).1 →
      smLookup sm q = none → q ∉ (keepSets keep).2 →
      findEntry d1 q = none) :=
  ⟨syncRun_complete src dm cs files keep d1 L sd sm hwsrc hwdest hdisc hrun,
   syncRun_junk src dm cs files keep d1 L sd sm hwsrc hwdest hdisc hrun⟩

/-- C2: a destination file whose relative path has a `src_files` key is
copied over exactly when its mtime is strictly older than the recorded
source mtime (the resulting file is the source file, content and metadata),
is left untouched otherwise, and in either case attracts no second copy:
the run's log holds exactly one copy operation at the path when stale and
none otherwise. -/
theorem sync_staleness_copy (src : Entry) (dm : Int) (cs : Tree)
    (files keep : Option (List RelPath)) (d1 : Entry) (L : List Op)
    (sd : List RelPath) (sm : SrcMap) (q : RelPath) (m mt : Int) (c : String)
    (hwsrc : wfbEntry src = true) (hwdest : wfbEntry (Entry.dir dm cs) = true)
    (hdisc : discover src files = .ok (sd, sm))
    (hrun : syncFiles src (.dir dm cs) files keep = .ok (d1, L))
    (hfind : findT cs q = some (.file m c))
    (hmt : smLookup sm q = some mt) :
    L.count (Op.copy q) = (if m < mt then 1 else 0) ∧
    (m < mt → ∃ a b, findEntry src q = some (.file a b) ∧
      findEntry d1 q = some (.file a b)) ∧
    (¬ m < mt → findEntry d1 q = some (.file m c)) := by
  obtain ⟨sd2, sm2, l₂, hdisc2, hok, hcomp, hL⟩ :=
    syncFiles_run_spec src dm cs files keep d1 L hwdest hrun
  rw [hdisc] at hdisc2
  simp only [Except.ok.injEq, Prod.mk.injEq] at hdisc2
  obtain ⟨rfl, rfl⟩ := hdisc2
  obtain ⟨hd2, hchains, hnodup⟩ := discover_props src files sd sm hwsrc hdisc
  have hwd : (cs.map Prod.fst).Nodup ∧ wfbTree cs = true := by
    simpa [wfbEntry] using hwdest
  obtain ⟨FR, CV, AD, WF, LG⟩ := completeFiles_spec src _ _ [] (d1, l₂) hcomp
  have hqne : q ≠ [] := by
    intro hc
    subst hc
    simp [findT] at hfind
  have hkmem : q ∈ smKeys sm :=
    List.mem_map.mpr ⟨(q, mt), mem_of_smLookup_eq_some sm q mt hmt, rfl⟩
  have hreach : ∀ r ∈ dirChain q, r ∈ sd ∨ r ∈ (keepSets keep).1 :=
    fun r hr => Or.inl (hchains q hkmem r hr)
  have hhand : q ∈ handledTree sd (keepSets keep).1 sm [] cs :=
    handledTree_mem sd (keepSets keep).1 sm [] cs q m c hfind (by simp [hmt]) hreach
  have hnk : q ∉ smKeys (smEraseList sm (handledTree sd (keepSets keep).1 sm [] cs)) := by
    intro hmem
    exact (smLookup_ne_none_iff _ _).mpr hmem
      (smLookup_smEraseList_mem sm _ q hnodup hhand)
  have hsf := specTree_find_file src sd (keepSets keep).1 (keepSets keep).2 sm [] cs
    q m c hwd.1 hwd.2 hfind hreach
  have hnocopy₂ : Op.copy q ∉ l₂ := by
    intro hmem
    rcases LG _ hmem with h2 | ⟨p₂, hp2, hsh⟩
    · simp at h2
    · rcases hsh with hcp | hcp | hcp
      · injection hcp with hqp
        subst hqp
        exact hnk hp2
      · cases hcp
      · cases hcp
  refine ⟨?_, ?_, ?_⟩
  · rw [hL, List.count_append]
    have h1 : (specLogTree sd (keepSets keep).1 (keepSets keep).2 sm [] cs).count
        (Op.copy q) = if m < mt then 1 else 0 :=
      specLogTree_copy_count src sd (keepSets keep).1 (keepSets keep).2 sm [] cs
        q m c mt hwd.1 hwd.2 hfind hmt hreach
    rw [h1, List.count_eq_zero.mpr hnocopy₂]
    simp
  · intro hlt
    rcases walkOkTree_stale_src src sd (keepSets keep).1 sm [] cs q m c mt hok
      hfind hmt hlt hreach with ⟨a, b, hsrc⟩
    have hsrc2 : findEntry src q = some (.file a b) := hsrc
    have hres : findEntry (.dir dm (specTree src sd (keepSets keep).1
        (keepSets keep).2 sm [] cs)) q = some (.file a b) := by
      rw [findEntry_dir_ne_nil _ _ _ hqne, hsf]
      simp only [specFileResult, copiedEntry, List.nil_append, hmt, hsrc2, if_pos hlt]
    exact ⟨a, b, hsrc, FR q a b hres hnk⟩
  · intro hlt
    have hres : findEntry (.dir dm (specTree src sd (keepSets keep).1
        (keepSets keep).2 sm [] cs)) q = some (.file m c) := by
      rw [findEntry_dir_ne_nil _ _ _ hqne, hsf]
      simp only [specFileResult, List.nil_append, hmt, if_neg hlt]
    exact FR q m c hres hnk

/-- C3: during the destination walk, a reached subdirectory in neither
`src_dirs` nor `keep_dirs` is removed by one recursive `rmtree` with no
further operation at or below it (pruned, not descended into), and a
reached destination file with no `src_files` key and not in `keep_files`
is removed and no file remains at its path. -/
theorem sync_walk_pruning (src : Entry) (dm : Int) (cs : Tree)
    (files keep : Option (List RelPath)) (d1 : Entry) (L : List Op)
    (sd : List RelPath) (sm : SrcMap)
    (hwsrc : wfbEntry src = true) (hwdest : wfbEntry (Entry.dir dm cs) = true)
    (hdisc : discover src files = .ok (sd, sm))
    (hrun : syncFiles src (.dir dm cs) files keep = .ok (d1, L)) :
    (∀ q md kids, findT cs q = some (.dir md kids) →
      ¬(q ∈ sd ∨ q ∈ (keepSets keep).1) →
      (∀ r ∈ dirChain q, r ∈ sd ∨ r ∈ (keepSets keep).1) →
      Op.rmtree q ∈ L ∧ (∀ op ∈ L, ∀ ext, ext ≠ [] → opPath op ≠ q ++ ext) ∧
      (smLookup sm q = none → findEntry d1 q = none)) ∧
    (∀ q m c, findT cs q = some (.file m c) →
      smLookup sm q = none → q ∉ (keepSets keep).2 →
      (∀ r ∈ dirChain q, r ∈ sd ∨ r ∈ (keepSets keep).1) →
      Op.remove q ∈ L ∧ ∀ a b, findEntry d1 q ≠ some (.file a b)) := by
  constructor
  · intro q md kids hfind hq hreach
    exact syncRun_dir_removed src dm cs files keep d1 L sd sm q md kids
      hwsrc hwdest hdisc hrun hfind hq hreach
  · intro q m c hfind hqkey hqkf hreach
    obtain ⟨sd2, sm2, l₂, hdisc2, hok, hcomp, hL⟩ :=
      syncFiles_run_spec src dm cs files keep d1 L hwdest hrun
    rw [hdisc] at hdisc2
    simp only [Except.ok.injEq, Prod.mk.injEq] at hdisc2
    obtain ⟨rfl, rfl⟩ := hdisc2
    obtain ⟨hd2, hchains, hnodup⟩ := discover_props src files sd sm hwsrc hdisc
    have hwd : (cs.map Prod.fst).Nodup ∧ wfbTree cs = true := by
      simpa [wfbEntry] using hwdest
    have hqne : q ≠ [] := by
      intro hc
      subst hc
      simp [findT] at hfind
    constructor
    · rw [hL, List.mem_append]
      exact Or.inl (specLogTree_remove_mem sd (keepSets keep).1 (keepSets keep).2
        sm [] cs q m c hfind hqkey hqkf hreach)
    · intro a b hda
      have hgone := specTree_file_gone src sd (keepSets keep).1 (keepSets keep).2
        sm [] cs q m c hwd.1 hwd.2 hfind hqkey hqkf
      have hdest₁ : findEntry (.dir dm (specTree src sd (keepSets keep).1
          (keepSets keep).2 sm [] cs)) q = none := by
        rw [findEntry_dir_ne_nil _ _ _ hqne]
        exact hgone
      rcases completeFiles_file_rev src _ _ [] (d1, l₂) hcomp q a b hda with h2 | h2
      · rw [hdest₁] at h2
        cases h2
      · exact (sf_key_facts sd (keepSets keep).1 sm _ hnodup hchains q h2).1 hqkey

/-- C4 (amended): a `keep` path with no `src_files` key whose destination
entry is a regular file (reached by the walk) is left untouched - same
content and mtime afterwards, and no delete or copy operation ever targets
it. The original claim fails for a keep path whose destination entry is a
directory: keep entries land only in `keep_files`, so such a directory is
rmtree-deleted (see the counterexample and C10). -/
theorem sync_keep_file_preserved (src : Entry) (dm : Int) (cs : Tree)
    (files keep : Option (List RelPath)) (d1 : Entry) (L : List Op)
    (sd : List RelPath) (sm : SrcMap) (q : RelPath) (m : Int) (c : String)
    (hwsrc : wfbEntry src = true) (hwdest : wfbEntry (Entry.dir dm cs) = true)
    (hdisc : discover src files = .ok (sd, sm))
    (hrun : syncFiles src (.dir dm cs) files keep = .ok (d1, L))
    (hkeep : q ∈ (keepSets keep).2) (hqkey : smLookup sm q = none)
    (hfind : findT cs q = some (.file m c))
    (hreach : ∀ r ∈ dirChain q, r ∈ sd ∨ r ∈ (keepSets keep).1) :
    findEntry d1 q = some (.file m c) ∧
    ∀ op ∈ L, op ≠ Op.rmtree q ∧ op ≠ Op.remove q ∧ op ≠ Op.copy q := by
  obtain ⟨sd2, sm2, l₂, hdisc2, hok, hcomp, hL⟩ :=
    syncFiles_run_spec src dm cs files keep d1 L hwdest hrun
  rw [hdisc] at hdisc2
  simp only [Except.ok.injEq, Prod.mk.injEq] at hdisc2
  obtain ⟨rfl, rfl⟩ := hdisc2
  obtain ⟨hd2, hchains, hnodup⟩ := discover_props src files sd sm hwsrc hdisc
  have hwd : (cs.map Prod.fst).Nodup ∧ wfbTree cs = true := by
    simpa [wfbEntry] using hwdest
  obtain ⟨FR, CV, AD, WF, LG⟩ := completeFiles_spec src _ _ [] (d1, l₂) hcomp
  have hqne : q ≠ [] := by
    intro hc
    subst hc
    simp [findT] at hfind
  have hnk : q ∉ smKeys (smEraseList sm (handledTree sd (keepSets keep).1 sm [] cs)) := by
    intro hmem
    exact (sf_key_facts sd (keepSets keep).1 sm _ hnodup hchains q hmem).1 hqkey
  have hsf := specTree_find_file src sd (keepSets keep).1 (keepSets keep).2 sm [] cs
    q m c hwd.1 hwd.2 hfind hreach
  constructor
  · have hres : findEntry (.dir dm (specTree src sd (keepSets keep).1
        (keepSets keep).2 sm [] cs)) q = some (.file m c) := by
      rw [findEntry_dir_ne_nil _ _ _ hqne, hsf]
      simp only [specFileResult, List.nil_append, hqkey, if_pos hkeep]
    exact FR q m c hres hnk
  · intro op hop
    rw [hL, List.mem_append] at hop
    rcases hop with hop | hop
    · have hquiet := specLogTree_quiet sd (keepSets keep).1 (keepSets keep).2 sm
        [] cs q m c hwd.1 hwd.2 hfind hqkey hkeep op hop
      refine ⟨?_, ?_, ?_⟩ <;> intro hc <;> subst hc <;> exact hquiet rfl
    · rcases LG _ hop with h2 | ⟨p₂, hp2, hsh⟩
      · simp at h2
      · refine ⟨?_, ?_, ?_⟩ <;> intro hc <;> subst hc
        · rcases hsh with hcp | hcp | hcp <;> cases hcp
        · rcases hsh with hcp | hcp | hcp <;> cases hcp
        · rcases hsh with hcp | hcp | hcp
          · injection hcp with hqp
            subst hqp
            exact hnk hp2
          · cases hcp
          · cases hcp

/-- C5: `sync_files` is idempotent: a second call with the same arguments
on the destination produced by a successful first call succeeds, changes
nothing and performs no file operation. -/
theorem sync_idempotent (src : Entry) (dm : Int) (cs : Tree)
    (files keep : Option (List RelPath)) (d1 : Entry) (L : List Op)
    (hwsrc : wfbEntry src = true) (hwdest : wfbEntry (Entry.dir dm cs) = true)
    (hrun : syncFiles src (.dir dm cs) files keep = .ok (d1, L)) :
    syncFiles src d1 files keep = .ok (d1, []) := by
  obtain ⟨sd, sm, l₂, hdisc, hok, hcomp, hL⟩ :=
    syncFiles_run_spec src dm cs files keep d1 L hwdest hrun
  obtain ⟨hd2, hchains, hnodup⟩ := discover_props src files sd sm hwsrc hdisc
  have hwd : (cs.map Prod.fst).Nodup ∧ wfbTree cs = true := by
    simpa [wfbEntry] using hwdest
  have hsync₁ : syncedTree sd (keepSets keep).1 (keepSets keep).2 sm []
      (specTree src sd (keepSets keep).1 (keepSets keep).2 sm [] cs) = true :=
    specTree_synced src sd (keepSets keep).1 (keepSets keep).2 sm [] cs hd2 hok
  have hkeysfact : ∀ p v,
      (p, v) ∈ smEraseList sm (handledTree sd (keepSets keep).1 sm [] cs) →
      smLookup sm p = some v ∧ getmtime src p = some v ∧
      (∀ k, 0 < k → k ≤ p.dropLast.length → p.dropLast.take k ∈ sd) := by
    intro p v hm
    have hmem2 : (p, v) ∈ sm := mem_of_mem_smEraseList sm _ (p, v) hm
    have hlk : smLookup sm p = some v := smLookup_of_mem sm p v hnodup hmem2
    refine ⟨hlk, hd2 p v hlk, ?_⟩
    intro k hk hk2
    exact hchains p (List.mem_map.mpr ⟨(p, v), hmem2, rfl⟩) _
      (dropLast_take_mem_dirChain p k hk hk2)
  rcases completeFiles_synced src sd (keepSets keep).1 (keepSets keep).2 sm _ dm
    (specTree src sd (keepSets keep).1 (keepSets keep).2 sm [] cs) [] (d1, l₂)
    hcomp hkeysfact hsync₁ with ⟨cs₁, hd1eq, hsync₂⟩
  obtain ⟨FR, CV, AD, WF, LG⟩ := completeFiles_spec src _ _ [] (d1, l₂) hcomp
  have hwfdest₁ : wfbEntry (.dir dm (specTree src sd (keepSets keep).1
      (keepSets keep).2 sm [] cs)) = true := by
    simp only [wfbEntry]
    rw [Bool.and_eq_true]
    constructor
    · simp only [decide_eq_true_eq]
      exact (specTree_names_sublist src sd (keepSets keep).1 (keepSets keep).2
        sm [] cs).nodup hwd.1
    · exact specTree_wf src sd (keepSets keep).1 (keepSets keep).2 sm [] cs hwd.2
  have hwf1 : wfbEntry d1 = true := WF hwfdest₁
  have hd1eq' : d1 = .dir dm cs₁ := hd1eq
  subst hd1eq'
  have hw1 : (cs₁.map Prod.fst).Nodup ∧ wfbTree cs₁ = true := by
    simpa [wfbEntry] using hwf1
  have hfix := syncedTree_fix src sd (keepSets keep).1 (keepSets keep).2 sm [] cs₁ hsync₂
  have hspec2 := walkTree_eq_spec src sd (keepSets keep).1 (keepSets keep).2 sm []
    sm cs₁ hw1.1 hw1.2 (fun q hq => rfl)
  have hwalk2 : walkTree src sd (keepSets keep).1 (keepSets keep).2 [] sm cs₁ =
      .ok (cs₁, smEraseList sm (handledTree sd (keepSets keep).1 sm [] cs₁), []) := by
    have h0 := hspec2.1 hfix.2.2
    rw [hfix.1, hfix.2.1] at h0
    exact h0
  have hall : ∀ k ∈ smKeys sm, k ∈ handledTree sd (keepSets keep).1 sm [] cs₁ := by
    intro p hp
    rcases List.mem_map.mp hp with ⟨⟨p3, v⟩, hmem, hp3⟩
    simp only at hp3
    subst hp3
    have hlk : smLookup sm p3 = some v := smLookup_of_mem sm p3 v hnodup hmem
    rcases syncRun_complete src dm cs files keep (.dir dm cs₁) L sd sm hwsrc hwdest
      hdisc hrun p3 v hlk with ⟨a, b, hda, _⟩
    have hpne : p3 ≠ [] := by
      intro hc
      subst hc
      rw [findEntry_nil] at hda
      cases hda
    have hfind : findT cs₁ p3 = some (.file a b) := by
      have h0 := hda
      rw [findEntry_dir_ne_nil _ _ _ hpne] at h0
      exact h0
    exact handledTree_cover sd (keepSets keep).1 (keepSets keep).2 sm [] cs₁ p3 a b
      hsync₂ hfind (by simp [hlk])
  have hsf2 : smEraseList sm (handledTree sd (keepSets keep).1 sm [] cs₁) = [] :=
    smEraseList_eq_nil sm _ hnodup hall
  rw [hsf2] at hwalk2
  simp only [syncFiles, hdisc, hwalk2]
  rfl

/-- C6 (amended): the only tolerated failure in `sync_files` is the
`FileExistsError` (`EEXIST`) that `os.makedirs` raises in the completion
phase when the destination parent already exists: the copy then proceeds
and the run records the swallowed error; any other `makedirs` error and any
copy error propagates to the caller unchanged. Deletions in the walk are
not the tolerated case the claim describes. -/
theorem completion_tolerates_only_eexist (src dest : Entry) (p : RelPath) :
    (∀ mt c d2, makedirs dest p.dropLast = .error .eexist →
      copyFromSrc src p = .ok (mt, c) →
      copyTo dest p mt c = .ok d2 →
      completeOne src dest p =
        .ok (d2, [Op.mkdirExistsTolerated p.dropLast, Op.copy p])) ∧
    (∀ e, makedirs dest p.dropLast = .error e → e ≠ SyncErr.eexist →
      completeOne src dest p = .error e) ∧
    (∀ e, makedirs dest p.dropLast = .error .eexist →
      copyFromSrc src p = .error e →
      completeOne src dest p = .error e) := by
  refine ⟨?_, ?_, ?_⟩
  · intro mt c d2 hmk hcf hct
    simp only [completeOne, hmk, hcf, hct, List.singleton_append]
  · intro e hmk hne
    cases e with
    | enoent p2 => simp only [completeOne, hmk]
    | cycle a b => simp only [completeOne, hmk]
    | isdir p2 => simp only [completeOne, hmk]
    | enotdir p2 => simp only [completeOne, hmk]
    | eexist => exact absurd rfl hne
  · intro e hmk hcf
    simp only [completeOne, hmk, hcf]

/-- C7: with an explicit `files` list, a listed path missing under the
source root makes the whole call raise `FileNotFoundError` from the mtime
lookup, and the call never reads the source tree anywhere outside the
listed paths - two sources agreeing on the listed paths produce identical
results, so no source walk occurs in this branch. -/
theorem sync_files_missing_raises_no_walk (src dest : Entry) (fl : List RelPath)
    (keep : Option (List RelPath)) :
    (∀ p ∈ fl, findEntry src p = none →
      ∃ q, syncFiles src dest (some fl) keep = .error (.enoent q) ∧
        findEntry src q = none) ∧
    (∀ src2, (∀ p ∈ fl, findEntry src p = findEntry src2 p) →
      syncFiles src dest (some fl) keep = syncFiles src2 dest (some fl) keep) := by
  constructor
  · intro p hp hmiss
    rcases discoverFiles_missing src fl p hp hmiss [] [] with ⟨q, hq, hq2⟩
    exact ⟨q, syncFiles_discover_error src dest (some fl) keep _ hq, hq2⟩
  · intro src2 hag
    exact syncFiles_files_congr src src2 dest fl keep hag

/-- C9: every deletion a successful run performs - `rmtree` of a directory
or `remove` of a file - targets a nonempty relative path, so the
destination root itself is never removed. -/
theorem sync_deletes_only_below_root (src : Entry) (dm : Int) (cs : Tree)
    (files keep : Option (List RelPath)) (d1 : Entry) (L : List Op)
    (hwdest : wfbEntry (Entry.dir dm cs) = true)
    (hrun : syncFiles src (.dir dm cs) files keep = .ok (d1, L)) :
    ∀ p, (Op.rmtree p ∈ L ∨ Op.remove p ∈ L) → p ≠ [] := by
  obtain ⟨sd, sm, l₂, hdisc, hok, hcomp, hL⟩ :=
    syncFiles_run_spec src dm cs files keep d1 L hwdest hrun
  obtain ⟨FR, CV, AD, WF, LG⟩ := completeFiles_spec src _ _ [] (d1, l₂) hcomp
  intro p hp hpnil
  subst hpnil
  rcases hp with hp | hp <;> rw [hL, List.mem_append] at hp <;> rcases hp with hp | hp
  · rcases specLogTree_paths sd (keepSets keep).1 (keepSets keep).2 sm [] cs _ hp
      with ⟨q, hq, hpath⟩
    rcases allPathsTree_shape cs q hq with ⟨x, q2, rfl, hx⟩
    simp [opPath] at hpath
  · rcases LG _ hp with h2 | ⟨p₂, hp2, hsh⟩
    · simp at h2
    · rcases hsh with hcp | hcp | hcp <;> cases hcp
  · rcases specLogTree_paths sd (keepSets keep).1 (keepSets keep).2 sm [] cs _ hp
      with ⟨q, hq, hpath⟩
    rcases allPathsTree_shape cs q hq with ⟨x, q2, rfl, hx⟩
    simp [opPath] at hpath
  · rcases LG _ hp with h2 | ⟨p₂, hp2, hsh⟩
    · simp at h2
    · rcases hsh with hcp | hcp | hcp <;> cases hcp

/-- C10: a `keep` entry denoting a destination directory is not itself
protected: `keep` paths enter only `keep_files`, their proper ancestors
enter `keep_dirs`, so a destination directory at a keep path outside the
Source Directory Set and `keep_dirs` is rmtree-deleted by the walk and (when
it is no `src_files` key) is gone from the final destination. -/
theorem sync_keep_entry_dir_unprotected (src : Entry) (dm : Int) (cs : Tree)
    (files keep : Option (List RelPath)) (d1 : Entry) (L : List Op)
    (sd : List RelPath) (sm : SrcMap) (q : RelPath) (md : Int) (kids : Tree)
    (hwsrc : wfbEntry src = true) (hwdest : wfbEntry (Entry.dir dm cs) = true)
    (hdisc : discover src files = .ok (sd, sm))
    (hrun : syncFiles src (.dir dm cs) files keep = .ok (d1, L))
    (hkeep : q ∈ (keepSets keep).2)
    (hfind : findT cs q = some (.dir md kids))
    (hq : ¬(q ∈ sd ∨ q ∈ (keepSets keep).1))
    (hreach : ∀ r ∈ dirChain q, r ∈ sd ∨ r ∈ (keepSets keep).1)
    (hqkey : smLookup sm q = none) :
    Op.rmtree q ∈ L ∧ findEntry d1 q = none := by
  have H := syncRun_dir_removed src dm cs files keep d1 L sd sm q md kids
    hwsrc hwdest hdisc hrun hfind hq hreach
  exact ⟨H.1, H.2.2 hqkey⟩

/-- C8 (code bug): util.py line 205 rebinds `parent` to a path relative to
`src_dir` and line 208 then calls `os.path.realpath(parent)`, which resolves
that relative path against the process working directory, not against
`src_dir`. On a source tree whose directory `s/a` contains a symlink
`link -> s/a` back to its ancestor, the cycle check only fires when the
working directory happens to be `src_dir` (first conjunct: the intended
cycle `Exception` naming both relative paths); with any other working
directory (here `c`) the realpath keys never collide, the walk follows the
link until the OS symlink budget is spent, and discovery instead fails with
`OSError` (`ELOOP`) from `os.path.getmtime` of the unrollable path (second
conjunct, with a link budget of 5) - not the cycle error the spec
describes. -/
theorem walk_cycle_check_depends_on_cwd :
    walkDisc [("c", .sdir []), ("s", .sdir [("a", .sdir [("f", .sfile 1),
        ("link", .slink ["s", "a"])])])] LINUX_SYMLOOP_MAX ["s"] ["s"] 300 =
      .error (.cycleExc ["s", "a"] ["a"] ["a", "link"]) ∧
    walkDisc [("c", .sdir []), ("s", .sdir [("a", .sdir [("f", .sfile 1),
        ("link", .slink ["s", "a"])])])] 5 ["c"] ["s"] 300 =
      .error (.eloopStat ["s", "a", "link", "link", "link", "link", "link", "link"]) :=
  ⟨by decide, by decide⟩

/-! ## Counterexamples -/

/-- Counterexample to C1 as stated: the path `f` is in the Source File Set
and in no keep set, the call succeeds, yet the destination content `old`
is not the source content `new` - the destination file's mtime 5 is not
older than the source's 1, so the file is left as it was. -/
theorem sync_newer_dest_keeps_content :
    syncFiles (.dir 0 [("f", .file 1 "new")]) (.dir 0 [("f", .file 5 "old")])
      (some [["f"]]) none = .ok (.dir 0 [("f", .file 5 "old")], []) ∧
    discover (.dir 0 [("f", .file 1 "new")]) (some [["f"]]) =
      .ok ([], [(["f"], 1)]) ∧
    findEntry (.dir 0 [("f", .file 1 "new")]) ["f"] ≠
      findEntry (.dir 0 [("f", .file 5 "old")]) ["f"] :=
  ⟨by decide, by decide, by decide⟩

/-- Counterexample to C4 as stated: the keep path `k` is absent from the
Source File Set, yet the destination directory at `k` is deleted with all
its contents - `keep` protects it only as a file path (`keep_files`), and
`keep_dirs` receives only proper ancestors. -/
theorem sync_keep_dir_deleted :
    keepSets (some [["k"]]) = ([], [["k"]]) ∧
    syncFiles (.dir 0 []) (.dir 0 [("k", .dir 0 [("x", .file 1 "a")])])
      (some []) (some [["k"]]) = .ok (.dir 0 [], [Op.rmtree ["k"]]) :=
  ⟨by decide, by decide⟩

/-- Counterexample to C6 as stated: a failure that is not a deletion of an
already-absent path is tolerated - `os.makedirs` of the existing
destination directory `a` raises `FileExistsError` (`EEXIST`), util.py
lines 271-275 swallow it, and the call still succeeds. -/
theorem sync_tolerates_mkdir_eexist :
    makedirs (.dir 0 [("a", .dir 0 [])]) ["a"] = .error .eexist ∧
    syncFiles (.dir 0 [("a", .dir 0 [("f", .file 3 "x")])])
      (.dir 0 [("a", .dir 0 [])]) (some [["a", "f"]]) none =
      .ok (.dir 0 [("a", .dir 0 [("f", .file 3 "x")])],
        [Op.mkdirExistsTolerated ["a"], Op.copy ["a", "f"]]) :=
  ⟨by decide, by decide⟩

/-! ## Witnesses -/

theorem sync_completeness_and_pruning_witness :
    (∀ p v, smLookup [(["f"], 1)] p = some v →
      ∃ a b, findEntry (Entry.dir 0 [("f", Entry.file 1 "x")]) p =
          some (Entry.file a b) ∧
        (findEntry (Entry.dir 0 [("f", Entry.file 1 "x")]) p =
            some (Entry.file a b) ∨
         (findT [("junk", Entry.file 1 "j")] p = some (Entry.file a b) ∧ v ≤ a))) ∧
    (∀ q, q ≠ [] → q ∉ ([] : List RelPath) → q ∉ (keepSets none).1 →
      smLookup [(["f"], 1)] q = none → q ∉ (keepSets none).2 →
      findEntry (Entry.dir 0 [("f", Entry.file 1 "x")]) q = none) :=
  sync_completeness_and_pruning (.dir 0 [("f", .file 1 "x")]) 0
    [("junk", .file 1 "j")] (some [["f"]]) none (.dir 0 [("f", .file 1 "x")])
    [Op.remove ["junk"], Op.mkdirExistsTolerated [], Op.copy ["f"]] [] [(["f"], 1)]
    (by decide) (by decide) (by decide) (by decide)

theorem sync_staleness_copy_witness :
    ([Op.copy ["f"]] : List Op).count (Op.copy ["f"]) =
      (if (1 : Int) < 5 then 1 else 0) ∧
    ((1 : Int) < 5 → ∃ a b,
      findEntry (Entry.dir 0 [("f", Entry.file 5 "x"), ("g", Entry.file 1 "y")])
        ["f"] = some (Entry.file a b) ∧
      findEntry (Entry.dir 0 [("f", Entry.file 5 "x"), ("g", Entry.file 9 "z")])
        ["f"] = some (Entry.file a b)) ∧
    (¬ (1 : Int) < 5 →
      findEntry (Entry.dir 0 [("f", Entry.file 5 "x"), ("g", Entry.file 9 "z")])
        ["f"] = some (Entry.file 1 "old")) :=
  sync_staleness_copy (.dir 0 [("f", .file 5 "x"), ("g", .file 1 "y")]) 0
    [("f", .file 1 "old"), ("g", .file 9 "z")] (some [["f"], ["g"]]) none
    (.dir 0 [("f", .file 5 "x"), ("g", .file 9 "z")]) [Op.copy ["f"]]
    [] [(["f"], 5), (["g"], 1)] ["f"] 1 5 "old"
    (by decide) (by decide) (by decide) (by decide) (by decide) (by decide)

theorem sync_walk_pruning_witness :
    (Op.rmtree ["junkd"] ∈
      ([Op.rmtree ["junkd"], Op.remove ["junkf"], Op.copy ["s"]] : List Op) ∧
     (∀ op ∈ ([Op.rmtree ["junkd"], Op.remove ["junkf"], Op.copy ["s"]] : List Op),
        ∀ ext, ext ≠ [] → opPath op ≠ ["junkd"] ++ ext) ∧
     (smLookup [(["s"], 1)] ["junkd"] = none →
       findEntry (Entry.dir 0 [("s", Entry.file 1 "v")]) ["junkd"] = none)) ∧
    (Op.remove ["junkf"] ∈
      ([Op.rmtree ["junkd"], Op.remove ["junkf"], Op.copy ["s"]] : List Op) ∧
     ∀ a b, findEntry (Entry.dir 0 [("s", Entry.file 1 "v")]) ["junkf"] ≠
       some (Entry.file a b)) :=
  ⟨(sync_walk_pruning (.dir 0 [("s", .file 1 "v")]) 0
      [("junkd", .dir 0 [("u", .file 1 "w")]), ("junkf", .file 1 "t"),
        ("s", .file 0 "old")]
      (some [["s"]]) none (.dir 0 [("s", .file 1 "v")])
      [Op.rmtree ["junkd"], Op.remove ["junkf"], Op.copy ["s"]] [] [(["s"], 1)]
      (by decide) (by decide) (by decide) (by decide)).1
    ["junkd"] 0 [("u", .file 1 "w")] (by decide) (by decide) (by decide),
   (sync_walk_pruning (.dir 0 [("s", .file 1 "v")]) 0
      [("junkd", .dir 0 [("u", .file 1 "w")]), ("junkf", .file 1 "t"),
        ("s", .file 0 "old")]
      (some [["s"]]) none (.dir 0 [("s", .file 1 "v")])
      [Op.rmtree ["junkd"], Op.remove ["junkf"], Op.copy ["s"]] [] [(["s"], 1)]
      (by decide) (by decide) (by decide) (by decide)).2
    ["junkf"] 1 "t" (by decide) (by decide) (by decide) (by decide)⟩

theorem sync_keep_file_preserved_witness :
    findEntry (Entry.dir 0 [("k", Entry.file 7 "keep")]) ["k"] =
      some (Entry.file 7 "keep") ∧
    ∀ op ∈ ([] : List Op),
      op ≠ Op.rmtree ["k"] ∧ op ≠ Op.remove ["k"] ∧ op ≠ Op.copy ["k"] :=
  sync_keep_file_preserved (.dir 0 []) 0 [("k", .file 7 "keep")] (some [])
    (some [["k"]]) (.dir 0 [("k", .file 7 "keep")]) [] [] [] ["k"] 7 "keep"
    (by decide) (by decide) (by decide) (by decide) (by decide) (by decide)
    (by decide) (by decide)

theorem sync_idempotent_witness :
    syncFiles (Entry.dir 0 [("a", Entry.dir 0 [("f", Entry.file 2 "x")])])
      (Entry.dir 0 [("a", Entry.dir 0 [("f", Entry.file 2 "x")])]) none none =
      .ok (Entry.dir 0 [("a", Entry.dir 0 [("f", Entry.file 2 "x")])], []) :=
  sync_idempotent (.dir 0 [("a", .dir 0 [("f", .file 2 "x")])]) 0 [] none none
    (.dir 0 [("a", .dir 0 [("f", .file 2 "x")])])
    [Op.mkdir ["a"], Op.copy ["a", "f"]]
    (by decide) (by decide) (by decide)

theorem completion_tolerates_only_eexist_witness :
    completeOne (Entry.dir 0 [("a", Entry.dir 0 [("f", Entry.file 3 "x")])])
      (Entry.dir 0 [("a", Entry.dir 0 [])]) ["a", "f"] =
      .ok (Entry.dir 0 [("a", Entry.dir 0 [("f", Entry.file 3 "x")])],
        [Op.mkdirExistsTolerated ["a"], Op.copy ["a", "f"]]) :=
  (completion_tolerates_only_eexist (.dir 0 [("a", .dir 0 [("f", .file 3 "x")])])
    (.dir 0 [("a", .dir 0 [])]) ["a", "f"]).1 3 "x"
    (.dir 0 [("a", .dir 0 [("f", .file 3 "x")])]) (by decide) (by decide) (by decide)

theorem sync_files_missing_raises_no_walk_witness :
    ∃ q, syncFiles (Entry.dir 0 []) (Entry.dir 0 []) (some [["x"]]) none =
        .error (.enoent q) ∧ findEntry (Entry.dir 0 []) q = none :=
  (sync_files_missing_raises_no_walk (.dir 0 []) (.dir 0 []) [["x"]] none).1
    ["x"] (by decide) (by decide)

theorem sync_deletes_only_below_root_witness :
    syncFiles (.dir 0 [("s", .file 1 "v")])
      (.dir 0 [("junkd", .dir 0 [("u", .file 1 "w")]), ("junkf", .file 1 "t"),
        ("s", .file 0 "old")]) (some [["s"]]) none =
      .ok (.dir 0 [("s", .file 1 "v")],
        [Op.rmtree ["junkd"], Op.remove ["junkf"], Op.copy ["s"]]) ∧
    (["junkd"] : RelPath) ≠ [] :=
  ⟨by decide,
   sync_deletes_only_below_root (.dir 0 [("s", .file 1 "v")]) 0
    [("junkd", .dir 0 [("u", .file 1 "w")]), ("junkf", .file 1 "t"),
      ("s", .file 0 "old")]
    (some [["s"]]) none (.dir 0 [("s", .file 1 "v")])
    [Op.rmtree ["junkd"], Op.remove ["junkf"], Op.copy ["s"]]
    (by decide) (by decide) ["junkd"] (Or.inl (by decide))⟩

theorem sync_keep_entry_dir_unprotected_witness :
    Op.rmtree ["k"] ∈ ([Op.rmtree ["k"]] : List Op) ∧
    findEntry (Entry.dir 0 []) ["k"] = none :=
  sync_keep_entry_dir_unprotected (.dir 0 []) 0
    [("k", .dir 0 [("x", .file 1 "a")])] (some []) (some [["k"]])
    (.dir 0 []) [Op.rmtree ["k"]] [] [] ["k"] 0 [("x", .file 1 "a")]
    (by decide) (by decide) (by decide) (by decide) (by decide) (by decide)
    (by decide) (by decide) (by decide)

end MCPackage
